import Mathlib

/-!
Verification of the code-duplication analyzer
(`src/backend/src/services/duplication.service.ts`).

The TypeScript service is shallowly embedded below: every private method of
`DuplicationService` becomes an executable Lean definition of the same name,
translated line by line from the source.  JavaScript numbers are modelled as
`Nat` (line numbers, counts) and as exact ratios of naturals (`JsRat`, for
similarity ratios and percentages);
JavaScript regular-expression operations are modelled by explicit character
scanners with the same matching semantics; `Map` iteration order (insertion
order of keys) is modelled by association lists built in insertion order;
`Array.prototype.sort` (stable in ES2019+) is modelled by a stable insertion
sort.  The MD5 fingerprint from node's `crypto` (external library code, not
part of this repository) is modelled as an injective fingerprint — the
identity on the normalized string — which the spec explicitly allows
("any fixed, deterministic content hash is acceptable").
-/

/-- Character constants, named to keep literals for quote characters out of
the source text. -/
def quoteD : Char := Char.ofNat 34

/-- Single-quote character. -/
def quoteS : Char := Char.ofNat 39

/-- Backtick character. -/
def quoteB : Char := Char.ofNat 96

/-- Backslash character. -/
def backslashC : Char := Char.ofNat 92

/-- Left curly brace character. -/
def braceL : Char := Char.ofNat 123

/-- Right curly brace character. -/
def braceR : Char := Char.ofNat 125

/-- JavaScript `\s` (whitespace class), restricted to the ASCII range. -/
def isWsChar (c : Char) : Bool :=
  c == ' ' || c == '\t' || c == '\n' || c == '\r' || c == Char.ofNat 11 || c == Char.ofNat 12

/-- JavaScript `\w` word-character class `[A-Za-z0-9_]`. -/
def isWordChar (c : Char) : Bool :=
  c.isAlpha || c.isDigit || c == '_'

/-- JavaScript LineTerminator code points: the characters the dot atom of a
regex never matches and before each of which a multiline dollar anchors —
line feed, carriage return, line separator and paragraph separator. -/
def isLineTerm (c : Char) : Bool :=
  c == '\n' || c == '\r' || c == Char.ofNat 8232 || c == Char.ofNat 8233

/-- Input file descriptor (`PrFile` in `src/backend/src/types/review.ts`). -/
structure PrFile where
  filename : String
  status : String
  additions : Nat
  deletions : Nat
  changes : Nat
  patch : Option String
deriving DecidableEq, Repr

/-- Severity tier of the duplication report. -/
inductive Severity where
  | low
  | medium
  | high
deriving DecidableEq, Repr

/-- A nonnegative JavaScript number as computed by the service: every number
it ever produces (Jaccard ratios, percentages, their roundings) is an exact
ratio of naturals small enough that the double-precision comparisons of the
source agree with exact rational comparison, so the embedding keeps the
exact ratio as an unreduced numerator/denominator pair.  Kept unreduced
(rather than `ℚ`) so that the kernel can evaluate the pipeline on concrete
inputs; every denominator the pipeline builds is positive. -/
structure JsRat where
  num : Nat
  den : Nat
deriving DecidableEq, Repr

/-- The number one. -/
def JsRat.one : JsRat := ⟨1, 1⟩

/-- Embed a natural number. -/
def JsRat.ofNat (n : Nat) : JsRat := ⟨n, 1⟩

/-- Comparison by cross-multiplication (exact for positive denominators). -/
instance : LE JsRat := ⟨fun a b => a.num * b.den ≤ b.num * a.den⟩

/-- Strict comparison by cross-multiplication. -/
instance : LT JsRat := ⟨fun a b => a.num * b.den < b.num * a.den⟩

instance (a b : JsRat) : Decidable (a ≤ b) :=
  inferInstanceAs (Decidable (a.num * b.den ≤ b.num * a.den))

instance (a b : JsRat) : Decidable (a < b) :=
  inferInstanceAs (Decidable (a.num * b.den < b.num * a.den))

/-- JavaScript `Math.max` on two numbers. -/
def JsRat.maxJ (a b : JsRat) : JsRat := if a < b then b else a

/-- The rational value of a `JsRat`. -/
def JsRat.toRat (x : JsRat) : ℚ := (x.num : ℚ) / (x.den : ℚ)

/-- Inclusive line range; `stop` models the TypeScript field `end`
(a reserved word in Lean). -/
structure LineRange where
  start : Nat
  stop : Nat
deriving DecidableEq, Repr

/-- One affected location inside `allFiles` of a clustered finding. -/
structure FileLoc where
  file : String
  lines : LineRange
deriving DecidableEq, Repr

/-- Output record (`DuplicateBlock` in `src/backend/src/types/review.ts`);
the three optional fields are present only on clustered findings. -/
structure DuplicateBlock where
  file1 : String
  file2 : String
  lines1 : LineRange
  lines2 : LineRange
  code : String
  similarity : JsRat
  clusterSize : Option Nat := none
  allFiles : Option (List FileLoc) := none
  patternHash : Option String := none
deriving DecidableEq, Repr

/-- Final report (`CodeDuplicationAnalysis` in the types file). -/
structure CodeDuplicationAnalysis where
  percentage : JsRat
  severity : Severity
  duplicateBlocks : List DuplicateBlock
  totalLines : Nat
  duplicatedLines : Nat
deriving DecidableEq, Repr

/-- Internal candidate block (`CodeBlock` interface in the service). -/
structure CodeBlock where
  file : String
  startLine : Nat
  endLine : Nat
  code : String
  normalizedCode : String
  hash : String
deriving DecidableEq, Repr

/-- An added line recovered from a patch: post-image line number and text. -/
structure AddedLine where
  lineNumber : Nat
  content : String
deriving DecidableEq, Repr

/-- The constant `MIN_BLOCK_SIZE = 10` of `DuplicationService`. -/
def MIN_BLOCK_SIZE : Nat := 10

/-- The constant `SIMILARITY_THRESHOLD = 0.85` of `DuplicationService`. -/
def SIMILARITY_THRESHOLD : JsRat := ⟨85, 100⟩

/-- Scanner for the replacement of line comments, the first stage of
`normalizeCode` (fuelled so that it is structurally recursive and reduces in
the kernel; every step consumes at least one character, so fuel equal to the
length of the input is always enough): delete from each occurrence of two
slashes through to the next line terminator, as the dotted regex with the
`gm` flags does — the dot atom stops before every LineTerminator and the
multiline dollar matches there. -/
def stripLineCommentsF : Nat → List Char → List Char
  | 0, l => l
  | _ + 1, [] => []
  | fuel + 1, '/' :: '/' :: t =>
    stripLineCommentsF fuel (t.dropWhile (fun c => !isLineTerm c))
  | fuel + 1, c :: t => c :: stripLineCommentsF fuel t

/-- Line-comment stage at adequate fuel. -/
def stripLineComments (l : List Char) : List Char :=
  stripLineCommentsF l.length l

/-- Index of the first block-comment terminator in a character list; the two
terminator characters sit at the returned index and the one after it. -/
def blockCloseIdx : List Char → Option Nat
  | '*' :: '/' :: _ => some 0
  | _ :: t => (blockCloseIdx t).map (· + 1)
  | [] => none

/-- Scanner for the second stage of `normalizeCode` (fuelled): delete each
shortest block-comment span, exactly as the non-greedy global regex does; a
comment-opener with no later terminator is left in place and scanning resumes
one character further on. -/
def stripBlockCommentsF : Nat → List Char → List Char
  | 0, l => l
  | _ + 1, [] => []
  | fuel + 1, '/' :: '*' :: t =>
    (match blockCloseIdx t with
     | some i => stripBlockCommentsF fuel (t.drop (i + 2))
     | none => '/' :: stripBlockCommentsF fuel ('*' :: t))
  | fuel + 1, c :: t => c :: stripBlockCommentsF fuel t

/-- Block-comment stage at adequate fuel. -/
def stripBlockComments (l : List Char) : List Char :=
  stripBlockCommentsF l.length l

/-- Index (within the remainder after an opening quote) of the closing quote
of a string literal, honouring backslash escapes, mirroring the literal
regexes of `normalizeCode`. -/
def litCloseIdx (q : Char) : List Char → Option Nat
  | [] => none
  | c :: t =>
    if c = q then some 0
    else if c = backslashC then
      match t with
      | [] => none
      | _ :: t' => (litCloseIdx q t').map (· + 2)
    else (litCloseIdx q t).map (· + 1)

/-- Scanner for stages three to five of `normalizeCode` (fuelled): each
complete string literal quoted with `q` is replaced by an empty literal of
the same quoting style; an unterminated opening quote stays and scanning
resumes after it. -/
def elideLiteralsF (q : Char) : Nat → List Char → List Char
  | 0, l => l
  | _ + 1, [] => []
  | fuel + 1, c :: t =>
    if c = q then
      match litCloseIdx q t with
      | some i => q :: q :: elideLiteralsF q fuel (t.drop (i + 1))
      | none => c :: elideLiteralsF q fuel t
    else c :: elideLiteralsF q fuel t

/-- Literal-elision stage at adequate fuel. -/
def elideLiterals (q : Char) (l : List Char) : List Char :=
  elideLiteralsF q l.length l

/-- Stage six of `normalizeCode`: collapse every whitespace run to a single
space; the boolean state records being inside a run whose space has already
been emitted. -/
def collapseWsGo (inRun : Bool) : List Char → List Char
  | [] => []
  | c :: t =>
    if isWsChar c then
      if inRun then collapseWsGo true t
      else ' ' :: collapseWsGo true t
    else c :: collapseWsGo false t

/-- Whitespace-collapsing stage. -/
def collapseWs (l : List Char) : List Char :=
  collapseWsGo false l

/-- JavaScript `String.prototype.trim` on a character list. -/
def trimWs (l : List Char) : List Char :=
  ((l.dropWhile isWsChar).reverse.dropWhile isWsChar).reverse

/-- `DuplicationService.normalizeCode`: strip line comments, strip block
comments, elide double-quoted, single-quoted and backtick string literals,
collapse whitespace, trim, lowercase. -/
def normalizeCode (code : String) : String :=
  String.mk (((trimWs (collapseWs
    (elideLiterals quoteB (elideLiterals quoteS (elideLiterals quoteD
      (stripBlockComments (stripLineComments code.toList))))))).map Char.toLower))

/-- `DuplicationService.hashCode`: the MD5 hex digest of node's `crypto`
module (external library code), modelled as an injective fingerprint — the
identity map on strings.  The spec states any fixed deterministic content
hash is acceptable; all the service ever does with the digest is compare it
for equality and store it. -/
def hashCode (code : String) : String := code

/-- Bool test for one list being a contiguous substring of another. -/
def containsSubstring (hay pat : List Char) : Bool :=
  match hay with
  | [] => pat.isEmpty
  | c :: t => pat.isPrefixOf (c :: t) || containsSubstring t pat

/-- `DuplicationService.shouldSkipFile`: the fifteen skip patterns, each an
anchored suffix match or an unanchored substring match. -/
def shouldSkipFile (filename : String) : Bool :=
  let l := filename.toList
  let ends := fun (p : String) => p.toList.isSuffixOf l
  let has := fun (p : String) => containsSubstring l p.toList
  ends ".json" || ends ".md" || ends ".txt" || ends ".yaml" || ends ".yml" ||
    ends ".lock" || ends "package-lock.json" || ends "yarn.lock" ||
    ends ".min.js" || has ".test." || has ".spec." || has "/__tests__/" ||
    has "/node_modules/" || has "/dist/" || has "/build/"

/-- Matcher for the regex anchored on a keyword followed by one whitespace
character (the `import` and `export` triviality patterns). -/
def startsKwWs (l : List Char) (kw : String) : Bool :=
  kw.toList.isPrefixOf l &&
    (match l.drop kw.length with
     | c :: _ => isWsChar c
     | [] => false)

/-- Matcher for the triviality pattern on `const`-`require` declarations. -/
def matchConstRequire (l : List Char) : Bool :=
  if ("const").toList.isPrefixOf l then
    match l.drop 5 with
    | c :: _ =>
      if isWsChar c then
        match (l.drop 5).dropWhile isWsChar with
        | d :: _ =>
          if isWordChar d then
            match (((l.drop 5).dropWhile isWsChar).dropWhile isWordChar).dropWhile isWsChar with
            | '=' :: r =>
              ("require").toList.isPrefixOf (r.dropWhile isWsChar)
            | _ => false
          else false
        | [] => false
      else false
    | [] => false
  else false

/-- Matcher for the triviality patterns that accept a single bracket
character surrounded by optional whitespace. -/
def isOnlyChar (l : List Char) (c : Char) : Bool :=
  match l.dropWhile isWsChar with
  | d :: t => d == c && t.all isWsChar
  | [] => false

/-- Case-insensitive prefix test (for the `gi`-flagged class-name regex). -/
def ciPrefix (pat : String) (l : List Char) : Bool :=
  (pat.toList.map Char.toLower).isPrefixOf (l.map Char.toLower)

/-- Count of non-overlapping, case-insensitive matches of the alternation of
the two class-name tokens, scanned left to right as the global regex does;
the first argument counts characters of a previous match still to be
stepped over. -/
def countClassTokensGo : Nat → List Char → Nat
  | _ + 1, [] => 0
  | skip + 1, _ :: t => countClassTokensGo skip t
  | 0, [] => 0
  | 0, c :: t =>
    if ciPrefix "classname" (c :: t) then 1 + countClassTokensGo 8 t
    else if ciPrefix "class=" (c :: t) then 1 + countClassTokensGo 5 t
    else countClassTokensGo 0 t

/-- Class-token count started outside any match. -/
def countClassTokens (l : List Char) : Nat :=
  countClassTokensGo 0 l

/-- `DuplicationService.isTrivalBlock` (name as in the source): short blocks,
markup-heavy blocks and blocks matching one of the seven trivial patterns. -/
def isTrivalBlock (normalizedCode : String) : Bool :=
  let l := normalizedCode.toList
  if l.length < 30 then true
  else if 2 < countClassTokens l && l.length < 100 then true
  else
    startsKwWs l "import" || startsKwWs l "export" || matchConstRequire l ||
      isOnlyChar l braceR || isOnlyChar l braceL || isOnlyChar l ')' ||
      isOnlyChar l '('

/-- First occurrence of a plus sign followed by at least one decimal digit;
returns the value of the maximal digit run after it, as the capture of the
hunk-header regex parsed with `parseInt`. -/
def findPlusDigits : List Char → Option Nat
  | [] => none
  | '+' :: t =>
    match t with
    | c :: _ =>
      if c.isDigit then
        some ((t.takeWhile Char.isDigit).foldl (fun n d => 10 * n + (d.toNat - 48)) 0)
      else findPlusDigits t
    | [] => none
  | _ :: t => findPlusDigits t

/-- Split a character list at newline characters, as JavaScript
`split` with a newline argument does (a trailing newline yields a trailing
empty line). -/
def splitOnNl : List Char → List (List Char)
  | [] => [[]]
  | c :: t =>
    if c = '\n' then [] :: splitOnNl t
    else
      match splitOnNl t with
      | h :: r => (c :: h) :: r
      | [] => [[c]]

/-- Body of the loop of `DuplicationService.extractAddedLines`, carrying the
running post-image cursor `currentLine` over the patch lines. -/
def extractAddedLinesGo (current : Nat) : List (List Char) → List AddedLine
  | [] => []
  | line :: rest =>
    if ['@', '@'].isPrefixOf line then
      match findPlusDigits line with
      | some n => extractAddedLinesGo n rest
      | none => extractAddedLinesGo current rest
    else if ['+'].isPrefixOf line && !(['+', '+', '+'].isPrefixOf line) then
      ⟨current, String.mk (line.drop 1)⟩ :: extractAddedLinesGo (current + 1) rest
    else if ['-'].isPrefixOf line then
      extractAddedLinesGo current rest
    else
      extractAddedLinesGo (current + 1) rest

/-- `DuplicationService.extractAddedLines`: split the patch on newlines and
walk it with a cursor starting at zero. -/
def extractAddedLines (patch : String) : List AddedLine :=
  extractAddedLinesGo 0 (splitOnNl patch.toList)

/-- JavaScript `Array.prototype.join` with a newline separator. -/
def joinNl : List String → String
  | [] => ""
  | [s] => s
  | s :: t => s ++ "\n" ++ joinNl t

/-- The candidate block of one sliding-window offset: the window of
`MIN_BLOCK_SIZE` added lines starting at offset `i`, skipped when its
normalized code is trivial. -/
def windowBlock (file : String) (lines : List AddedLine) (i : Nat) : Option CodeBlock :=
  if isTrivalBlock (normalizeCode (joinNl (((lines.drop i).take MIN_BLOCK_SIZE).map
      (fun x => x.content)))) then none
  else some
    { file := file
      startLine := ((((lines.drop i).take MIN_BLOCK_SIZE).head?).map
        (fun x => x.lineNumber)).getD 0
      endLine := ((((lines.drop i).take MIN_BLOCK_SIZE).getLast?).map
        (fun x => x.lineNumber)).getD 0
      code := joinNl (((lines.drop i).take MIN_BLOCK_SIZE).map (fun x => x.content))
      normalizedCode := normalizeCode (joinNl (((lines.drop i).take MIN_BLOCK_SIZE).map
        (fun x => x.content)))
      hash := hashCode (normalizeCode (joinNl (((lines.drop i).take MIN_BLOCK_SIZE).map
        (fun x => x.content)))) }

/-- Candidate blocks contributed by a single file: the per-file body of the
loop in `DuplicationService.extractCodeBlocks`. -/
def blocksOfFile (f : PrFile) : List CodeBlock :=
  if shouldSkipFile f.filename then []
  else
    match f.patch with
    | none => []
    | some patch =>
      if (extractAddedLines patch).length < MIN_BLOCK_SIZE then []
      else
        (List.range ((extractAddedLines patch).length - MIN_BLOCK_SIZE + 1)).filterMap
          (windowBlock f.filename (extractAddedLines patch))

/-- `DuplicationService.extractCodeBlocks`: all candidate blocks, in file
order then window order. -/
def extractCodeBlocks (files : List PrFile) : List CodeBlock :=
  files.flatMap blocksOfFile

/-- JavaScript `String.prototype.split` on the whitespace regex: boundary
runs contribute empty tokens, exactly as the engine does.  `inRun` records
that the current token has already been emitted and the scanner sits inside
its separating whitespace run; `cur` is the reversed current token. -/
def jsSplitWsGo (inRun : Bool) (cur : List Char) : List Char → List String
  | [] => [String.mk cur.reverse]
  | c :: t =>
    if isWsChar c then
      if inRun then jsSplitWsGo true cur t
      else String.mk cur.reverse :: jsSplitWsGo true [] t
    else jsSplitWsGo false (c :: cur) t

/-- Whitespace-split of a string, as `code.split` with the `\s+` regex. -/
def jsSplitWs (s : String) : List String :=
  jsSplitWsGo false [] s.toList

/-- `DuplicationService.calculateSimilarity`: Jaccard similarity of the sets
of whitespace-delimited tokens. -/
def calculateSimilarity (code1 code2 : String) : JsRat :=
  let tokens1 := (jsSplitWs code1).dedup
  let tokens2 := (jsSplitWs code2).dedup
  let inter := tokens1.filter (fun x => tokens2.contains x)
  let uni := tokens1 ++ tokens2.filter (fun x => !(tokens1.contains x))
  if 0 < uni.length then ⟨inter.length, uni.length⟩ else ⟨0, 1⟩

/-- Lexicographic comparison of character lists, the order JavaScript's
default array sort uses on (ASCII) strings. -/
def strLtChars : List Char → List Char → Bool
  | [], [] => false
  | [], _ :: _ => true
  | _ :: _, [] => false
  | c1 :: t1, c2 :: t2 => if c1 = c2 then strLtChars t1 t2 else decide (c1 < c2)

/-- JavaScript string comparison (code-unit lexicographic; the keys compared
here are ASCII). -/
def jsStrLt (a b : String) : Bool :=
  strLtChars a.toList b.toList

/-- The string key of a block inside `createDuplicateKey`. -/
def blockKey (b : CodeBlock) : String :=
  b.file ++ ":" ++ toString b.startLine ++ "-" ++ toString b.endLine

/-- `DuplicationService.createDuplicateKey`: the two block keys sorted
lexicographically and joined with a bar. -/
def createDuplicateKey (b1 b2 : CodeBlock) : String :=
  let k1 := blockKey b1
  let k2 := blockKey b2
  if jsStrLt k2 k1 then k2 ++ "|" ++ k1 else k1 ++ "|" ++ k2

/-- Append a value to the group of key `k`, creating the group at the end on
first insertion: association lists in key-insertion order model the
iteration order of a JavaScript `Map`. -/
def insertGroup {κ ν : Type} [DecidableEq κ] (m : List (κ × List ν)) (k : κ) (v : ν) :
    List (κ × List ν) :=
  match m with
  | [] => [(k, [v])]
  | (k', vs) :: t => if k' = k then (k', vs ++ [v]) :: t else (k', vs) :: insertGroup t k v

/-- Group a list by a key function, keys in first-insertion order, values in
list order. -/
def groupByKey {κ ν : Type} [DecidableEq κ] (key : ν → κ) (l : List ν) : List (κ × List ν) :=
  l.foldl (fun m v => insertGroup m (key v) v) []

/-- All ordered index pairs of a list, in the iteration order of the nested
loops with the inner index strictly above the outer one. -/
def orderedPairs {α : Type} : List α → List (α × α)
  | [] => []
  | x :: t => (t.map (fun y => (x, y))) ++ orderedPairs t

/-- The duplicate record both passes of `findDuplicates` push for a block
pair. -/
def mkPair (b1 b2 : CodeBlock) (s : JsRat) : DuplicateBlock :=
  { file1 := b1.file, file2 := b2.file,
    lines1 := ⟨b1.startLine, b1.endLine⟩,
    lines2 := ⟨b2.startLine, b2.endLine⟩,
    code := b1.code, similarity := s }

/-- One iteration of the exact-match pass of `findDuplicates`, threading the
accumulated duplicate list and the `seen` key set. -/
def pass1Step (acc : List DuplicateBlock × List String) (p : CodeBlock × CodeBlock) :
    List DuplicateBlock × List String :=
  if p.1.file = p.2.file then acc
  else
    let key := createDuplicateKey p.1 p.2
    if key ∈ acc.2 then acc
    else (acc.1 ++ [mkPair p.1 p.2 JsRat.one], acc.2 ++ [key])

/-- The exact-match pass: group blocks by fingerprint (a JavaScript `Map`,
iterated in key-insertion order), then emit each unordered cross-file pair
of a bucket of size at least two. -/
def findExactDuplicates (blocks : List CodeBlock) : List DuplicateBlock × List String :=
  (groupByKey (fun b => b.hash) blocks).foldl
    (fun acc g => if 1 < g.2.length then (orderedPairs g.2).foldl pass1Step acc else acc)
    ([], [])

/-- One iteration of the fuzzy pass of `findDuplicates`. -/
def pass2Step (acc : List DuplicateBlock × List String) (p : CodeBlock × CodeBlock) :
    List DuplicateBlock × List String :=
  if p.1.file = p.2.file then acc
  else
    let similarity := calculateSimilarity p.1.normalizedCode p.2.normalizedCode
    if SIMILARITY_THRESHOLD ≤ similarity ∧ similarity < JsRat.one then
      let key := createDuplicateKey p.1 p.2
      if key ∈ acc.2 then acc
      else (acc.1 ++ [mkPair p.1 p.2 similarity], acc.2 ++ [key])
    else acc

/-- The unordered file-pair key used to partition duplicates before
merging. -/
def filePairKey (d : DuplicateBlock) : String :=
  if jsStrLt d.file2 d.file1 then d.file2 ++ "|" ++ d.file1
  else d.file1 ++ "|" ++ d.file2

/-- Insert into a list sorted by the strict comparator `lt`, after every
element strictly smaller, before the first that is not: with the element
arriving from the left this is a stable insertion. -/
def insertSorted {α : Type} (lt : α → α → Bool) (x : α) : List α → List α
  | [] => [x]
  | y :: t => if lt y x then y :: insertSorted lt x t else x :: y :: t

/-- Stable insertion sort, modelling `Array.prototype.sort` (stable since
ES2019) under a consistent comparator. -/
def sortStable {α : Type} (lt : α → α → Bool) : List α → List α
  | [] => []
  | x :: t => insertSorted lt x (sortStable lt t)

/-- The consolidated record `mergeOverlappingDuplicates` builds from two
overlapping records (everything else is retained from `current`). -/
def mergeCombine (current next : DuplicateBlock) : DuplicateBlock :=
  { current with
    lines1 := ⟨min current.lines1.start next.lines1.start,
               max current.lines1.stop next.lines1.stop⟩
    lines2 := ⟨min current.lines2.start next.lines2.start,
               max current.lines2.stop next.lines2.stop⟩
    similarity := JsRat.maxJ current.similarity next.similarity }

/-- The walk of `mergeOverlappingDuplicates` over one sorted partition,
carrying the `current` record. -/
def mergeWalk (current : DuplicateBlock) : List DuplicateBlock → List DuplicateBlock
  | [] => [current]
  | next :: t =>
    if next.lines1.start ≤ current.lines1.stop + 2 ∧ next.lines2.start ≤ current.lines2.stop + 2 then
      mergeWalk (mergeCombine current next) t
    else current :: mergeWalk next t

/-- `DuplicationService.mergeOverlappingDuplicates`: partition by unordered
file pair, sort each partition by the start of the first range, and coalesce
records whose ranges overlap or abut within two lines. -/
def mergeOverlappingDuplicates (duplicates : List DuplicateBlock) : List DuplicateBlock :=
  if duplicates.isEmpty then []
  else
    (groupByKey filePairKey duplicates).flatMap (fun g =>
      match sortStable (fun a b => a.lines1.start < b.lines1.start) g.2 with
      | [] => []
      | first :: rest => mergeWalk first rest)

/-- The constant `CLUSTER_SIMILARITY_THRESHOLD = 0.9` of the clusterer. -/
def CLUSTER_SIMILARITY_THRESHOLD : JsRat := ⟨9, 10⟩

/-- Root lookup in the union-find parent array.  The source recurses with
path compression; compression rewires non-root nodes directly to their root
and never changes which root a node reaches, so this compression-free
variant with fuel equal to the array length (an upper bound on the length of
a parent chain in the acyclic forest the unions build) returns the same
root. -/
def ufFind (parent : List Nat) : Nat → Nat → Nat
  | 0, x => x
  | fuel + 1, x =>
    let p := parent.getD x x
    if p = x then x else ufFind parent fuel p

/-- Union by root reassignment, as in the source (no union by rank). -/
def ufUnion (parent : List Nat) (x y : Nat) : List Nat :=
  let rootX := ufFind parent parent.length x
  let rootY := ufFind parent parent.length y
  if rootX ≠ rootY then parent.set rootX rootY else parent

/-- The `fileLocations` map of one cluster: for every pair in the cluster,
append `lines1` under `file1` and `lines2` under `file2`. -/
def clusterFileLocations (cluster : List DuplicateBlock) : List (String × List LineRange) :=
  cluster.foldl
    (fun m inst => insertGroup (insertGroup m inst.file1 inst.lines1) inst.file2 inst.lines2) []

/-- The range-coalescing walk of the clusterer (single slack condition on
the sorted starts). -/
def mergeRangesWalk (current : LineRange) : List LineRange → List LineRange
  | [] => [current]
  | next :: t =>
    if next.start ≤ current.stop + 2 then
      mergeRangesWalk ⟨min current.start next.start, max current.stop next.stop⟩ t
    else current :: mergeRangesWalk next t

/-- Sort a file's ranges by start and coalesce adjacent or overlapping
ones. -/
def mergedRangesOf (ranges : List LineRange) : List LineRange :=
  match sortStable (fun a b => a.start < b.start) ranges with
  | [] => []
  | first :: rest => mergeRangesWalk first rest

/-- Flatten the per-file merged ranges to the `allFiles` list. -/
def clusterAllFiles (fileLocations : List (String × List LineRange)) : List FileLoc :=
  fileLocations.flatMap (fun g => (mergedRangesOf g.2).map (fun r => ⟨g.1, r⟩))

/-- The `reduce` of the clusterer choosing the pair of strictly highest
similarity, first such pair on ties. -/
def clusterRepresentative (first : DuplicateBlock) (rest : List DuplicateBlock) : DuplicateBlock :=
  rest.foldl (fun best cur => if best.similarity < cur.similarity then cur else best) first

/-- Emit one cluster: singletons pass through unchanged, larger clusters
collapse to their representative extended with `clusterSize`, `allFiles` and
`patternHash`. -/
def processCluster : List DuplicateBlock → List DuplicateBlock
  | [] => []
  | [d] => [d]
  | first :: next :: rest =>
    [{ clusterRepresentative first (next :: rest) with
        clusterSize := some (clusterFileLocations (first :: next :: rest)).length
        allFiles := some (clusterAllFiles (clusterFileLocations (first :: next :: rest)))
        patternHash := some (hashCode (clusterRepresentative first (next :: rest)).code) }]

/-- The parent array after the union loop of the clusterer: for every
ordered index pair whose raw codes have Jaccard similarity at least `0.9`,
union the two indices. -/
def clusterParent (duplicates : List DuplicateBlock) : List Nat :=
  (orderedPairs duplicates.enum).foldl
    (fun par p =>
      if CLUSTER_SIMILARITY_THRESHOLD ≤ calculateSimilarity p.1.2.code p.2.2.code then
        ufUnion par p.1.1 p.2.1
      else par)
    (List.range duplicates.length)

/-- The cluster map of the clusterer: each record grouped under the final
root of its index, roots in first-insertion order. -/
def clusterMapOf (duplicates : List DuplicateBlock) : List (Nat × List DuplicateBlock) :=
  duplicates.enum.foldl
    (fun m p =>
      insertGroup m (ufFind (clusterParent duplicates) (clusterParent duplicates).length p.1)
        p.2)
    []

/-- `DuplicationService.clusterDuplicatesByPattern`: union-find over all
pairs whose raw codes have Jaccard similarity at least `0.9`, grouping by
final root in first-insertion order, then emitting each cluster. -/
def clusterDuplicatesByPattern (duplicates : List DuplicateBlock) : List DuplicateBlock :=
  if duplicates.isEmpty then []
  else (clusterMapOf duplicates).flatMap (fun g => processCluster g.2)

/-- The cluster size a finding contributes to the final sort: JavaScript
reads `clusterSize || 1`, so both an absent and a zero size count as one. -/
def jsClusterSize (d : DuplicateBlock) : Nat :=
  match d.clusterSize with
  | none => 1
  | some n => if n = 0 then 1 else n

/-- The final comparator of `findDuplicates`: cluster size descending, then
similarity descending. -/
def dupSortLt (a b : DuplicateBlock) : Bool :=
  decide (jsClusterSize b < jsClusterSize a ∨
    (jsClusterSize a = jsClusterSize b ∧ b.similarity < a.similarity))

/-- `DuplicationService.findDuplicates`: exact pass, fuzzy pass, overlap
merge, clustering, final sort. -/
def findDuplicates (blocks : List CodeBlock) : List DuplicateBlock :=
  let acc1 := findExactDuplicates blocks
  let acc2 := (orderedPairs blocks).foldl pass2Step acc1
  let merged := mergeOverlappingDuplicates acc2.1
  let clustered := clusterDuplicatesByPattern merged
  sortStable dupSortLt clustered

/-- `DuplicationService.calculateTotalLines`: sum of `additions` over the
non-skipped files. -/
def calculateTotalLines (files : List PrFile) : Nat :=
  files.foldl (fun sum f => if shouldSkipFile f.filename then sum else sum + f.additions) 0

/-- The `(file, line)` points a range contributes to the duplicated-line
set.  The source collects strings `file ++ ":" ++ i`; that encoding is
injective on pairs because the digits after the last colon determine `i`,
so the set is modelled as a set of pairs. -/
def rangePoints (file : String) (r : LineRange) : List (String × Nat) :=
  if r.start ≤ r.stop then (List.range (r.stop + 1 - r.start)).map (fun k => (file, r.start + k))
  else []

/-- `DuplicationService.calculateDuplicatedLines`: the size of the set of
line points covered by both sides of every finding. -/
def calculateDuplicatedLines (duplicates : List DuplicateBlock) : Nat :=
  ((duplicates.flatMap (fun d => rangePoints d.file1 d.lines1 ++ rangePoints d.file2 d.lines2)).dedup).length

/-- `DuplicationService.calculateSeverity`: the two percentage thresholds. -/
def calculateSeverity (percentage : JsRat) : Severity :=
  if JsRat.ofNat 30 ≤ percentage then Severity.high
  else if JsRat.ofNat 15 ≤ percentage then Severity.medium
  else Severity.low

/-- JavaScript `Math.round(q * 10) / 10` on a nonnegative ratio:
`Math.round x` is `⌊x + 1/2⌋`, and for naturals `a`, `b` the floor of
`a / b + 1 / 2` is the natural division `(2 * a + b) / (2 * b)`. -/
def jsRound1 (q : JsRat) : JsRat :=
  ⟨(2 * (q.num * 10) + q.den) / (2 * q.den), 10⟩

/-- The body of the `try` block of `analyzeDuplication`: pipeline stages in
order, then the aggregate metrics. -/
def analyzeCore (files : List PrFile) : CodeDuplicationAnalysis :=
  let blocks := extractCodeBlocks files
  let duplicates := findDuplicates blocks
  let totalLines := calculateTotalLines files
  let duplicatedLines := calculateDuplicatedLines duplicates
  let percentage := if 0 < totalLines then (⟨duplicatedLines * 100, totalLines⟩ : JsRat) else ⟨0, 1⟩
  { percentage := jsRound1 percentage
    severity := calculateSeverity percentage
    duplicateBlocks := duplicates
    totalLines := totalLines
    duplicatedLines := duplicatedLines }

/-- The empty report returned by the `catch` branch. -/
def emptyReport : CodeDuplicationAnalysis :=
  { percentage := ⟨0, 1⟩, severity := Severity.low, duplicateBlocks := [], totalLines := 0,
    duplicatedLines := 0 }

/-- The fallible computation guarded by the `try`: the one runtime failure
the embedding models is a `null`/`undefined` file list, which makes the
`for`-`of` iteration in `extractCodeBlocks` throw a `TypeError`; every
well-typed list input runs the total pipeline. -/
def analyzeDuplicationBody (files : Option (List PrFile)) :
    Except String CodeDuplicationAnalysis :=
  match files with
  | none => Except.error "files is not iterable"
  | some fs => Except.ok (analyzeCore fs)

/-- `DuplicationService.analyzeDuplication`: the `try`/`catch` wrapper —
any error from the body is caught and replaced by the empty report. -/
def analyzeDuplication (files : Option (List PrFile)) : CodeDuplicationAnalysis :=
  match analyzeDuplicationBody files with
  | Except.ok report => report
  | Except.error _ => emptyReport

/-- A non-trivial added line of test content (distinct per index). -/
def dupLine (i : Nat) : String :=
  "+val qq" ++ toString i ++ " := compute beta gamma delta " ++ toString i

/-- A run of `n` added lines starting at index `lo`, joined by newlines. -/
def dupBody (lo n : Nat) : String :=
  joinNl ((List.range n).map (fun k => dupLine (lo + k)))

/-- A well-formed single-hunk patch adding ten non-trivial lines at
post-image lines one to ten. -/
def plainPatch : String :=
  "@@ -0,0 +1,10 @@\n" ++ dupBody 0 10

/-- A patch whose ten added lines sit at post-image lines `1` and `m` to
`m + 8`: the sliding window spans the context gap, so the emitted block
covers far more post-image lines than were added. -/
def gapPatch (m : Nat) : String :=
  "@@ -0,0 +1 @@\n" ++ dupLine 0 ++ "\n@@ -0,0 +" ++ toString m ++ ",9 @@\n" ++ dupBody 1 9

/-- A malformed patch whose second hunk header jumps backwards, so the ten
added lines have decreasing line numbers (first five at 100 to 104, last
five at 1 to 5). -/
def backwardsPatch : String :=
  "@@ -0,0 +100,5 @@\n" ++ dupBody 0 5 ++ "\n@@ -0,0 +1,5 @@\n" ++ dupBody 5 5

/-- Test file with the given name, additions count and patch. -/
def mkFile (name : String) (adds : Nat) (patch : String) : PrFile :=
  { filename := name, status := "modified", additions := adds, deletions := 0,
    changes := adds, patch := some patch }

/-- Two files with identical plain ten-line blocks (an exact duplicate). -/
def filesPlain : List PrFile :=
  [mkFile "a.ts" 10 plainPatch, mkFile "b.ts" 10 plainPatch]

/-- Three files with identical plain ten-line blocks (a three-file
cluster). -/
def filesCluster : List PrFile :=
  [mkFile "a.ts" 10 plainPatch, mkFile "b.ts" 10 plainPatch, mkFile "c.ts" 10 plainPatch]

/-- Two files with identical gap-spanning blocks and truthful `additions`
counts: ten added lines each, but each reported range covers a hundred
post-image lines. -/
def filesGap : List PrFile :=
  [mkFile "a.ts" 10 (gapPatch 92), mkFile "b.ts" 10 (gapPatch 92)]

/-- Input tuned so that the unrounded percentage is `20200 / 674 ≈ 29.97`:
rounding lifts the reported percentage to exactly `30.0` while the severity
is computed from the unrounded value. -/
def filesNearThirty : List PrFile :=
  [mkFile "a.ts" 674 (gapPatch 92), mkFile "b.ts" 0 (gapPatch 94)]

/-- Two files with identical blocks built from the backwards patch. -/
def filesBackwards : List PrFile :=
  [mkFile "a.ts" 10 backwardsPatch, mkFile "b.ts" 10 backwardsPatch]

/-- Well-formedness of a file's patch for range ordering: the added lines
the parser recovers carry non-decreasing line numbers (true of every patch
whose hunk headers appear in increasing position). -/
def fileLinesOrdered (f : PrFile) : Prop :=
  match f.patch with
  | none => True
  | some p => (extractAddedLines p).Pairwise (fun a b => a.lineNumber ≤ b.lineNumber)

instance (f : PrFile) : Decidable (fileLinesOrdered f) := by
  unfold fileLinesOrdered
  cases f.patch <;> infer_instance

/-- The percentage before rounding, as the spec writes it: one hundred times
the ratio of the report's own `duplicatedLines` and `totalLines` fields,
zero when no lines were counted. -/
def unroundedPercentage (files : List PrFile) : ℚ :=
  if (analyzeCore files).totalLines = 0 then 0
  else 100 * ((analyzeCore files).duplicatedLines : ℚ) / ((analyzeCore files).totalLines : ℚ)

/-- A hunk of a unified diff: one header line and the body lines that follow
it until the next header, in the character-list form the patch walker
consumes. -/
structure Hunk where
  header : List Char
  body : List (List Char)
deriving DecidableEq, Repr

/-- The post-image start position captured by the hunk-header regex of
`DuplicationService.extractAddedLines` (zero when the header has no capture). -/
def hunkStart (h : Hunk) : Nat :=
  (findPlusDigits h.header).getD 0

/-- Specification-side definition, written from the words of the spec: number
the lines of a hunk body by post-image position starting at `n`; deletion
lines are absent from the post-image and consume no number. -/
def specNumberNonDel (n : Nat) : List (List Char) → List (Nat × List Char)
  | [] => []
  | line :: rest =>
    if ['-'].isPrefixOf line then specNumberNonDel n rest
    else (n, line) :: specNumberNonDel (n + 1) rest

/-- Specification-side definition: the added lines of a hunk are exactly its
post-image lines carrying a leading plus, reported at their post-image line
number with the plus stripped. -/
def specHunkAdded (n : Nat) (body : List (List Char)) : List AddedLine :=
  (specNumberNonDel n body).filterMap (fun p =>
    if ['+'].isPrefixOf p.2 then some ⟨p.1, String.mk (p.2.drop 1)⟩ else none)

/-- Number of post-image lines of a hunk body: how far the cursor of the
patch walker advances across it. -/
def countNonDel (body : List (List Char)) : Nat :=
  (body.filter (fun line => !(['-'].isPrefixOf line))).length

/-- A concrete well-formed one-hunk patch. -/
def hunkPatchW : String :=
  "@@ -1,2 +5,3 @@\n ctx\n+alpha\n-gone\n+beta"

/-- The hunk decomposition of `hunkPatchW`. -/
def hunksW : List Hunk :=
  [⟨"@@ -1,2 +5,3 @@".toList,
    [" ctx".toList, "+alpha".toList, "-gone".toList, "+beta".toList]⟩]

/-- A segmentation of a block text into the lexical pieces `normalizeCode`
claims to treat uniformly: plain code, whitespace, a line comment (rendered
with its two leading slashes), a block comment (rendered with its delimiters),
and a string literal (rendered with its quote character on both sides). -/
inductive Seg where
  | code (s : List Char)
  | ws (s : List Char)
  | lineC (s : List Char)
  | blockC (s : List Char)
  | lit (q : Char) (body : List Char)
deriving DecidableEq, Repr

/-- The program text of one segment. -/
def renderSeg : Seg → List Char
  | .code s => s
  | .ws s => s
  | .lineC s => '/' :: '/' :: s
  | .blockC s => '/' :: '*' :: (s ++ '*' :: '/' :: [])
  | .lit q body => q :: (body ++ [q])

/-- The program text of a segment list. -/
def render (segs : List Seg) : List Char :=
  segs.flatMap renderSeg

/-- One of the three literal quote characters of `normalizeCode`. -/
def isQuoteChar (c : Char) : Bool :=
  c == quoteD || c == quoteS || c == quoteB

/-- Liberal well-formedness of one segment, marking it a genuine lexical
piece: code carries no whitespace, slash, star, quote or backslash; a
whitespace segment is a nonempty run of whitespace; a line comment has no
newline; a block-comment body has no slash or star; a literal is quoted by
one of the three quote characters and its body never closes the literal
early (no unescaped quote, no backslash). -/
def segWF : Seg → Bool
  | .code s => !s.isEmpty && s.all (fun c =>
      !isWsChar c && !isQuoteChar c && c ≠ backslashC && c ≠ '/' && c ≠ '*')
  | .ws s => !s.isEmpty && s.all isWsChar
  | .lineC s => s.all (fun c => !isLineTerm c)
  | .blockC s => s.all (fun c => c ≠ '/' && c ≠ '*')
  | .lit q body => isQuoteChar q && body.all (fun c => c ≠ q && c ≠ backslashC)

/-- Strict well-formedness: as `segWF`, but a literal body may not contain
any of the three quote characters, a backslash, or a slash — the characters
whose appearance inside a literal confuses the stage order of
`normalizeCode`. -/
def segWFStrict : Seg → Bool
  | .lit q body => isQuoteChar q && body.all (fun c =>
      !isQuoteChar c && c ≠ backslashC && c ≠ '/')
  | s => segWF s

/-- Adjacency discipline of genuine texts: a line comment runs to the end of
its line, so its successor must begin with a newline; and nothing beginning
with a slash may directly follow a block comment (the closing slash would
pair with it). -/
def adjOk : Seg → Seg → Bool
  | .lineC _, .ws s => s.head? == some '\n'
  | .lineC _, _ => false
  | .blockC _, .lineC _ => false
  | .blockC _, .blockC _ => false
  | _, _ => true

/-- The adjacency discipline over a whole segment list. -/
def chainOk : List Seg → Bool
  | [] => true
  | [_] => true
  | s1 :: s2 :: t => adjOk s1 s2 && chainOk (s2 :: t)

/-- Liberal well-formedness of a segment list. -/
def SegsWF (segs : List Seg) : Bool :=
  segs.all segWF && chainOk segs

/-- Strict well-formedness of a segment list. -/
def SegsWFStrict (segs : List Seg) : Bool :=
  segs.all segWFStrict && chainOk segs

/-- Whether a segment is a line comment. -/
def isLineC : Seg → Bool
  | .lineC _ => true
  | _ => false

/-- Whether a segment is a block comment. -/
def isBlockC : Seg → Bool
  | .blockC _ => true
  | _ => false

/-- The effect of one literal-elision stage on a segment. -/
def elideSeg (q : Char) : Seg → Seg
  | .lit q2 body => if q2 = q then .lit q2 [] else .lit q2 body
  | s => s

/-- Two segments that differ only in comment contents, literal contents,
whitespace, or letter case: same kind, same literal quote, and code equal up
to case. -/
def similarSeg : Seg → Seg → Bool
  | .code s1, .code s2 => s1.map Char.toLower == s2.map Char.toLower
  | .ws _, .ws _ => true
  | .lineC _, .lineC _ => true
  | .blockC _, .blockC _ => true
  | .lit q1 _, .lit q2 _ => q1 == q2
  | _, _ => false

/-- Positionwise similarity of two segment lists. -/
def similarSegs : List Seg → List Seg → Bool
  | [], [] => true
  | s1 :: t1, s2 :: t2 => similarSeg s1 s2 && similarSegs t1 t2
  | _, _ => false

/-- The comment-free, literal-elided segment list: what survives the first
five stages of `normalizeCode`. -/
def cleanSegs (segs : List Seg) : List Seg :=
  ((((segs.filter (fun s => !isLineC s)).filter (fun s => !isBlockC s)).map
    (elideSeg quoteD)).map (elideSeg quoteS)).map (elideSeg quoteB)

/-- Pairs of cleaned segments as the whitespace-collapsing stage sees them:
matching nonempty non-whitespace code equal up to case, matching nonempty
whitespace runs, or an identical emptied literal. -/
def cleanPair : Seg → Seg → Bool
  | .code s1, .code s2 => !s1.isEmpty && s1.all (fun c => !isWsChar c) &&
      (!s2.isEmpty && s2.all (fun c => !isWsChar c)) &&
      (s1.map Char.toLower == s2.map Char.toLower)
  | .ws s1, .ws s2 => !s1.isEmpty && s1.all isWsChar &&
      (!s2.isEmpty && s2.all isWsChar)
  | .lit q1 b1, .lit q2 b2 => q1 == q2 && !isWsChar q1 && b1.isEmpty && b2.isEmpty
  | _, _ => false

/-- Positionwise `cleanPair`. -/
def cleanAligned : List Seg → List Seg → Bool
  | [], [] => true
  | s1 :: t1, s2 :: t2 => cleanPair s1 s2 && cleanAligned t1 t2
  | _, _ => false

/-- Characters equal up to case that agree on being whitespace. -/
def lowWsEq (c d : Char) : Prop :=
  Char.toLower c = Char.toLower d ∧ isWsChar c = isWsChar d

/-- Two genuine texts differing only in the contents of one string literal:
`x"ab"` and `x"a//b"`. -/
def cexSegs1 : List Seg :=
  [Seg.code ['x'], Seg.lit quoteD ['a', 'b']]

/-- See `cexSegs1`. -/
def cexSegs2 : List Seg :=
  [Seg.code ['x'], Seg.lit quoteD ['a', '/', '/', 'b']]

/-- A strictly well-formed segment list exercising every segment kind. -/
def wSegs1 : List Seg :=
  [Seg.code ['c', 'o', 'n', 's', 't'], Seg.ws [' '],
    Seg.lineC [' ', 'n', 'o', 't', 'e'], Seg.ws ['\n'],
    Seg.code ['x', '='], Seg.lit quoteD ['h', 'e', 'l', 'l', 'o'], Seg.ws [' '],
    Seg.blockC [' ', 'o', 'l', 'd', ' '], Seg.ws ['\t', '\n'],
    Seg.code ['y'], Seg.lit quoteB ['t', 'p', 'l'], Seg.lit quoteS ['s']]

/-- A strictly well-formed segment list similar to `wSegs1` but differing in
case, whitespace, and comment and literal contents. -/
def wSegs2 : List Seg :=
  [Seg.code ['C', 'O', 'N', 'S', 'T'], Seg.ws [' ', ' ', '\t'],
    Seg.lineC [' ', 'o', 't', 'h', 'e', 'r'], Seg.ws ['\n', '\n'],
    Seg.code ['X', '='], Seg.lit quoteD ['W', 'O', 'R', 'L', 'D', '!'], Seg.ws ['\n'],
    Seg.blockC ['n', 'e', 'w', '\n', 'n', 'o', 't', 'e'], Seg.ws [' '],
    Seg.code ['Y'], Seg.lit quoteB [], Seg.lit quoteS ['z', 'z']]

/-- Whether a segment is a literal with an already-emptied body. -/
def litEmpty : Seg → Bool
  | .lit _ b => b.isEmpty
  | _ => true

/-- C1: for every input — including the null list modelled by `none` — the
analyzer returns a report (it is a total function), and whenever the guarded
body errors the returned report is exactly the empty report. -/
theorem analyzeDuplication_total_and_empty_on_error (files : Option (List PrFile)) (e : String)
    (h : analyzeDuplicationBody files = Except.error e) :
    analyzeDuplication files = emptyReport := by
  unfold analyzeDuplication
  rw [h]

/-- Witness for C1 at the concrete input `none`. -/
theorem analyzeDuplication_total_and_empty_on_error_witness :
    analyzeDuplicationBody none = Except.error "files is not iterable" ∧
    analyzeDuplication none = emptyReport :=
  ⟨rfl, analyzeDuplication_total_and_empty_on_error none "files is not iterable" rfl⟩

set_option maxRecDepth 400000 in
/-- C2 counterexample: with ten honestly-counted added lines per file but a
context gap inside the window, the reported ranges cover a hundred lines
each, so the reported percentage is `1000.0`, far above `100`. -/
theorem percentage_can_exceed_100 :
    (100 : ℚ) < (analyzeDuplication (some filesGap)).percentage.toRat := by
  have h : (analyzeDuplication (some filesGap)).percentage = ⟨10000, 10⟩ := by decide
  rw [h]
  norm_num [JsRat.toRat]

set_option maxRecDepth 400000 in
/-- C3 counterexample: on `filesNearThirty` the unrounded percentage is
`20200 / 674 < 30`, so the severity is `medium`, yet the rounded `percentage`
field of the report is exactly `30.0`: the claimed equivalence between
`severity = high` and `percentage ≥ 30` fails. -/
theorem severity_disagrees_with_rounded_percentage :
    (30 : ℚ) ≤ (analyzeDuplication (some filesNearThirty)).percentage.toRat ∧
    (analyzeDuplication (some filesNearThirty)).severity ≠ Severity.high := by
  have h1 : (analyzeDuplication (some filesNearThirty)).percentage = ⟨300, 10⟩ := by decide
  have h2 : (analyzeDuplication (some filesNearThirty)).severity = Severity.medium := by decide
  refine ⟨?_, ?_⟩
  · rw [h1]; norm_num [JsRat.toRat]
  · rw [h2]; decide

set_option maxRecDepth 400000 in
/-- C4 counterexample: a patch whose second hunk header jumps backwards
produces a finding whose first range has its end strictly below its
start. -/
theorem finding_range_can_be_reversed :
    ∃ d ∈ (analyzeDuplication (some filesBackwards)).duplicateBlocks,
      d.lines1.stop < d.lines1.start := by decide

/-- C5 counterexample: an added line that precedes any hunk header is
emitted with line number zero, below the claimed lower bound of one. -/
theorem added_line_number_zero_without_hunk_header :
    extractAddedLines "+x" = [⟨0, "x"⟩] ∧
    ¬ (∀ a ∈ extractAddedLines "+x", 1 ≤ a.lineNumber) := by decide

/-- Unfolding of the cross-multiplication order on `JsRat`. -/
theorem JsRat.le_def (a b : JsRat) : a ≤ b ↔ a.num * b.den ≤ b.num * a.den := Iff.rfl

/-- Unfolding of the strict cross-multiplication order on `JsRat`. -/
theorem JsRat.lt_def (a b : JsRat) : a < b ↔ a.num * b.den < b.num * a.den := Iff.rfl

/-- Value of a literal `JsRat`. -/
theorem JsRat.toRat_mk (a b : Nat) : JsRat.toRat ⟨a, b⟩ = (a : ℚ) / (b : ℚ) := rfl

/-- With positive denominators, the cross-multiplication order agrees with
the order of values. -/
theorem JsRat.le_iff_toRat (a b : JsRat) (ha : 0 < a.den) (hb : 0 < b.den) :
    a ≤ b ↔ a.toRat ≤ b.toRat := by
  have ha' : (0 : ℚ) < a.den := by exact_mod_cast ha
  have hb' : (0 : ℚ) < b.den := by exact_mod_cast hb
  rw [JsRat.le_def, JsRat.toRat, JsRat.toRat, div_le_div_iff₀ ha' hb']
  constructor <;> intro h <;> exact_mod_cast h

/-- With positive denominators, the strict cross-multiplication order agrees
with the strict order of values. -/
theorem JsRat.lt_iff_toRat (a b : JsRat) (ha : 0 < a.den) (hb : 0 < b.den) :
    a < b ↔ a.toRat < b.toRat := by
  have ha' : (0 : ℚ) < a.den := by exact_mod_cast ha
  have hb' : (0 : ℚ) < b.den := by exact_mod_cast hb
  rw [JsRat.lt_def, JsRat.toRat, JsRat.toRat, div_lt_div_iff₀ ha' hb']
  constructor <;> intro h <;> exact_mod_cast h

/-- `Math.max` returns one of its arguments. -/
theorem JsRat.maxJ_cases (a b : JsRat) : JsRat.maxJ a b = a ∨ JsRat.maxJ a b = b := by
  unfold JsRat.maxJ
  split
  · exact Or.inr rfl
  · exact Or.inl rfl

/-- The integer rounding inside `jsRound1` computes Mathlib's `round` of the
value times ten. -/
theorem jsRound1_toRat (q : JsRat) (h : 0 < q.den) :
    (jsRound1 q).toRat = ((round (q.toRat * 10) : ℤ) : ℚ) / 10 := by
  have hd : (q.den : ℚ) ≠ 0 := by exact_mod_cast h.ne'
  have hval : q.toRat * 10 + 1 / 2 = ((20 * q.num + q.den : ℕ) : ℚ) / ((2 * q.den : ℕ) : ℚ) := by
    rw [JsRat.toRat]
    push_cast
    field_simp
    ring
  have hfloor : ⌊q.toRat * 10 + 1 / 2⌋ = (((20 * q.num + q.den) / (2 * q.den) : ℕ) : ℤ) := by
    rw [hval, ← Nat.floor_div_eq_div (α := ℚ) (20 * q.num + q.den) (2 * q.den)]
    rw [← Int.natCast_floor_eq_floor (by positivity)]
  have harg : 2 * (q.num * 10) + q.den = 20 * q.num + q.den := by ring
  rw [round_eq, hfloor, jsRound1, harg, JsRat.toRat_mk]
  congr 1

/-- Comparison of a natural-number threshold with a ratio of naturals. -/
theorem JsRat.ofNat_le_mk_iff (k a b : Nat) (hb : 0 < b) :
    (JsRat.ofNat k ≤ (⟨a, b⟩ : JsRat)) ↔ (k : ℚ) ≤ (a : ℚ) / (b : ℚ) := by
  have hb' : (0 : ℚ) < b := by exact_mod_cast hb
  rw [le_div_iff₀ hb', JsRat.le_def]
  show k * b ≤ a * 1 ↔ _
  rw [Nat.mul_one]
  constructor <;> intro h <;> exact_mod_cast h

/-- Values of the embedding's JavaScript numbers are nonnegative. -/
theorem JsRat.toRat_nonneg (x : JsRat) : 0 ≤ x.toRat := by
  rw [JsRat.toRat]
  positivity

/-- The severity tiers in terms of the value of the unrounded percentage. -/
theorem calculateSeverity_iff (p : JsRat) (hden : 0 < p.den) :
    (calculateSeverity p = Severity.high ↔ 30 ≤ p.toRat) ∧
    (calculateSeverity p = Severity.medium ↔ 15 ≤ p.toRat ∧ p.toRat < 30) ∧
    (calculateSeverity p = Severity.low ↔ p.toRat < 15) := by
  have h30 : (JsRat.ofNat 30 ≤ p) ↔ (30 : ℚ) ≤ p.toRat := by
    rw [JsRat.le_iff_toRat _ _ (by norm_num [JsRat.ofNat]) hden]
    simp [JsRat.ofNat, JsRat.toRat_mk]
  have h15 : (JsRat.ofNat 15 ≤ p) ↔ (15 : ℚ) ≤ p.toRat := by
    rw [JsRat.le_iff_toRat _ _ (by norm_num [JsRat.ofNat]) hden]
    simp [JsRat.ofNat, JsRat.toRat_mk]
  simp only [calculateSeverity, h30, h15]
  split_ifs with a b
  · refine ⟨⟨fun _ => a, fun _ => rfl⟩, ?_, ?_⟩
    · refine ⟨fun hcon => absurd hcon (by decide), fun hc => absurd a (not_le.mpr hc.2)⟩
    · refine ⟨fun hcon => absurd hcon (by decide), fun h2 => absurd a (not_le.mpr (by linarith))⟩
  · refine ⟨?_, ⟨fun _ => ⟨b, not_le.mp a⟩, fun _ => rfl⟩, ?_⟩
    · refine ⟨fun hcon => absurd hcon (by decide), fun hc => absurd hc a⟩
    · refine ⟨fun hcon => absurd hcon (by decide), fun h2 => absurd b (not_le.mpr h2)⟩
  · refine ⟨?_, ?_, ⟨fun _ => by linarith [not_le.mp b], fun _ => rfl⟩⟩
    · refine ⟨fun hcon => absurd hcon (by decide), fun hc => absurd hc a⟩
    · refine ⟨fun hcon => absurd hcon (by decide), fun hc => absurd hc.1 b⟩

/-- Witness for `calculateSeverity_iff` at a concrete percentage. -/
theorem calculateSeverity_iff_witness :
    0 < (JsRat.ofNat 20).den ∧
    (calculateSeverity (JsRat.ofNat 20) = Severity.medium ↔
      15 ≤ (JsRat.ofNat 20).toRat ∧ (JsRat.ofNat 20).toRat < 30) :=
  ⟨by decide, (calculateSeverity_iff (JsRat.ofNat 20) (by decide)).2.1⟩

/-- The percentage field of the report before rounding, as built inside
`analyzeCore`. -/
theorem analyzeCore_percentage_eq (files : List PrFile) :
    (analyzeCore files).percentage =
      jsRound1 (if 0 < calculateTotalLines files then
        (⟨calculateDuplicatedLines (findDuplicates (extractCodeBlocks files)) * 100,
          calculateTotalLines files⟩ : JsRat) else ⟨0, 1⟩) ∧
    (analyzeCore files).totalLines = calculateTotalLines files ∧
    (analyzeCore files).duplicatedLines =
      calculateDuplicatedLines (findDuplicates (extractCodeBlocks files)) ∧
    (analyzeCore files).severity =
      calculateSeverity (if 0 < calculateTotalLines files then
        (⟨calculateDuplicatedLines (findDuplicates (extractCodeBlocks files)) * 100,
          calculateTotalLines files⟩ : JsRat) else ⟨0, 1⟩) ∧
    (analyzeCore files).duplicateBlocks = findDuplicates (extractCodeBlocks files) :=
  ⟨rfl, rfl, rfl, rfl, rfl⟩

/-- Witness for `analyzeCore_percentage_eq` (it has no hypotheses beyond the
input, instantiated at the empty file list). -/
theorem analyzeCore_percentage_eq_witness :
    (analyzeCore []).totalLines = calculateTotalLines [] :=
  (analyzeCore_percentage_eq []).2.1

/-- C2 amended: the reported percentage is always nonnegative and equals the
one-decimal rounding of `100 · duplicatedLines / totalLines` when
`totalLines` is positive (else zero) — but it is not bounded by `100`,
because `duplicatedLines` counts every post-image line of every reported
range, which can exceed the sum of `additions`. -/
theorem percentage_nonneg_and_rounded (files : List PrFile) :
    0 ≤ (analyzeCore files).percentage.toRat ∧
    (analyzeCore files).percentage.toRat =
      (if (analyzeCore files).totalLines = 0 then 0
       else ((round (100 * ((analyzeCore files).duplicatedLines : ℚ) /
         ((analyzeCore files).totalLines : ℚ) * 10) : ℤ) : ℚ) / 10) := by
  obtain ⟨hp, ht, hd, -, -⟩ := analyzeCore_percentage_eq files
  refine ⟨JsRat.toRat_nonneg _, ?_⟩
  rcases Nat.eq_zero_or_pos (calculateTotalLines files) with h | h
  · rw [hp, if_neg (by omega), ht, if_pos h]
    have hz : jsRound1 ⟨0, 1⟩ = (⟨0, 10⟩ : JsRat) := by decide
    rw [hz, JsRat.toRat_mk]
    norm_num
  · rw [hp, if_pos h, ht, if_neg (by omega), hd,
      jsRound1_toRat _ (show 0 < calculateTotalLines files from h)]
    congr 2
    rw [JsRat.toRat_mk]
    push_cast
    ring_nf

/-- C3 amended: the severity tier is determined by the *unrounded*
percentage (severity is computed before the one-decimal rounding): it is
`high` iff that value is at least `30`, `medium` iff it lies in `[15, 30)`,
and `low` iff it is below `15`.  Because the reported `percentage` field is
rounded afterwards, its value can cross a tier boundary that the unrounded
value did not reach. -/
theorem severity_matches_unrounded_percentage (files : List PrFile) :
    ((analyzeCore files).severity = Severity.high ↔ 30 ≤ unroundedPercentage files) ∧
    ((analyzeCore files).severity = Severity.medium ↔
      15 ≤ unroundedPercentage files ∧ unroundedPercentage files < 30) ∧
    ((analyzeCore files).severity = Severity.low ↔ unroundedPercentage files < 15) := by
  obtain ⟨-, -, -, hs, -⟩ := analyzeCore_percentage_eq files
  have htl : (analyzeCore files).totalLines = calculateTotalLines files := rfl
  have hdl : (analyzeCore files).duplicatedLines =
      calculateDuplicatedLines (findDuplicates (extractCodeBlocks files)) := rfl
  rcases Nat.eq_zero_or_pos (calculateTotalLines files) with h | h
  · have hup : unroundedPercentage files = 0 := by
      unfold unroundedPercentage
      rw [htl, if_pos h]
    have hlow : calculateSeverity ⟨0, 1⟩ = Severity.low := by decide
    rw [hs, if_neg (by omega), hup, hlow]
    refine ⟨⟨fun hcon => absurd hcon (by decide), fun hcon => by norm_num at hcon⟩,
      ⟨fun hcon => absurd hcon (by decide), fun hc => by norm_num at hc⟩,
      ⟨fun _ => by norm_num, fun _ => rfl⟩⟩
  · have hval : (⟨calculateDuplicatedLines (findDuplicates (extractCodeBlocks files)) * 100,
        calculateTotalLines files⟩ : JsRat).toRat =
        100 * ((calculateDuplicatedLines (findDuplicates (extractCodeBlocks files)) : ℚ)) /
          ((calculateTotalLines files : ℚ)) := by
      rw [JsRat.toRat_mk]
      push_cast
      ring_nf
    have hup : unroundedPercentage files =
        100 * ((calculateDuplicatedLines (findDuplicates (extractCodeBlocks files)) : ℚ)) /
          ((calculateTotalLines files : ℚ)) := by
      unfold unroundedPercentage
      rw [htl, hdl, if_neg (by omega)]
    have hiff := calculateSeverity_iff
      ⟨calculateDuplicatedLines (findDuplicates (extractCodeBlocks files)) * 100,
        calculateTotalLines files⟩ h
    rw [hval] at hiff
    rw [hs, if_pos h, hup]
    exact hiff

/-- Both components of an ordered pair come from the underlying list. -/
theorem orderedPairs_mem {α : Type} {l : List α} {p : α × α} (h : p ∈ orderedPairs l) :
    p.1 ∈ l ∧ p.2 ∈ l := by
  induction l with
  | nil => cases h
  | cons x t ih =>
    rw [orderedPairs, List.mem_append] at h
    rcases h with h | h
    · obtain ⟨y, hy, hp⟩ := List.mem_map.mp h
      subst hp
      exact ⟨List.mem_cons_self x t, List.mem_cons_of_mem x hy⟩
    · obtain ⟨h1, h2⟩ := ih h
      exact ⟨List.mem_cons_of_mem x h1, List.mem_cons_of_mem x h2⟩

/-- Membership through stable insertion. -/
theorem mem_insertSorted {α : Type} (lt : α → α → Bool) (x : α) (l : List α) (a : α) :
    a ∈ insertSorted lt x l ↔ a = x ∨ a ∈ l := by
  induction l with
  | nil => simp [insertSorted]
  | cons y t ih =>
    rw [insertSorted]
    split
    · simp only [List.mem_cons, ih]
      tauto
    · simp only [List.mem_cons]

/-- Membership through the stable sort. -/
theorem mem_sortStable {α : Type} (lt : α → α → Bool) (l : List α) (a : α) :
    a ∈ sortStable lt l ↔ a ∈ l := by
  induction l with
  | nil => simp [sortStable]
  | cons x t ih =>
    rw [sortStable, mem_insertSorted]
    simp [ih]

/-- A pointwise predicate on grouped values survives one insertion. -/
theorem insertGroup_forall {κ ν : Type} [DecidableEq κ] (P : ν → Prop)
    (m : List (κ × List ν)) (k : κ) (v : ν)
    (hm : ∀ g ∈ m, ∀ x ∈ g.2, P x) (hv : P v) :
    ∀ g ∈ insertGroup m k v, ∀ x ∈ g.2, P x := by
  induction m with
  | nil =>
    intro g hg x hx
    simp only [insertGroup, List.mem_singleton] at hg
    subst hg
    simp only [List.mem_singleton] at hx
    subst hx
    exact hv
  | cons h t ih =>
    intro g hg x hx
    obtain ⟨k', vs⟩ := h
    rw [insertGroup] at hg
    split at hg
    · rcases List.mem_cons.mp hg with hg | hg
      · subst hg
        rcases List.mem_append.mp hx with hx | hx
        · exact hm (k', vs) (List.mem_cons_self _ _) x hx
        · rw [List.mem_singleton] at hx
          subst hx
          exact hv
      · exact hm g (List.mem_cons_of_mem _ hg) x hx
    · rcases List.mem_cons.mp hg with hg | hg
      · subst hg
        exact hm (k', vs) (List.mem_cons_self _ _) x hx
      · exact ih (fun g' hg' => hm g' (List.mem_cons_of_mem _ hg')) g hg x hx

/-- A pointwise predicate on values survives a whole grouping fold. -/
theorem foldl_insertGroup_forall {κ ν μ : Type} [DecidableEq κ] (P : ν → Prop)
    (key : μ → κ) (val : μ → ν) :
    ∀ (l : List μ) (m : List (κ × List ν)),
      (∀ x ∈ l, P (val x)) → (∀ g ∈ m, ∀ x ∈ g.2, P x) →
      ∀ g ∈ l.foldl (fun m x => insertGroup m (key x) (val x)) m, ∀ x ∈ g.2, P x := by
  intro l
  induction l with
  | nil =>
    intro m _ hm
    simpa using hm
  | cons y t ih =>
    intro m hl hm
    rw [List.foldl_cons]
    exact ih (insertGroup m (key y) (val y))
      (fun x hx => hl x (List.mem_cons_of_mem _ hx))
      (insertGroup_forall P m (key y) (val y) hm (hl y (List.mem_cons_self _ _)))

/-- A pointwise predicate on a list carries over to the values of its
grouping by key. -/
theorem groupByKey_forall {κ ν : Type} [DecidableEq κ] (P : ν → Prop) (key : ν → κ)
    (l : List ν) (hl : ∀ x ∈ l, P x) :
    ∀ g ∈ groupByKey key l, ∀ x ∈ g.2, P x := by
  rw [groupByKey]
  exact foldl_insertGroup_forall P key (fun v => v) l [] hl (by simp)

/-- One exact-pass step preserves a pointwise predicate, given the predicate
holds of the record the step may push. -/
theorem pass1Step_forall (P : DuplicateBlock → Prop) (acc : List DuplicateBlock × List String)
    (p : CodeBlock × CodeBlock) (hacc : ∀ d ∈ acc.1, P d)
    (hp : p.1.file ≠ p.2.file → P (mkPair p.1 p.2 JsRat.one)) :
    ∀ d ∈ (pass1Step acc p).1, P d := by
  simp only [pass1Step]
  split
  · exact hacc
  · split
    · exact hacc
    · intro d hd
      rcases List.mem_append.mp hd with hd | hd
      · exact hacc d hd
      · rw [List.mem_singleton] at hd
        subst hd
        next hne _ => exact hp hne

/-- One fuzzy-pass step preserves a pointwise predicate, given the predicate
holds of any record the step may push. -/
theorem pass2Step_forall (P : DuplicateBlock → Prop) (acc : List DuplicateBlock × List String)
    (p : CodeBlock × CodeBlock) (hacc : ∀ d ∈ acc.1, P d)
    (hp : p.1.file ≠ p.2.file →
      SIMILARITY_THRESHOLD ≤ calculateSimilarity p.1.normalizedCode p.2.normalizedCode →
      calculateSimilarity p.1.normalizedCode p.2.normalizedCode < JsRat.one →
      P (mkPair p.1 p.2 (calculateSimilarity p.1.normalizedCode p.2.normalizedCode))) :
    ∀ d ∈ (pass2Step acc p).1, P d := by
  simp only [pass2Step]
  split
  · exact hacc
  · split
    · split
      · exact hacc
      · intro d hd
        rcases List.mem_append.mp hd with hd | hd
        · exact hacc d hd
        · rw [List.mem_singleton] at hd
          subst hd
          next hne hguard _ => exact hp hne hguard.1 hguard.2
    · exact hacc

/-- A whole exact-pass fold preserves a pointwise predicate. -/
theorem foldl_pass1Step_forall (P : DuplicateBlock → Prop) :
    ∀ (pairs : List (CodeBlock × CodeBlock)) (acc : List DuplicateBlock × List String),
      (∀ d ∈ acc.1, P d) →
      (∀ pr ∈ pairs, pr.1.file ≠ pr.2.file → P (mkPair pr.1 pr.2 JsRat.one)) →
      ∀ d ∈ (pairs.foldl pass1Step acc).1, P d := by
  intro pairs
  induction pairs with
  | nil => intro acc hacc _; simpa using hacc
  | cons pr t ih =>
    intro acc hacc hpairs
    rw [List.foldl_cons]
    exact ih (pass1Step acc pr)
      (pass1Step_forall P acc pr hacc (hpairs pr (List.mem_cons_self _ _)))
      (fun q hq => hpairs q (List.mem_cons_of_mem _ hq))

/-- A whole fuzzy-pass fold preserves a pointwise predicate. -/
theorem foldl_pass2Step_forall (P : DuplicateBlock → Prop) :
    ∀ (pairs : List (CodeBlock × CodeBlock)) (acc : List DuplicateBlock × List String),
      (∀ d ∈ acc.1, P d) →
      (∀ pr ∈ pairs, pr.1.file ≠ pr.2.file →
        SIMILARITY_THRESHOLD ≤ calculateSimilarity pr.1.normalizedCode pr.2.normalizedCode →
        calculateSimilarity pr.1.normalizedCode pr.2.normalizedCode < JsRat.one →
        P (mkPair pr.1 pr.2 (calculateSimilarity pr.1.normalizedCode pr.2.normalizedCode))) →
      ∀ d ∈ (pairs.foldl pass2Step acc).1, P d := by
  intro pairs
  induction pairs with
  | nil => intro acc hacc _; simpa using hacc
  | cons pr t ih =>
    intro acc hacc hpairs
    rw [List.foldl_cons]
    exact ih (pass2Step acc pr)
      (pass2Step_forall P acc pr hacc (hpairs pr (List.mem_cons_self _ _)))
      (fun q hq => hpairs q (List.mem_cons_of_mem _ hq))

/-- The exact pass only emits records satisfying any predicate that holds of
the pushed pairs of blocks from the input. -/
theorem findExactDuplicates_forall (P : DuplicateBlock → Prop) (blocks : List CodeBlock)
    (hall : ∀ b1 b2, b1 ∈ blocks → b2 ∈ blocks → b1.file ≠ b2.file →
      P (mkPair b1 b2 JsRat.one)) :
    ∀ d ∈ (findExactDuplicates blocks).1, P d := by
  rw [findExactDuplicates]
  suffices h : ∀ (G : List (String × List CodeBlock)),
      (∀ g ∈ G, ∀ x ∈ g.2, x ∈ blocks) →
      ∀ (acc : List DuplicateBlock × List String), (∀ d ∈ acc.1, P d) →
      ∀ d ∈ (G.foldl
        (fun acc g => if 1 < g.2.length then (orderedPairs g.2).foldl pass1Step acc else acc)
        acc).1, P d by
    exact h _ (groupByKey_forall _ _ blocks (fun x hx => hx)) ([], []) (by simp)
  intro G
  induction G with
  | nil => intro _ acc hacc; simpa using hacc
  | cons g t ih =>
    intro hG acc hacc
    rw [List.foldl_cons]
    refine ih (fun g' hg' => hG g' (List.mem_cons_of_mem _ hg')) _ ?_
    split
    · refine foldl_pass1Step_forall P _ acc hacc ?_
      intro pr hpr hne
      obtain ⟨h1, h2⟩ := orderedPairs_mem hpr
      exact hall pr.1 pr.2 (hG g (List.mem_cons_self _ _) pr.1 h1)
        (hG g (List.mem_cons_self _ _) pr.2 h2) hne
    · exact hacc

/-- The merge walk preserves any pointwise predicate closed under the
combination of two records. -/
theorem mergeWalk_forall (P : DuplicateBlock → Prop)
    (hcomb : ∀ a b, P a → P b → P (mergeCombine a b)) :
    ∀ (rest : List DuplicateBlock) (current : DuplicateBlock),
      P current → (∀ d ∈ rest, P d) → ∀ d ∈ mergeWalk current rest, P d := by
  intro rest
  induction rest with
  | nil =>
    intro current hc _
    simpa [mergeWalk] using hc
  | cons next t ih =>
    intro current hc hrest
    rw [mergeWalk]
    split
    · exact ih (mergeCombine current next)
        (hcomb current next hc (hrest next (List.mem_cons_self _ _)))
        (fun d hd => hrest d (List.mem_cons_of_mem _ hd))
    · intro d hd
      rcases List.mem_cons.mp hd with hd | hd
      · subst hd; exact hc
      · exact ih next (hrest next (List.mem_cons_self _ _))
          (fun x hx => hrest x (List.mem_cons_of_mem _ hx)) d hd

/-- The overlap merger preserves any pointwise predicate closed under record
combination. -/
theorem mergeOverlappingDuplicates_forall (P : DuplicateBlock → Prop)
    (hcomb : ∀ a b, P a → P b → P (mergeCombine a b))
    (l : List DuplicateBlock) (hl : ∀ d ∈ l, P d) :
    ∀ d ∈ mergeOverlappingDuplicates l, P d := by
  rw [mergeOverlappingDuplicates]
  split
  · simp
  · intro d hd
    obtain ⟨g, hg, hdg⟩ := List.mem_flatMap.mp hd
    have hvals := groupByKey_forall P filePairKey l hl g hg
    revert hdg
    split
    · intro hdg; cases hdg
    · next first rest heq =>
      intro hdg
      have hmem : ∀ x ∈ first :: rest, P x := by
        intro x hx
        apply hvals
        rw [← mem_sortStable (fun a b => a.lines1.start < b.lines1.start) g.2 x, heq]
        exact hx
      exact mergeWalk_forall P hcomb rest first (hmem first (List.mem_cons_self _ _))
        (fun x hx => hmem x (List.mem_cons_of_mem _ hx)) d hdg

/-- The representative of a cluster is one of its members. -/
theorem clusterRepresentative_mem :
    ∀ (rest : List DuplicateBlock) (first : DuplicateBlock),
      clusterRepresentative first rest ∈ first :: rest := by
  intro rest
  induction rest with
  | nil => intro first; simp [clusterRepresentative]
  | cons cur t ih =>
    intro first
    rw [clusterRepresentative, List.foldl_cons]
    have := ih (if first.similarity < cur.similarity then cur else first)
    rw [clusterRepresentative] at this
    rcases List.mem_cons.mp this with h | h
    · rw [h]
      split
      · exact List.mem_cons_of_mem _ (List.mem_cons_self _ _)
      · exact List.mem_cons_self _ _
    · exact List.mem_cons_of_mem _ (List.mem_cons_of_mem _ h)

/-- Emitting one cluster preserves any pointwise predicate closed under the
clustered-field update. -/
theorem processCluster_forall (P : DuplicateBlock → Prop)
    (hupd : ∀ d n af ph, P d →
      P { d with clusterSize := some n, allFiles := some af, patternHash := some ph })
    (cluster : List DuplicateBlock) (hc : ∀ d ∈ cluster, P d) :
    ∀ d ∈ processCluster cluster, P d := by
  rcases cluster with _ | ⟨d1, _ | ⟨next, rest⟩⟩
  · intro d hd; cases hd
  · intro d hd
    rw [show processCluster [d1] = [d1] from rfl, List.mem_singleton] at hd
    rw [hd]
    exact hc d1 (List.mem_cons_self _ _)
  · intro d hd
    rw [show processCluster (d1 :: next :: rest) =
      [{ clusterRepresentative d1 (next :: rest) with
          clusterSize := some (clusterFileLocations (d1 :: next :: rest)).length
          allFiles := some (clusterAllFiles (clusterFileLocations (d1 :: next :: rest)))
          patternHash := some (hashCode (clusterRepresentative d1 (next :: rest)).code) }]
      from rfl, List.mem_singleton] at hd
    rw [hd]
    exact hupd _ _ _ _
      (hc _ (clusterRepresentative_mem (next :: rest) d1))

/-- The clusterer preserves any pointwise predicate closed under the
clustered-field update. -/
theorem clusterDuplicatesByPattern_forall (P : DuplicateBlock → Prop)
    (hupd : ∀ d n af ph, P d →
      P { d with clusterSize := some n, allFiles := some af, patternHash := some ph })
    (l : List DuplicateBlock) (hl : ∀ d ∈ l, P d) :
    ∀ d ∈ clusterDuplicatesByPattern l, P d := by
  rw [clusterDuplicatesByPattern]
  split
  · simp
  · intro d hd
    simp only [List.mem_flatMap] at hd
    obtain ⟨g, hg, hdg⟩ := hd
    have henum : ∀ x ∈ l.enum, P x.2 := by
      intro x hx
      apply hl
      have := List.enum_map_snd l
      rw [← this]
      exact List.mem_map.mpr ⟨x, hx, rfl⟩
    have hvals := foldl_insertGroup_forall P
      (fun p => ufFind (clusterParent l) (clusterParent l).length p.1)
      (fun p : Nat × DuplicateBlock => p.2) l.enum [] henum (by simp) g
      (by rw [clusterMapOf] at hg; exact hg)
    exact processCluster_forall P hupd g.2 hvals d hdg

/-- Master preservation lemma for the whole duplicate pipeline: any
predicate that holds of every record either pass can push, is closed under
merge combination and closed under the clustered-field update, holds of
every record of the final sorted list. -/
theorem findDuplicates_forall (P : DuplicateBlock → Prop)
    (hcomb : ∀ a b, P a → P b → P (mergeCombine a b))
    (hupd : ∀ d n af ph, P d →
      P { d with clusterSize := some n, allFiles := some af, patternHash := some ph })
    (blocks : List CodeBlock)
    (hexact : ∀ b1 b2, b1 ∈ blocks → b2 ∈ blocks → b1.file ≠ b2.file →
      P (mkPair b1 b2 JsRat.one))
    (hfuzzy : ∀ b1 b2, b1 ∈ blocks → b2 ∈ blocks → b1.file ≠ b2.file →
      SIMILARITY_THRESHOLD ≤ calculateSimilarity b1.normalizedCode b2.normalizedCode →
      calculateSimilarity b1.normalizedCode b2.normalizedCode < JsRat.one →
      P (mkPair b1 b2 (calculateSimilarity b1.normalizedCode b2.normalizedCode))) :
    ∀ d ∈ findDuplicates blocks, P d := by
  intro d hd
  rw [findDuplicates] at hd
  rw [mem_sortStable] at hd
  refine clusterDuplicatesByPattern_forall P hupd _ ?_ d hd
  refine mergeOverlappingDuplicates_forall P hcomb _ ?_
  refine foldl_pass2Step_forall P (orderedPairs blocks) (findExactDuplicates blocks) ?_ ?_
  · refine findExactDuplicates_forall P blocks hexact
  · intro pr hpr hne hs1 hs2
    obtain ⟨h1, h2⟩ := orderedPairs_mem hpr
    exact hfuzzy pr.1 pr.2 h1 h2 hne hs1 hs2

/-- In a list with non-decreasing line numbers the head's number is at most
the last's (the degenerate empty case compares the shared default). -/
theorem window_head_le_getLast (w : List AddedLine)
    (hw : w.Pairwise (fun a b => a.lineNumber ≤ b.lineNumber)) :
    ((w.head?).map (fun a => a.lineNumber)).getD 0 ≤
      ((w.getLast?).map (fun a => a.lineNumber)).getD 0 := by
  cases w with
  | nil => simp
  | cons h t =>
    rw [List.getLast?_eq_getLast _ (by simp)]
    simp only [List.head?_cons, Option.map_some', Option.getD_some]
    have hmem := List.getLast_mem (l := h :: t) (by simp)
    rcases List.mem_cons.mp hmem with he | he
    · rw [he]
    · exact (List.pairwise_cons.mp hw).1 _ he

/-- Every block a well-formed file contributes has an ordered line span. -/
theorem blocksOfFile_ordered (f : PrFile) (hf : fileLinesOrdered f) :
    ∀ b ∈ blocksOfFile f, b.startLine ≤ b.endLine := by
  intro b hb
  rw [blocksOfFile] at hb
  split at hb
  · cases hb
  · revert hb
    split
    · intro hb; cases hb
    · next p heq =>
      intro hb
      have hp : (extractAddedLines p).Pairwise (fun a b => a.lineNumber ≤ b.lineNumber) := by
        unfold fileLinesOrdered at hf
        rw [heq] at hf
        exact hf
      revert hb
      split
      · intro hb; cases hb
      · intro hb
        rw [List.mem_filterMap] at hb
        obtain ⟨i, -, hsome⟩ := hb
        rw [windowBlock] at hsome
        revert hsome
        split
        · intro hsome; cases hsome
        · intro hsome
          have hwin : (((extractAddedLines p).drop i).take MIN_BLOCK_SIZE).Pairwise
              (fun a b => a.lineNumber ≤ b.lineNumber) :=
            hp.sublist ((List.take_sublist _ _).trans (List.drop_sublist _ _))
          have := window_head_le_getLast _ hwin
          cases hsome
          exact this

/-- Every block of the extraction stage has an ordered line span, provided
every input file is well-formed. -/
theorem extractCodeBlocks_ordered (files : List PrFile)
    (hmono : ∀ f ∈ files, fileLinesOrdered f) :
    ∀ b ∈ extractCodeBlocks files, b.startLine ≤ b.endLine := by
  intro b hb
  rw [extractCodeBlocks, List.mem_flatMap] at hb
  obtain ⟨f, hf, hbf⟩ := hb
  exact blocksOfFile_ordered f (hmono f hf) b hbf

/-- C4 amended: every finding of every report names two distinct files; and
if every input file's extracted added lines carry non-decreasing line
numbers (true of patches whose hunks appear in increasing position), both
line ranges of every finding are ordered.  (For a patch whose hunk headers
jump backwards a window can span the jump and the first bound exceeds the
second, so the ordering clause needs the well-formedness hypothesis.) -/
theorem findings_distinct_files_and_ordered_ranges (files : List PrFile) :
    ∀ d ∈ (analyzeCore files).duplicateBlocks,
      d.file1 ≠ d.file2 ∧
      ((∀ f ∈ files, fileLinesOrdered f) →
        d.lines1.start ≤ d.lines1.stop ∧ d.lines2.start ≤ d.lines2.stop) := by
  intro d hd
  have hblocks : (analyzeCore files).duplicateBlocks =
      findDuplicates (extractCodeBlocks files) := rfl
  rw [hblocks] at hd
  constructor
  · exact findDuplicates_forall (fun d => d.file1 ≠ d.file2)
      (fun a b pa _ => pa) (fun d n af ph pd => pd) _
      (fun b1 b2 _ _ hne => hne) (fun b1 b2 _ _ hne _ _ => hne) d hd
  · intro hmono
    have hord := extractCodeBlocks_ordered files hmono
    refine findDuplicates_forall
      (fun d => d.lines1.start ≤ d.lines1.stop ∧ d.lines2.start ≤ d.lines2.stop)
      ?_ (fun d n af ph pd => pd) _ ?_ ?_ d hd
    · intro a b pa pb
      obtain ⟨pa1, pa2⟩ := pa
      obtain ⟨pb1, pb2⟩ := pb
      constructor
      · show min a.lines1.start b.lines1.start ≤ max a.lines1.stop b.lines1.stop
        omega
      · show min a.lines2.start b.lines2.start ≤ max a.lines2.stop b.lines2.stop
        omega
    · intro b1 b2 h1 h2 _
      exact ⟨hord b1 h1, hord b2 h2⟩
    · intro b1 b2 h1 h2 _ _ _
      exact ⟨hord b1 h1, hord b2 h2⟩

set_option maxRecDepth 400000 in
/-- Witness for C4 at the two-file exact-duplicate input. -/
theorem findings_distinct_files_and_ordered_ranges_witness :
    (∀ f ∈ filesPlain, fileLinesOrdered f) ∧
    ∃ d ∈ (analyzeCore filesPlain).duplicateBlocks,
      d.file1 ≠ d.file2 ∧ d.lines1.start ≤ d.lines1.stop ∧ d.lines2.start ≤ d.lines2.stop := by
  have hmono : ∀ f ∈ filesPlain, fileLinesOrdered f := by decide
  have hne : (analyzeCore filesPlain).duplicateBlocks ≠ [] := by decide
  refine ⟨hmono, (analyzeCore filesPlain).duplicateBlocks.head hne, List.head_mem hne, ?_⟩
  obtain ⟨h1, h2⟩ := findings_distinct_files_and_ordered_ranges filesPlain
    ((analyzeCore filesPlain).duplicateBlocks.head hne) (List.head_mem hne)
  exact ⟨h1, h2 hmono⟩

/-- Strict order implies order on `JsRat`. -/
theorem JsRat.le_of_lt {a b : JsRat} (h : a < b) : a ≤ b :=
  Nat.le_of_lt h

/-- The Jaccard computation always returns a positive denominator. -/
theorem calculateSimilarity_den_pos (code1 code2 : String) :
    0 < (calculateSimilarity code1 code2).den := by
  rw [calculateSimilarity]
  split
  · next h => exact h
  · exact Nat.one_pos

/-- C8: every finding of every final report has similarity between the
threshold `0.85` and `1` inclusive; and every record the exact pass emits
carries similarity exactly `1`. -/
theorem similarity_bounds_and_exact_matches :
    (∀ files : List PrFile, ∀ d ∈ (analyzeCore files).duplicateBlocks,
      (85 : ℚ) / 100 ≤ d.similarity.toRat ∧ d.similarity.toRat ≤ 1) ∧
    (∀ blocks : List CodeBlock, ∀ d ∈ (findExactDuplicates blocks).1,
      d.similarity = JsRat.one) := by
  constructor
  · intro files d hd
    have hblocks : (analyzeCore files).duplicateBlocks =
        findDuplicates (extractCodeBlocks files) := rfl
    rw [hblocks] at hd
    have hinv := findDuplicates_forall
      (fun d => 0 < d.similarity.den ∧ SIMILARITY_THRESHOLD ≤ d.similarity ∧
        d.similarity ≤ JsRat.one)
      ?_ (fun d n af ph pd => pd) _ ?_ ?_ d hd
    · obtain ⟨hden, hlo, hhi⟩ := hinv
      have hTden : (0 : Nat) < SIMILARITY_THRESHOLD.den := by decide
      have h1den : (0 : Nat) < JsRat.one.den := by decide
      have hT : SIMILARITY_THRESHOLD.toRat = (85 : ℚ) / 100 := by
        rw [SIMILARITY_THRESHOLD, JsRat.toRat_mk]
        norm_num
      have h1 : JsRat.one.toRat = 1 := by
        rw [JsRat.one, JsRat.toRat_mk]
        norm_num
      constructor
      · rw [← hT]
        exact (JsRat.le_iff_toRat _ _ hTden hden).mp hlo
      · rw [← h1]
        exact (JsRat.le_iff_toRat _ _ hden h1den).mp hhi
    · intro a b pa pb
      rcases JsRat.maxJ_cases a.similarity b.similarity with h | h
      · show 0 < (mergeCombine a b).similarity.den ∧ _ ∧ _
        rw [show (mergeCombine a b).similarity = JsRat.maxJ a.similarity b.similarity from rfl,
          h]
        exact pa
      · show 0 < (mergeCombine a b).similarity.den ∧ _ ∧ _
        rw [show (mergeCombine a b).similarity = JsRat.maxJ a.similarity b.similarity from rfl,
          h]
        exact pb
    · intro b1 b2 _ _ _
      refine ⟨Nat.one_pos, ?_, ?_⟩
      · show SIMILARITY_THRESHOLD ≤ JsRat.one
        decide
      · show JsRat.one ≤ JsRat.one
        decide
    · intro b1 b2 _ _ _ hlo hhi
      exact ⟨calculateSimilarity_den_pos _ _, hlo, JsRat.le_of_lt hhi⟩
  · intro blocks d hd
    exact findExactDuplicates_forall (fun d => d.similarity = JsRat.one) blocks
      (fun b1 b2 _ _ _ => rfl) d hd

set_option maxRecDepth 400000 in
/-- Witness for C8 at the two-file exact-duplicate input: the (unique)
finding carries similarity one, inside the claimed bounds. -/
theorem similarity_bounds_and_exact_matches_witness :
    ∃ d ∈ (analyzeCore filesPlain).duplicateBlocks,
      (85 : ℚ) / 100 ≤ d.similarity.toRat ∧ d.similarity.toRat ≤ 1 := by
  have hne : (analyzeCore filesPlain).duplicateBlocks ≠ [] := by decide
  exact ⟨(analyzeCore filesPlain).duplicateBlocks.head hne, List.head_mem hne,
    similarity_bounds_and_exact_matches.1 filesPlain _ (List.head_mem hne)⟩

/-- A skipped file contributes no candidate blocks. -/
theorem blocksOfFile_skip (f : PrFile) (h : shouldSkipFile f.filename = true) :
    blocksOfFile f = [] := by
  rw [blocksOfFile, if_pos h]

/-- A skipped file contributes nothing to the extraction stage. -/
theorem extractCodeBlocks_skip (l1 l2 : List PrFile) (f : PrFile)
    (h : shouldSkipFile f.filename = true) :
    extractCodeBlocks (l1 ++ f :: l2) = extractCodeBlocks (l1 ++ l2) := by
  rw [extractCodeBlocks, extractCodeBlocks, List.flatMap_append, List.flatMap_append,
    List.flatMap_cons, blocksOfFile_skip f h]
  simp

/-- A skipped file contributes nothing to the total line count. -/
theorem calculateTotalLines_skip (l1 l2 : List PrFile) (f : PrFile)
    (h : shouldSkipFile f.filename = true) :
    calculateTotalLines (l1 ++ f :: l2) = calculateTotalLines (l1 ++ l2) := by
  rw [calculateTotalLines, calculateTotalLines, List.foldl_append, List.foldl_append,
    List.foldl_cons, if_pos h]

/-- The report is a function of the extracted blocks and the total line
count alone. -/
theorem analyzeCore_congr (files1 files2 : List PrFile)
    (hb : extractCodeBlocks files1 = extractCodeBlocks files2)
    (ht : calculateTotalLines files1 = calculateTotalLines files2) :
    analyzeCore files1 = analyzeCore files2 := by
  unfold analyzeCore
  rw [hb, ht]

/-- C7: removing a file whose name matches the skip filter from anywhere in
the input leaves the report unchanged — the skip filter drops it from both
the block extraction and the total line count, the only places the input is
read. -/
theorem skip_filter_removal_identity (l1 l2 : List PrFile) (f : PrFile)
    (h : shouldSkipFile f.filename = true) :
    analyzeDuplication (some (l1 ++ f :: l2)) = analyzeDuplication (some (l1 ++ l2)) := by
  show analyzeCore (l1 ++ f :: l2) = analyzeCore (l1 ++ l2)
  exact analyzeCore_congr _ _ (extractCodeBlocks_skip l1 l2 f h)
    (calculateTotalLines_skip l1 l2 f h)

/-- Witness for C7: dropping a `package-lock.json` descriptor from the
two-file exact-duplicate input leaves the report identical. -/
theorem skip_filter_removal_identity_witness :
    shouldSkipFile (mkFile "package-lock.json" 1000 plainPatch).filename = true ∧
    analyzeDuplication (some (filesPlain ++ mkFile "package-lock.json" 1000 plainPatch :: [])) =
      analyzeDuplication (some (filesPlain ++ [])) :=
  ⟨by decide, skip_filter_removal_identity filesPlain []
    (mkFile "package-lock.json" 1000 plainPatch) (by decide)⟩

/-- Inserting into a group list never shortens it. -/
theorem length_le_insertGroup {κ ν : Type} [DecidableEq κ]
    (m : List (κ × List ν)) (k : κ) (v : ν) :
    m.length ≤ (insertGroup m k v).length := by
  induction m with
  | nil => simp [insertGroup]
  | cons g t ih =>
    obtain ⟨k', vs⟩ := g
    rw [insertGroup]
    split
    · simp
    · simpa using ih

/-- The file-location map of a nonempty cluster is nonempty. -/
theorem clusterFileLocations_pos (d1 : DuplicateBlock) (rest : List DuplicateBlock) :
    0 < (clusterFileLocations (d1 :: rest)).length := by
  rw [clusterFileLocations, List.foldl_cons]
  have hstep : ∀ (c : List DuplicateBlock) (m : List (String × List LineRange)),
      m.length ≤ (c.foldl (fun m inst =>
        insertGroup (insertGroup m inst.file1 inst.lines1) inst.file2 inst.lines2) m).length := by
    intro c
    induction c with
    | nil => intro m; simp
    | cons inst t ih =>
      intro m
      rw [List.foldl_cons]
      exact le_trans (le_trans (length_le_insertGroup m _ _) (length_le_insertGroup _ _ _))
        (ih _)
  refine lt_of_lt_of_le ?_ (hstep rest _)
  refine lt_of_lt_of_le ?_ (length_le_insertGroup _ _ _)
  rw [insertGroup]
  simp

/-- Every record of the merged list still has its three clustered fields
unset (the passes build records with the defaults and the merger copies
them). -/
theorem merged_cluster_fields_none (blocks : List CodeBlock) :
    ∀ d ∈ mergeOverlappingDuplicates
      ((orderedPairs blocks).foldl pass2Step (findExactDuplicates blocks)).1,
      d.clusterSize = none := by
  refine mergeOverlappingDuplicates_forall (fun d => d.clusterSize = none)
    (fun a b pa _ => pa) _ ?_
  refine foldl_pass2Step_forall _ _ _ ?_ ?_
  · exact findExactDuplicates_forall _ blocks (fun _ _ _ _ _ => rfl)
  · intro pr _ _ _ _
    rfl

/-- Every record the clusterer emits carries either no cluster size or a
positive one. -/
theorem clusterDuplicatesByPattern_size_pos (l : List DuplicateBlock)
    (hl : ∀ d ∈ l, d.clusterSize = none) :
    ∀ d ∈ clusterDuplicatesByPattern l, d.clusterSize = none ∨
      ∃ n, d.clusterSize = some n ∧ 0 < n := by
  rw [clusterDuplicatesByPattern]
  split
  · simp
  · intro d hd
    simp only [List.mem_flatMap] at hd
    obtain ⟨g, hg, hdg⟩ := hd
    have henum : ∀ x ∈ l.enum, x.2 ∈ l := by
      intro x hx
      have := List.enum_map_snd l
      rw [← this]
      exact List.mem_map.mpr ⟨x, hx, rfl⟩
    have hvals : ∀ v ∈ g.2, v ∈ l :=
      foldl_insertGroup_forall (fun v => v ∈ l)
        (fun p => ufFind (clusterParent l) (clusterParent l).length p.1)
        (fun p : Nat × DuplicateBlock => p.2) l.enum [] henum (by simp) g
        (by rw [clusterMapOf] at hg; exact hg)
    obtain ⟨gk, gv⟩ := g
    dsimp only at hvals hdg
    rcases gv with - | ⟨d1, - | ⟨next, rest⟩⟩
    · cases hdg
    · rw [show processCluster [d1] = [d1] from rfl, List.mem_singleton] at hdg
      rw [hdg]
      exact Or.inl (hl d1 (hvals d1 (by simp)))
    · rw [show processCluster (d1 :: next :: rest) =
        [{ clusterRepresentative d1 (next :: rest) with
            clusterSize := some (clusterFileLocations (d1 :: next :: rest)).length
            allFiles := some (clusterAllFiles (clusterFileLocations (d1 :: next :: rest)))
            patternHash := some (hashCode (clusterRepresentative d1 (next :: rest)).code) }]
        from rfl, List.mem_singleton] at hdg
      rw [hdg]
      exact Or.inr ⟨_, rfl, clusterFileLocations_pos d1 (next :: rest)⟩

/-- Every finding of the final list has a positive similarity
denominator. -/
theorem findDuplicates_sim_den_pos (blocks : List CodeBlock) :
    ∀ d ∈ findDuplicates blocks, 0 < d.similarity.den := by
  refine findDuplicates_forall (fun d => 0 < d.similarity.den) ?_
    (fun d n af ph pd => pd) _ ?_ ?_
  · intro a b pa pb
    rcases JsRat.maxJ_cases a.similarity b.similarity with h | h
    · show 0 < (JsRat.maxJ a.similarity b.similarity).den
      rw [h]; exact pa
    · show 0 < (JsRat.maxJ a.similarity b.similarity).den
      rw [h]; exact pb
  · intro b1 b2 _ _ _
    exact Nat.one_pos
  · intro b1 b2 _ _ _ _ _
    exact calculateSimilarity_den_pos _ _

/-- Every finding of the final list has its cluster size either absent or
positive. -/
theorem findDuplicates_clusterSize_pos (blocks : List CodeBlock) :
    ∀ d ∈ findDuplicates blocks, d.clusterSize = none ∨
      ∃ n, d.clusterSize = some n ∧ 0 < n := by
  intro d hd
  rw [findDuplicates, mem_sortStable] at hd
  exact clusterDuplicatesByPattern_size_pos _ (merged_cluster_fields_none blocks) d hd

/-- Stable insertion keeps a list sorted under a comparator that is
asymmetric against the inserted element and transitive through it. -/
theorem insertSorted_pairwise {α : Type} (lt : α → α → Bool) (x : α) :
    ∀ (l : List α), l.Pairwise (fun a b => lt b a = false) →
      (∀ y ∈ l, lt y x = true → lt x y = false) →
      (∀ y z, y ∈ l → z ∈ l → lt y x = false → lt z y = false → lt z x = false) →
      (insertSorted lt x l).Pairwise (fun a b => lt b a = false) := by
  intro l
  induction l with
  | nil => intro _ _ _; simp [insertSorted]
  | cons y t ih =>
    intro hsorted hasym htrans
    rw [insertSorted]
    split
    · next hyx =>
      rw [List.pairwise_cons]
      obtain ⟨hy, ht⟩ := List.pairwise_cons.mp hsorted
      constructor
      · intro z hz
        rcases (mem_insertSorted lt x t z).mp hz with hz | hz
        · rw [hz]
          exact hasym y (List.mem_cons_self _ _) hyx
        · exact hy z hz
      · refine ih ht (fun y' hy' => hasym y' (List.mem_cons_of_mem _ hy'))
          (fun y' z hy' hz => htrans y' z (List.mem_cons_of_mem _ hy')
            (List.mem_cons_of_mem _ hz))
    · next hyx =>
      rw [Bool.not_eq_true] at hyx
      rw [List.pairwise_cons]
      obtain ⟨hy, -⟩ := List.pairwise_cons.mp hsorted
      refine ⟨?_, hsorted⟩
      intro z hz
      rcases List.mem_cons.mp hz with hz | hz
      · rw [hz]
        exact hyx
      · exact htrans y z (List.mem_cons_self _ _) (List.mem_cons_of_mem _ hz) hyx (hy z hz)

/-- The stable sort produces a list sorted under any comparator that is
asymmetric and whose complement is transitive on the sorted elements. -/
theorem sortStable_pairwise {α : Type} (lt : α → α → Bool) :
    ∀ (l : List α),
      (∀ a b, a ∈ l → b ∈ l → lt a b = true → lt b a = false) →
      (∀ x y z, x ∈ l → y ∈ l → z ∈ l → lt y x = false → lt z y = false → lt z x = false) →
      (sortStable lt l).Pairwise (fun a b => lt b a = false) := by
  intro l
  induction l with
  | nil => intro _ _; simp [sortStable]
  | cons x t ih =>
    intro hasym htrans
    rw [sortStable]
    have hmem : ∀ y, y ∈ sortStable lt t → y ∈ t := fun y hy => (mem_sortStable lt t y).mp hy
    refine insertSorted_pairwise lt x (sortStable lt t)
      (ih (fun a b ha hb => hasym a b (List.mem_cons_of_mem _ ha)
          (List.mem_cons_of_mem _ hb))
        (fun a b c ha hb hc => htrans a b c (List.mem_cons_of_mem _ ha)
          (List.mem_cons_of_mem _ hb) (List.mem_cons_of_mem _ hc)))
      ?_ ?_
    · intro y hy
      exact hasym y x (List.mem_cons_of_mem _ (hmem y hy)) (List.mem_cons_self _ _)
    · intro y z hy hz
      exact htrans x y z (List.mem_cons_self _ _) (List.mem_cons_of_mem _ (hmem y hy))
        (List.mem_cons_of_mem _ (hmem z hz))

/-- The final comparator is asymmetric. -/
theorem dupSortLt_asymm (a b : DuplicateBlock) :
    dupSortLt a b = true → dupSortLt b a = false := by
  simp only [dupSortLt, decide_eq_true_eq, decide_eq_false_iff_not]
  rw [JsRat.lt_def, JsRat.lt_def]
  intro h hcon
  rcases h with h | ⟨he, hs⟩ <;> rcases hcon with hc | ⟨hce, hcs⟩ <;> omega

/-- The complement of the final comparator is transitive on records with
positive similarity denominators. -/
theorem dupSortLt_le_trans (x y z : DuplicateBlock)
    (hx : 0 < x.similarity.den) (hy : 0 < y.similarity.den) (hz : 0 < z.similarity.den) :
    dupSortLt y x = false → dupSortLt z y = false → dupSortLt z x = false := by
  simp only [dupSortLt, decide_eq_false_iff_not]
  intro h1 h2
  push_neg at h1 h2
  obtain ⟨h1a, h1b⟩ := h1
  obtain ⟨h2a, h2b⟩ := h2
  push_neg
  constructor
  · omega
  · intro heq
    have hyx : jsClusterSize y = jsClusterSize x := by omega
    have hzy : jsClusterSize z = jsClusterSize y := by omega
    have hxy := h1b hyx
    have hyz := h2b hzy
    rw [JsRat.lt_iff_toRat _ _ hx hy] at hxy
    rw [JsRat.lt_iff_toRat _ _ hy hz] at hyz
    rw [JsRat.lt_iff_toRat _ _ hx hz]
    intro hcon
    have := le_of_not_lt hxy
    have := le_of_not_lt hyz
    linarith

/-- When the cluster size is absent or positive, the JavaScript falsy
coalescing agrees with `Option.getD`. -/
theorem jsClusterSize_eq_getD (d : DuplicateBlock)
    (h : d.clusterSize = none ∨ ∃ n, d.clusterSize = some n ∧ 0 < n) :
    jsClusterSize d = d.clusterSize.getD 1 := by
  rcases h with h | ⟨n, hn, hpos⟩
  · rw [jsClusterSize, h]
    simp
  · rw [jsClusterSize, hn]
    show (if n = 0 then 1 else n) = (some n).getD 1
    rw [if_neg (by omega)]
    simp

/-- Pointwise reading of a false comparison. -/
theorem dupSortLt_false_imp (a b : DuplicateBlock)
    (hda : 0 < a.similarity.den) (hdb : 0 < b.similarity.den)
    (hsa : jsClusterSize a = a.clusterSize.getD 1)
    (hsb : jsClusterSize b = b.clusterSize.getD 1) :
    dupSortLt b a = false →
    (b.clusterSize.getD 1 < a.clusterSize.getD 1 ∨
      (a.clusterSize.getD 1 = b.clusterSize.getD 1 ∧
        b.similarity.toRat ≤ a.similarity.toRat)) := by
  simp only [dupSortLt, decide_eq_false_iff_not]
  intro h
  push_neg at h
  obtain ⟨h1, h2⟩ := h
  rcases Nat.lt_or_ge (jsClusterSize b) (jsClusterSize a) with hlt | hge
  · left
    rw [← hsa, ← hsb]
    exact hlt
  · right
    have heqs : jsClusterSize b = jsClusterSize a := by omega
    constructor
    · rw [← hsa, ← hsb]
      omega
    · have hns := h2 heqs
      rw [JsRat.lt_iff_toRat _ _ hda hdb] at hns
      exact le_of_not_lt hns

/-- C10: the final list of findings is sorted with primary key the cluster
size (descending, one when absent) and secondary key the similarity value
(descending). -/
theorem duplicateBlocks_sorted (files : List PrFile) :
    ((analyzeCore files).duplicateBlocks).Pairwise (fun a b =>
      b.clusterSize.getD 1 < a.clusterSize.getD 1 ∨
      (a.clusterSize.getD 1 = b.clusterSize.getD 1 ∧
        b.similarity.toRat ≤ a.similarity.toRat)) := by
  have hblocks : (analyzeCore files).duplicateBlocks =
      findDuplicates (extractCodeBlocks files) := rfl
  rw [hblocks]
  have hden := findDuplicates_sim_den_pos (extractCodeBlocks files)
  have hsize := findDuplicates_clusterSize_pos (extractCodeBlocks files)
  have hunfold : findDuplicates (extractCodeBlocks files) =
      sortStable dupSortLt (clusterDuplicatesByPattern (mergeOverlappingDuplicates
        ((orderedPairs (extractCodeBlocks files)).foldl pass2Step
          (findExactDuplicates (extractCodeBlocks files))).1)) := rfl
  rw [hunfold] at hden hsize ⊢
  have hmem : ∀ d, d ∈ clusterDuplicatesByPattern (mergeOverlappingDuplicates
      ((orderedPairs (extractCodeBlocks files)).foldl pass2Step
        (findExactDuplicates (extractCodeBlocks files))).1) →
      0 < d.similarity.den ∧ jsClusterSize d = d.clusterSize.getD 1 := by
    intro d hd
    have hd' := (mem_sortStable dupSortLt _ d).mpr hd
    exact ⟨hden d hd', jsClusterSize_eq_getD d (hsize d hd')⟩
  have hsorted := sortStable_pairwise dupSortLt _
    (fun a b _ _ => dupSortLt_asymm a b)
    (fun x y z hx hy hz => dupSortLt_le_trans x y z (hmem x hx).1 (hmem y hy).1 (hmem z hz).1)
  refine hsorted.imp_of_mem ?_
  intro a b ha hb hR
  have ha' := (mem_sortStable dupSortLt _ a).mp ha
  have hb' := (mem_sortStable dupSortLt _ b).mp hb
  exact dupSortLt_false_imp a b (hmem a ha').1 (hmem b hb').1 (hmem a ha').2 (hmem b hb').2 hR

/-- Key membership after a group insertion. -/
theorem mem_keys_insertGroup {κ ν : Type} [DecidableEq κ]
    (m : List (κ × List ν)) (k : κ) (v : ν) (x : κ) :
    x ∈ (insertGroup m k v).map Prod.fst ↔ x ∈ m.map Prod.fst ∨ x = k := by
  induction m with
  | nil => simp [insertGroup]
  | cons g t ih =>
    obtain ⟨k', vs⟩ := g
    rw [insertGroup]
    split
    · next heq =>
      subst heq
      simp only [List.map_cons, List.mem_cons]
      tauto
    · simp only [List.map_cons, List.mem_cons, ih]
      tauto

/-- Group insertion preserves distinctness of the keys. -/
theorem insertGroup_keys_nodup {κ ν : Type} [DecidableEq κ]
    (m : List (κ × List ν)) (k : κ) (v : ν) (h : (m.map Prod.fst).Nodup) :
    ((insertGroup m k v).map Prod.fst).Nodup := by
  induction m with
  | nil => simp [insertGroup]
  | cons g t ih =>
    obtain ⟨k', vs⟩ := g
    rw [insertGroup]
    simp only [List.map_cons, List.nodup_cons] at h
    split
    · simp only [List.map_cons, List.nodup_cons]
      exact h
    · next hne =>
      simp only [List.map_cons, List.nodup_cons]
      constructor
      · rw [mem_keys_insertGroup]
        push_neg
        exact ⟨h.1, hne⟩
      · exact ih h.2

/-- Group insertion preserves nonemptiness of every group. -/
theorem insertGroup_groups_ne_nil {κ ν : Type} [DecidableEq κ]
    (m : List (κ × List ν)) (k : κ) (v : ν) (h : ∀ g ∈ m, g.2 ≠ []) :
    ∀ g ∈ insertGroup m k v, g.2 ≠ [] := by
  induction m with
  | nil =>
    intro g hg
    simp only [insertGroup, List.mem_singleton] at hg
    subst hg
    simp
  | cons g0 t ih =>
    obtain ⟨k', vs⟩ := g0
    intro g hg
    rw [insertGroup] at hg
    split at hg
    · rcases List.mem_cons.mp hg with hg | hg
      · subst hg
        simp
      · exact h g (List.mem_cons_of_mem _ hg)
    · rcases List.mem_cons.mp hg with hg | hg
      · subst hg
        exact h (k', vs) (List.mem_cons_self _ _)
      · exact ih (fun g' hg' => h g' (List.mem_cons_of_mem _ hg')) g hg

/-- The file-location map of any cluster has distinct keys. -/
theorem clusterFileLocations_keys_nodup (c : List DuplicateBlock) :
    ((clusterFileLocations c).map Prod.fst).Nodup := by
  rw [clusterFileLocations]
  suffices h : ∀ (m : List (String × List LineRange)), (m.map Prod.fst).Nodup →
      ((c.foldl (fun m inst =>
        insertGroup (insertGroup m inst.file1 inst.lines1) inst.file2 inst.lines2) m).map
          Prod.fst).Nodup by
    exact h [] (by simp)
  induction c with
  | nil => intro m hm; simpa using hm
  | cons inst t ih =>
    intro m hm
    rw [List.foldl_cons]
    exact ih _ (insertGroup_keys_nodup _ _ _ (insertGroup_keys_nodup _ _ _ hm))

/-- Every group of the file-location map is nonempty. -/
theorem clusterFileLocations_groups_ne_nil (c : List DuplicateBlock) :
    ∀ g ∈ clusterFileLocations c, g.2 ≠ [] := by
  rw [clusterFileLocations]
  suffices h : ∀ (m : List (String × List LineRange)), (∀ g ∈ m, g.2 ≠ []) →
      ∀ g ∈ c.foldl (fun m inst =>
        insertGroup (insertGroup m inst.file1 inst.lines1) inst.file2 inst.lines2) m,
        g.2 ≠ [] by
    exact h [] (by simp)
  induction c with
  | nil => intro m hm; simpa using hm
  | cons inst t ih =>
    intro m hm
    rw [List.foldl_cons]
    exact ih _ (insertGroup_groups_ne_nil _ _ _ (insertGroup_groups_ne_nil _ _ _ hm))

/-- The range-coalescing walk emits ranges that are strictly separated (each
ends more than two lines before the next starts) and whose starts stay at or
above the start of the carried range, provided the input is sorted by
start and dominates the carried range. -/
theorem mergeRangesWalk_strong :
    ∀ (rest : List LineRange) (current : LineRange),
      rest.Pairwise (fun a b => a.start ≤ b.start) →
      (∀ r ∈ rest, current.start ≤ r.start) →
      (mergeRangesWalk current rest).Pairwise (fun a b => a.stop + 2 < b.start) ∧
      (∀ e ∈ mergeRangesWalk current rest, current.start ≤ e.start) := by
  intro rest
  induction rest with
  | nil =>
    intro current _ _
    constructor
    · simp [mergeRangesWalk]
    · intro e he
      simp only [mergeRangesWalk, List.mem_singleton] at he
      rw [he]
  | cons next t ih =>
    intro current hsorted hdom
    obtain ⟨hnext, ht⟩ := List.pairwise_cons.mp hsorted
    rw [mergeRangesWalk]
    split
    · next hmerge =>
      have hmin : min current.start next.start = current.start :=
        min_eq_left (hdom next (List.mem_cons_self _ _))
      have hdom' : ∀ r ∈ t,
          (⟨min current.start next.start, max current.stop next.stop⟩ : LineRange).start ≤
            r.start := by
        intro r hr
        show min current.start next.start ≤ r.start
        rw [hmin]
        exact le_trans (hdom next (List.mem_cons_self _ _)) (hnext r hr)
      have hih := ih ⟨min current.start next.start, max current.stop next.stop⟩ ht hdom'
      refine ⟨hih.1, ?_⟩
      intro e he
      have h2 := hih.2 e he
      show current.start ≤ e.start
      rw [← hmin]
      exact h2
    · next hemit =>
      push_neg at hemit
      have hih := ih next ht hnext
      constructor
      · rw [List.pairwise_cons]
        refine ⟨?_, hih.1⟩
        intro e he
        exact lt_of_lt_of_le hemit (hih.2 e he)
      · intro e he
        rcases List.mem_cons.mp he with he | he
        · rw [he]
        · exact le_trans (hdom next (List.mem_cons_self _ _)) (hih.2 e he)

/-- The walk never returns an empty list. -/
theorem mergeRangesWalk_ne_nil (rest : List LineRange) (current : LineRange) :
    mergeRangesWalk current rest ≠ [] := by
  induction rest generalizing current with
  | nil => simp [mergeRangesWalk]
  | cons next t ih =>
    rw [mergeRangesWalk]
    split
    · exact ih _
    · simp

/-- The sorted, merged ranges of a file are pairwise strictly separated. -/
theorem mergedRangesOf_strong (ranges : List LineRange) :
    (mergedRangesOf ranges).Pairwise (fun a b => a.stop + 2 < b.start) := by
  rw [mergedRangesOf]
  have hsorted : (sortStable (fun a b => a.start < b.start) ranges).Pairwise
      (fun a b => a.start ≤ b.start) := by
    have := sortStable_pairwise (fun a b => decide (a.start < b.start)) ranges
      (fun a b _ _ h => by
        simp only [decide_eq_true_eq] at h
        simp only [decide_eq_false_iff_not]
        omega)
      (fun x y z _ _ _ h1 h2 => by
        simp only [decide_eq_false_iff_not] at h1 h2 ⊢
        omega)
    refine (List.Pairwise.imp ?_ this)
    intro a b h
    simp only [decide_eq_false_iff_not] at h
    omega
  revert hsorted
  split
  · intro _
    simp
  · next first rest heq =>
    intro hsorted
    rw [heq] at hsorted
    obtain ⟨hfirst, ht⟩ := List.pairwise_cons.mp hsorted
    exact (mergeRangesWalk_strong rest first ht hfirst).1

/-- The merged ranges of a nonempty range list are nonempty. -/
theorem mergedRangesOf_ne_nil (ranges : List LineRange) (h : ranges ≠ []) :
    mergedRangesOf ranges ≠ [] := by
  rw [mergedRangesOf]
  split
  · next heq =>
    exfalso
    rcases ranges with - | ⟨r, t⟩
    · exact h rfl
    · have : r ∈ sortStable (fun a b => a.start < b.start) (r :: t) :=
        (mem_sortStable _ _ _).mpr (List.mem_cons_self _ _)
      rw [heq] at this
      cases this
  · exact mergeRangesWalk_ne_nil _ _

/-- Deduplicating a nonempty constant run followed by a tail that avoids the
constant keeps exactly one copy of the constant. -/
theorem dedup_const_run {κ μ : Type} [DecidableEq κ] (a : κ) :
    ∀ (xs : List μ) (rest : List κ), a ∉ rest → xs ≠ [] →
      ((xs.map (fun _ => a)) ++ rest).dedup = a :: rest.dedup := by
  intro xs
  induction xs with
  | nil => intro rest _ hne; exact absurd rfl hne
  | cons x t ih =>
    intro rest hrest _
    rcases t with - | ⟨y, u⟩
    · simp only [List.map_cons, List.map_nil, List.nil_append, List.cons_append,
        List.nil_append]
      rw [List.dedup_cons_of_not_mem hrest]
    · have hmem : a ∈ ((y :: u).map (fun _ => a)) ++ rest := by
        simp
      simp only [List.map_cons, List.cons_append]
      rw [List.dedup_cons_of_mem (by simpa using hmem)]
      exact ih rest hrest (by simp)

/-- Flattening one constant run per group and deduplicating counts the
groups, when every run is nonempty and the keys are distinct. -/
theorem count_distinct_flat {κ ν μ : Type} [DecidableEq κ] (f : List ν → List μ) :
    ∀ (l : List (κ × List ν)),
      (∀ g ∈ l, f g.2 ≠ []) → ((l.map Prod.fst).Nodup) →
      ((l.flatMap (fun g => (f g.2).map (fun _ => g.1))).dedup).length = l.length := by
  intro l
  induction l with
  | nil => intro _ _; simp
  | cons g t ih =>
    intro hne hnodup
    rw [List.flatMap_cons]
    simp only [List.map_cons, List.nodup_cons] at hnodup
    have hnotin : g.1 ∉ t.flatMap (fun g' => (f g'.2).map (fun _ => g'.1)) := by
      intro hcon
      obtain ⟨g', hg', hmem⟩ := List.mem_flatMap.mp hcon
      obtain ⟨-, -, heq⟩ := List.mem_map.mp hmem
      exact hnodup.1 (List.mem_map.mpr ⟨g', hg', heq⟩)
    rw [dedup_const_run g.1 (f g.2) _ hnotin (hne g (List.mem_cons_self _ _))]
    rw [List.length_cons]
    rw [ih (fun g' hg' => hne g' (List.mem_cons_of_mem _ hg')) hnodup.2]
    simp

/-- The flattened location list of a well-formed file-location map counts
one distinct file per group and keeps ranges of the same file strictly
disjoint. -/
theorem clusterAllFiles_props (fl : List (String × List LineRange))
    (hnodup : (fl.map Prod.fst).Nodup) (hne : ∀ g ∈ fl, g.2 ≠ []) :
    ((clusterAllFiles fl).map (fun e => e.file)).dedup.length = fl.length ∧
    (clusterAllFiles fl).Pairwise (fun e1 e2 => e1.file = e2.file →
      ¬(max e1.lines.start e2.lines.start ≤ min e1.lines.stop e2.lines.stop)) := by
  constructor
  · rw [clusterAllFiles]
    have hmapeq : ((fl.flatMap (fun g => (mergedRangesOf g.2).map
        (fun r => (⟨g.1, r⟩ : FileLoc)))).map (fun e => e.file)) =
        fl.flatMap (fun g => (mergedRangesOf g.2).map (fun _ => g.1)) := by
      rw [List.map_flatMap]
      congr 1
      funext g
      rw [List.map_map]
      rfl
    rw [hmapeq]
    exact count_distinct_flat mergedRangesOf fl
      (fun g hg => mergedRangesOf_ne_nil _ (hne g hg)) hnodup
  · rw [clusterAllFiles, List.pairwise_flatMap]
    constructor
    · intro g hg
      rw [List.pairwise_map]
      refine (mergedRangesOf_strong g.2).imp ?_
      intro r1 r2 hsep
      intro _
      show ¬(max r1.start r2.start ≤ min r1.stop r2.stop)
      omega
    · have hpair : fl.Pairwise (fun g1 g2 => g1.1 ≠ g2.1) :=
        List.pairwise_map.mp hnodup
      refine hpair.imp ?_
      intro g1 g2 hne12 x hx y hy
      obtain ⟨r1, -, hx1⟩ := List.mem_map.mp hx
      obtain ⟨r2, -, hy1⟩ := List.mem_map.mp hy
      intro heq
      rw [← hx1, ← hy1] at heq
      exact absurd heq hne12

/-- Every clustered record the clusterer emits (given un-clustered inputs)
has its size equal to the number of distinct files of its location list,
and per-file disjoint location ranges. -/
theorem clusterDuplicatesByPattern_cluster_props (l : List DuplicateBlock)
    (hl : ∀ d ∈ l, d.clusterSize = none) :
    ∀ d ∈ clusterDuplicatesByPattern l, ∀ cs af,
      d.clusterSize = some cs → d.allFiles = some af →
      cs = (af.map (fun e => e.file)).dedup.length ∧
      af.Pairwise (fun e1 e2 => e1.file = e2.file →
        ¬(max e1.lines.start e2.lines.start ≤ min e1.lines.stop e2.lines.stop)) := by
  rw [clusterDuplicatesByPattern]
  split
  · simp
  · intro d hd cs af hcs haf
    simp only [List.mem_flatMap] at hd
    obtain ⟨g, hg, hdg⟩ := hd
    have henum : ∀ x ∈ l.enum, x.2 ∈ l := by
      intro x hx
      have := List.enum_map_snd l
      rw [← this]
      exact List.mem_map.mpr ⟨x, hx, rfl⟩
    have hvals : ∀ v ∈ g.2, v ∈ l :=
      foldl_insertGroup_forall (fun v => v ∈ l)
        (fun p => ufFind (clusterParent l) (clusterParent l).length p.1)
        (fun p : Nat × DuplicateBlock => p.2) l.enum [] henum (by simp) g
        (by rw [clusterMapOf] at hg; exact hg)
    obtain ⟨gk, gv⟩ := g
    dsimp only at hvals hdg
    rcases gv with - | ⟨d1, - | ⟨next, rest⟩⟩
    · cases hdg
    · rw [show processCluster [d1] = [d1] from rfl, List.mem_singleton] at hdg
      rw [hdg] at hcs
      rw [hl d1 (hvals d1 (by simp))] at hcs
      cases hcs
    · rw [show processCluster (d1 :: next :: rest) =
        [{ clusterRepresentative d1 (next :: rest) with
            clusterSize := some (clusterFileLocations (d1 :: next :: rest)).length
            allFiles := some (clusterAllFiles (clusterFileLocations (d1 :: next :: rest)))
            patternHash := some (hashCode (clusterRepresentative d1 (next :: rest)).code) }]
        from rfl, List.mem_singleton] at hdg
      rw [hdg] at hcs haf
      simp only [Option.some.injEq] at hcs haf
      subst hcs
      subst haf
      have hprops := clusterAllFiles_props (clusterFileLocations (d1 :: next :: rest))
        (clusterFileLocations_keys_nodup _) (clusterFileLocations_groups_ne_nil _)
      exact ⟨hprops.1.symm, hprops.2⟩

/-- C9: every clustered finding in the report has `clusterSize` equal to the
number of distinct files in `allFiles`, and within each file the listed
ranges are pairwise non-overlapping. -/
theorem cluster_size_and_disjoint_ranges (files : List PrFile) :
    ∀ d ∈ (analyzeCore files).duplicateBlocks, ∀ cs af,
      d.clusterSize = some cs → d.allFiles = some af →
      cs = (af.map (fun e => e.file)).dedup.length ∧
      af.Pairwise (fun e1 e2 => e1.file = e2.file →
        ¬(max e1.lines.start e2.lines.start ≤ min e1.lines.stop e2.lines.stop)) := by
  intro d hd
  have hblocks : (analyzeCore files).duplicateBlocks =
      findDuplicates (extractCodeBlocks files) := rfl
  rw [hblocks] at hd
  rw [findDuplicates] at hd
  rw [mem_sortStable] at hd
  exact clusterDuplicatesByPattern_cluster_props _
    (merged_cluster_fields_none (extractCodeBlocks files)) d hd

set_option maxRecDepth 400000 in
/-- Witness for C9 at the three-file cluster input: the single clustered
finding has size three, one entry per file, disjoint by distinctness of the
files. -/
theorem cluster_size_and_disjoint_ranges_witness :
    ∃ d ∈ (analyzeCore filesCluster).duplicateBlocks, ∃ cs af,
      d.clusterSize = some cs ∧ d.allFiles = some af ∧
      cs = (af.map (fun e => e.file)).dedup.length ∧
      af.Pairwise (fun e1 e2 => e1.file = e2.file →
        ¬(max e1.lines.start e2.lines.start ≤ min e1.lines.stop e2.lines.stop)) := by
  have hb : (match (analyzeCore filesCluster).duplicateBlocks with
      | [] => false
      | d :: _ => d.clusterSize == some 3 && d.allFiles.isSome) = true := by decide
  rcases hlist : (analyzeCore filesCluster).duplicateBlocks with - | ⟨d, t⟩
  · rw [hlist] at hb
    cases hb
  · rw [hlist] at hb
    simp only [Bool.and_eq_true, beq_iff_eq, Option.isSome_iff_exists] at hb
    obtain ⟨hcs, af, haf⟩ := hb
    refine ⟨d, List.mem_cons_self _ _, 3, af, hcs, haf, ?_⟩
    have hmem : d ∈ (analyzeCore filesCluster).duplicateBlocks := by
      rw [hlist]
      exact List.mem_cons_self _ _
    exact cluster_size_and_disjoint_ranges filesCluster d hmem 3 af hcs haf

/-- A singleton list is a prefix exactly when it is the head. -/
theorem singleton_isPrefixOf_iff (c : Char) (line : List Char) :
    ([c].isPrefixOf line) = true ↔ ∃ t, line = c :: t := by
  cases line with
  | nil => simp [List.isPrefixOf]
  | cons d t =>
    constructor
    · intro h
      have hcd : c = d := by simpa [List.isPrefixOf] using h
      exact ⟨t, by rw [hcd]⟩
    · rintro ⟨tail, ht⟩
      injection ht with h1 h2
      simp [List.isPrefixOf, h1]

/-- Two distinct characters cannot both head the same line. -/
theorem singleton_isPrefixOf_ne (c d : Char) (line : List Char) (hne : d = c → False)
    (h : ([c].isPrefixOf line) = true) : ([d].isPrefixOf line) = false := by
  rcases (singleton_isPrefixOf_iff c line).mp h with ⟨t, rfl⟩
  cases hdc : ([d].isPrefixOf (c :: t)) with
  | false => rfl
  | true =>
    rcases (singleton_isPrefixOf_iff d (c :: t)).mp hdc with ⟨tail, ht⟩
    injection ht with h1 h2
    exact (hne h1.symm).elim

/-- Equation of the patch walker at a hunk-header line with a capture. -/
theorem extractAddedLinesGo_cons_header (n : Nat) (line : List Char)
    (rest : List (List Char)) (h1 : (['@', '@'].isPrefixOf line) = true) (m : Nat)
    (hf : findPlusDigits line = some m) :
    extractAddedLinesGo n (line :: rest) = extractAddedLinesGo m rest := by
  simp [extractAddedLinesGo, h1, hf]

/-- Equation of the patch walker at an added line. -/
theorem extractAddedLinesGo_cons_plus (n : Nat) (line : List Char)
    (rest : List (List Char)) (h1 : (['@', '@'].isPrefixOf line) = false)
    (h2 : (['+'].isPrefixOf line) = true)
    (h3 : (['+', '+', '+'].isPrefixOf line) = false) :
    extractAddedLinesGo n (line :: rest) =
      ⟨n, String.mk (line.drop 1)⟩ :: extractAddedLinesGo (n + 1) rest := by
  simp [extractAddedLinesGo, h1, h2, h3]

/-- Equation of the patch walker at a deletion line. -/
theorem extractAddedLinesGo_cons_minus (n : Nat) (line : List Char)
    (rest : List (List Char)) (h1 : (['@', '@'].isPrefixOf line) = false)
    (h2 : (['+'].isPrefixOf line) = false)
    (h3 : (['-'].isPrefixOf line) = true) :
    extractAddedLinesGo n (line :: rest) = extractAddedLinesGo n rest := by
  simp [extractAddedLinesGo, h1, h2, h3]

/-- Equation of the patch walker at a context line. -/
theorem extractAddedLinesGo_cons_ctx (n : Nat) (line : List Char)
    (rest : List (List Char)) (h1 : (['@', '@'].isPrefixOf line) = false)
    (h2 : (['+'].isPrefixOf line) = false)
    (h3 : (['-'].isPrefixOf line) = false) :
    extractAddedLinesGo n (line :: rest) = extractAddedLinesGo (n + 1) rest := by
  simp [extractAddedLinesGo, h1, h2, h3]

/-- Equation of the spec-side hunk reading at an added line. -/
theorem specHunkAdded_cons_plus (n : Nat) (line : List Char) (body : List (List Char))
    (h2 : (['+'].isPrefixOf line) = true) (hm : (['-'].isPrefixOf line) = false) :
    specHunkAdded n (line :: body) =
      ⟨n, String.mk (line.drop 1)⟩ :: specHunkAdded (n + 1) body := by
  have h2p : ['+'] <+: line := by
    rcases (singleton_isPrefixOf_iff '+' line).mp h2 with ⟨t, rfl⟩
    exact ⟨t, rfl⟩
  simp [specHunkAdded, specNumberNonDel, hm, List.filterMap_cons, h2p]

/-- Equation of the spec-side hunk reading at a deletion line. -/
theorem specHunkAdded_cons_minus (n : Nat) (line : List Char) (body : List (List Char))
    (hm : (['-'].isPrefixOf line) = true) :
    specHunkAdded n (line :: body) = specHunkAdded n body := by
  simp [specHunkAdded, specNumberNonDel, hm]

/-- Equation of the spec-side hunk reading at a context line. -/
theorem specHunkAdded_cons_ctx (n : Nat) (line : List Char) (body : List (List Char))
    (h2 : (['+'].isPrefixOf line) = false) (hm : (['-'].isPrefixOf line) = false) :
    specHunkAdded n (line :: body) = specHunkAdded (n + 1) body := by
  have h2p : ¬(['+'] <+: line) := by
    intro hc
    rcases hc with ⟨t, ht⟩
    rw [← ht] at h2
    simp [List.isPrefixOf] at h2
  simp [specHunkAdded, specNumberNonDel, hm, List.filterMap_cons, h2p]

/-- A post-image line consumes one cursor step. -/
theorem countNonDel_cons_keep (line : List Char) (body : List (List Char))
    (hm : (['-'].isPrefixOf line) = false) :
    countNonDel (line :: body) = countNonDel body + 1 := by
  simp [countNonDel, List.filter_cons, hm]

/-- A deletion line consumes no cursor step. -/
theorem countNonDel_cons_minus (line : List Char) (body : List (List Char))
    (hm : (['-'].isPrefixOf line) = true) :
    countNonDel (line :: body) = countNonDel body := by
  simp [countNonDel, List.filter_cons, hm]

/-- Across a hunk body free of headers and `+++` markers, the patch walker
emits exactly the spec-side added lines and advances its cursor by the number
of post-image lines. -/
theorem extractAddedLinesGo_hunk_body (body : List (List Char)) :
    ∀ (n : Nat) (rest : List (List Char)),
      (∀ line ∈ body, (['@', '@'].isPrefixOf line) = false ∧
        (['+', '+', '+'].isPrefixOf line) = false) →
      extractAddedLinesGo n (body ++ rest) =
        specHunkAdded n body ++ extractAddedLinesGo (n + countNonDel body) rest := by
  induction body with
  | nil =>
    intro n rest _
    simp [specHunkAdded, specNumberNonDel, countNonDel]
  | cons line body ih =>
    intro n rest hb
    have h1 := hb line (List.mem_cons_self _ _)
    have hrest : ∀ l ∈ body, (['@', '@'].isPrefixOf l) = false ∧
        (['+', '+', '+'].isPrefixOf l) = false :=
      fun l hl => hb l (List.mem_cons_of_mem _ hl)
    rw [List.cons_append]
    by_cases hplus : (['+'].isPrefixOf line) = true
    · have hminus : (['-'].isPrefixOf line) = false :=
        singleton_isPrefixOf_ne '+' '-' line (by decide) hplus
      rw [extractAddedLinesGo_cons_plus n line (body ++ rest) h1.1 hplus h1.2,
        ih (n + 1) rest hrest,
        specHunkAdded_cons_plus n line body hplus hminus,
        countNonDel_cons_keep line body hminus, List.cons_append]
      have harith : n + 1 + countNonDel body = n + (countNonDel body + 1) := by omega
      rw [harith]
    · have hplus' : (['+'].isPrefixOf line) = false := by
        revert hplus
        cases (['+'].isPrefixOf line) <;> simp
      by_cases hminus : (['-'].isPrefixOf line) = true
      · rw [extractAddedLinesGo_cons_minus n line (body ++ rest) h1.1 hplus' hminus,
          ih n rest hrest,
          specHunkAdded_cons_minus n line body hminus,
          countNonDel_cons_minus line body hminus]
      · have hminus' : (['-'].isPrefixOf line) = false := by
          revert hminus
          cases (['-'].isPrefixOf line) <;> simp
        rw [extractAddedLinesGo_cons_ctx n line (body ++ rest) h1.1 hplus' hminus',
          ih (n + 1) rest hrest,
          specHunkAdded_cons_ctx n line body hplus' hminus',
          countNonDel_cons_keep line body hminus']
        have harith : n + 1 + countNonDel body = n + (countNonDel body + 1) := by omega
        rw [harith]

/-- Across a list of well-formed hunks the patch walker emits exactly the
spec-side added lines of each hunk, independently of the incoming cursor. -/
theorem extractAddedLinesGo_hunks (hunks : List Hunk) :
    ∀ (cur : Nat),
      (∀ h ∈ hunks, (['@', '@'].isPrefixOf h.header) = true ∧
        findPlusDigits h.header = some (hunkStart h)) →
      (∀ h ∈ hunks, ∀ line ∈ h.body, (['@', '@'].isPrefixOf line) = false ∧
        (['+', '+', '+'].isPrefixOf line) = false) →
      extractAddedLinesGo cur (hunks.flatMap (fun h => h.header :: h.body)) =
        hunks.flatMap (fun h => specHunkAdded (hunkStart h) h.body) := by
  induction hunks with
  | nil =>
    intro cur _ _
    rfl
  | cons h hs ih =>
    intro cur hhdr hbody
    have hh := hhdr h (List.mem_cons_self _ _)
    rw [List.flatMap_cons, List.flatMap_cons, List.cons_append,
      extractAddedLinesGo_cons_header cur h.header _ hh.1 (hunkStart h) hh.2,
      extractAddedLinesGo_hunk_body h.body (hunkStart h) _
        (hbody h (List.mem_cons_self _ _)),
      ih (hunkStart h + countNonDel h.body)
        (fun g hg => hhdr g (List.mem_cons_of_mem _ hg))
        (fun g hg => hbody g (List.mem_cons_of_mem _ hg))]

/-- Every added line the walker emits originates in a `+`-line of the patch
(not a `+++` marker) and carries its text with the plus stripped, on every
input whatsoever. -/
theorem extractAddedLinesGo_content (lines : List (List Char)) :
    ∀ (cur : Nat) (a : AddedLine), a ∈ extractAddedLinesGo cur lines →
      ∃ line ∈ lines, (['+'].isPrefixOf line) = true ∧
        (['+', '+', '+'].isPrefixOf line) = false ∧
        a.content = String.mk (line.drop 1) := by
  induction lines with
  | nil =>
    intro cur a ha
    cases ha
  | cons line rest ih =>
    intro cur a ha
    by_cases h1 : (['@', '@'].isPrefixOf line) = true
    · rcases hf : findPlusDigits line with _ | m
      · rw [show extractAddedLinesGo cur (line :: rest) = extractAddedLinesGo cur rest from
          by simp [extractAddedLinesGo, h1, hf]] at ha
        rcases ih cur a ha with ⟨l, hl, hp⟩
        exact ⟨l, List.mem_cons_of_mem _ hl, hp⟩
      · rw [show extractAddedLinesGo cur (line :: rest) = extractAddedLinesGo m rest from
          by simp [extractAddedLinesGo, h1, hf]] at ha
        rcases ih m a ha with ⟨l, hl, hp⟩
        exact ⟨l, List.mem_cons_of_mem _ hl, hp⟩
    · have h1' : (['@', '@'].isPrefixOf line) = false := by
        revert h1
        cases (['@', '@'].isPrefixOf line) <;> simp
      by_cases h2 : (['+'].isPrefixOf line) = true
      · by_cases h3 : (['+', '+', '+'].isPrefixOf line) = true
        · rw [show extractAddedLinesGo cur (line :: rest) = extractAddedLinesGo (cur + 1) rest
              from by
            simp [extractAddedLinesGo, h1', h2, h3,
              singleton_isPrefixOf_ne '+' '-' line (by decide) h2]] at ha
          rcases ih (cur + 1) a ha with ⟨l, hl, hp⟩
          exact ⟨l, List.mem_cons_of_mem _ hl, hp⟩
        · have h3' : (['+', '+', '+'].isPrefixOf line) = false := by
            revert h3
            cases (['+', '+', '+'].isPrefixOf line) <;> simp
          rw [extractAddedLinesGo_cons_plus cur line rest h1' h2 h3'] at ha
          rcases List.mem_cons.mp ha with rfl | ha
          · exact ⟨line, List.mem_cons_self _ _, h2, h3', rfl⟩
          · rcases ih (cur + 1) a ha with ⟨l, hl, hp⟩
            exact ⟨l, List.mem_cons_of_mem _ hl, hp⟩
      · have h2' : (['+'].isPrefixOf line) = false := by
          revert h2
          cases (['+'].isPrefixOf line) <;> simp
        by_cases h3 : (['-'].isPrefixOf line) = true
        · rw [extractAddedLinesGo_cons_minus cur line rest h1' h2' h3] at ha
          rcases ih cur a ha with ⟨l, hl, hp⟩
          exact ⟨l, List.mem_cons_of_mem _ hl, hp⟩
        · have h3' : (['-'].isPrefixOf line) = false := by
            revert h3
            cases (['-'].isPrefixOf line) <;> simp
          rw [extractAddedLinesGo_cons_ctx cur line rest h1' h2' h3'] at ha
          rcases ih (cur + 1) a ha with ⟨l, hl, hp⟩
          exact ⟨l, List.mem_cons_of_mem _ hl, hp⟩

/-- Post-image numbers assigned from `n` never fall below `n`. -/
theorem specNumberNonDel_ge (body : List (List Char)) :
    ∀ (n : Nat) (p : Nat × List Char), p ∈ specNumberNonDel n body → n ≤ p.1 := by
  induction body with
  | nil =>
    intro n p hp
    cases hp
  | cons line rest ih =>
    intro n p hp
    by_cases hm : (['-'].isPrefixOf line) = true
    · rw [show specNumberNonDel n (line :: rest) = specNumberNonDel n rest from
        by simp [specNumberNonDel, hm]] at hp
      exact ih n p hp
    · have hm' : (['-'].isPrefixOf line) = false := by
        revert hm
        cases (['-'].isPrefixOf line) <;> simp
      rw [show specNumberNonDel n (line :: rest) =
          (n, line) :: specNumberNonDel (n + 1) rest from
        by simp [specNumberNonDel, hm']] at hp
      rcases List.mem_cons.mp hp with rfl | hp
      · exact Nat.le_refl n
      · exact Nat.le_of_succ_le (ih (n + 1) p hp)

/-- Spec-side added lines of a hunk starting at `n` have line numbers ≥ `n`. -/
theorem specHunkAdded_lineNumber_ge (n : Nat) (body : List (List Char)) (a : AddedLine)
    (ha : a ∈ specHunkAdded n body) : n ≤ a.lineNumber := by
  rcases List.mem_filterMap.mp ha with ⟨p, hp, he⟩
  by_cases h : (['+'].isPrefixOf p.2) = true
  · rw [if_pos h] at he
    have hle := specNumberNonDel_ge body n p hp
    have ha2 : a = ⟨p.1, String.mk (p.2.drop 1)⟩ := (Option.some.inj he).symm
    rw [ha2]
    exact hle
  · rw [if_neg h] at he
    cases he

set_option maxRecDepth 4000 in
/-- C5 amended: for every patch that decomposes into well-formed hunks — each
a `@@` header whose `+N` capture is at least one, followed by body lines that
are neither headers nor `+++` file markers — the extracted added lines are
exactly the post-image reading of the hunk bodies written from the spec's
words (`specHunkAdded`): each added line carries its post-image line number
(in particular ≥ 1) and the raw text of the `+`-line with the plus stripped;
the content/origin part holds for every patch. Without the hunk hypothesis
the numbering part fails (`added_line_number_zero_without_hunk_header`). -/
theorem added_lines_are_post_image (patch : String) (hunks : List Hunk)
    (hsplit : splitOnNl patch.toList = hunks.flatMap (fun h => h.header :: h.body))
    (hhdr : ∀ h ∈ hunks, (['@', '@'].isPrefixOf h.header) = true ∧
      findPlusDigits h.header = some (hunkStart h) ∧ 1 ≤ hunkStart h)
    (hbody : ∀ h ∈ hunks, ∀ line ∈ h.body, (['@', '@'].isPrefixOf line) = false ∧
      (['+', '+', '+'].isPrefixOf line) = false) :
    extractAddedLines patch =
      hunks.flatMap (fun h => specHunkAdded (hunkStart h) h.body) ∧
    (∀ a ∈ extractAddedLines patch, 1 ≤ a.lineNumber) ∧
    (∀ a ∈ extractAddedLines patch, ∃ line ∈ splitOnNl patch.toList,
      (['+'].isPrefixOf line) = true ∧ (['+', '+', '+'].isPrefixOf line) = false ∧
      a.content = String.mk (line.drop 1)) := by
  have hmain : extractAddedLines patch =
      hunks.flatMap (fun h => specHunkAdded (hunkStart h) h.body) := by
    rw [extractAddedLines, hsplit]
    exact extractAddedLinesGo_hunks hunks 0
      (fun h hh => ⟨(hhdr h hh).1, (hhdr h hh).2.1⟩) hbody
  refine ⟨hmain, ?_, ?_⟩
  · intro a ha
    rw [hmain] at ha
    rcases List.mem_flatMap.mp ha with ⟨h, hh, hah⟩
    exact Nat.le_trans (hhdr h hh).2.2 (specHunkAdded_lineNumber_ge (hunkStart h) h.body a hah)
  · intro a ha
    rw [extractAddedLines] at ha
    exact extractAddedLinesGo_content (splitOnNl patch.toList) 0 a ha

/-- Witness for C5 at a concrete one-hunk patch: the walker's output equals
the spec-side post-image reading, and every line number is at least one. -/
theorem added_lines_are_post_image_witness :
    extractAddedLines hunkPatchW =
      hunksW.flatMap (fun h => specHunkAdded (hunkStart h) h.body) ∧
    ∀ a ∈ extractAddedLines hunkPatchW, 1 ≤ a.lineNumber := by
  have h := added_lines_are_post_image hunkPatchW hunksW (by decide) (by decide) (by decide)
  exact ⟨h.1, h.2.1⟩

theorem lineF_cons_ne (fuel : Nat) (c : Char) (t : List Char) (hc : c ≠ '/') :
    stripLineCommentsF (fuel + 1) (c :: t) = c :: stripLineCommentsF fuel t := by
  rw [stripLineCommentsF.eq_def]
  split
  · omega
  · simp_all
  · simp_all
  · simp_all

theorem lineF_slash_cons_ne (fuel : Nat) (c : Char) (t : List Char) (hc : c ≠ '/') :
    stripLineCommentsF (fuel + 1) ('/' :: c :: t) = '/' :: stripLineCommentsF fuel (c :: t) := by
  rw [stripLineCommentsF.eq_def]
  split
  · omega
  · simp_all
  · simp_all
  · rename_i n0 l0 fv cv tv x hfuel heq
    injection heq with h1 h2
    subst h1
    subst h2
    have hf : fuel = fv := by omega
    subst hf
    rfl

theorem lineF_slash_nil (fuel : Nat) :
    stripLineCommentsF (fuel + 1) ['/'] = ['/'] := by
  cases fuel <;> rfl

theorem blockF_cons_ne (fuel : Nat) (c : Char) (t : List Char) (hc : c ≠ '/') :
    stripBlockCommentsF (fuel + 1) (c :: t) = c :: stripBlockCommentsF fuel t := by
  rw [stripBlockCommentsF.eq_def]
  split
  · omega
  · simp_all
  · simp_all
  · simp_all

theorem blockF_slashstar_close (fuel : Nat) (t : List Char) (i : Nat)
    (h : blockCloseIdx t = some i) :
    stripBlockCommentsF (fuel + 1) ('/' :: '*' :: t) =
      stripBlockCommentsF fuel (t.drop (i + 2)) := by
  simp [stripBlockCommentsF, h]

theorem blockCloseIdx_cons_ne (c : Char) (t : List Char) (hc : c ≠ '*') :
    blockCloseIdx (c :: t) = (blockCloseIdx t).map (· + 1) := by
  rw [blockCloseIdx.eq_def]
  split
  · simp_all
  · simp_all
  · simp_all

theorem elideF_cons_ne (q : Char) (fuel : Nat) (c : Char) (t : List Char) (hc : c ≠ q) :
    elideLiteralsF q (fuel + 1) (c :: t) = c :: elideLiteralsF q fuel t := by
  simp [elideLiteralsF, hc]

theorem elideF_open (q : Char) (fuel : Nat) (t : List Char) (i : Nat)
    (h : litCloseIdx q t = some i) :
    elideLiteralsF q (fuel + 1) (q :: t) = q :: q :: elideLiteralsF q fuel (t.drop (i + 1)) := by
  simp [elideLiteralsF, h]

theorem lineF_slashslash (fuel : Nat) (t : List Char) :
    stripLineCommentsF (fuel + 1) ('/' :: '/' :: t) =
      stripLineCommentsF fuel (t.dropWhile (fun c => !isLineTerm c)) := rfl

theorem blockF_slashstar_none (fuel : Nat) (t : List Char) (h : blockCloseIdx t = none) :
    stripBlockCommentsF (fuel + 1) ('/' :: '*' :: t) =
      '/' :: stripBlockCommentsF fuel ('*' :: t) := by
  simp [stripBlockCommentsF, h]

theorem blockF_slash_cons_ne (fuel : Nat) (c : Char) (t : List Char) (hc : c ≠ '*') :
    stripBlockCommentsF (fuel + 1) ('/' :: c :: t) =
      '/' :: stripBlockCommentsF fuel (c :: t) := by
  rw [stripBlockCommentsF.eq_def]
  split
  · omega
  · simp_all
  · simp_all
  · rename_i n0 l0 fv cv tv x hfuel heq
    injection heq with h1 h2
    subst h1
    subst h2
    have hf : fuel = fv := by omega
    subst hf
    rfl

theorem stripLineCommentsF_fuel : ∀ (f1 : Nat) (l : List Char) (f2 : Nat),
    l.length ≤ f1 → l.length ≤ f2 → stripLineCommentsF f1 l = stripLineCommentsF f2 l := by
  intro f1
  induction f1 with
  | zero =>
    intro l f2 h1 _
    have hl : l = [] := List.eq_nil_of_length_eq_zero (Nat.le_zero.mp h1)
    subst hl
    cases f2 <;> rfl
  | succ f1 ih =>
    intro l f2 h1 h2
    cases l with
    | nil => cases f2 <;> rfl
    | cons c t =>
      rcases f2 with _ | f2
      · simp at h2
      by_cases hc : c = '/'
      · subst hc
        cases t with
        | nil => rw [lineF_slash_nil, lineF_slash_nil]
        | cons c2 t2 =>
          by_cases hc2 : c2 = '/'
          · subst hc2
            rw [lineF_slashslash, lineF_slashslash]
            have hd : (t2.dropWhile (fun c => !isLineTerm c)).length ≤ t2.length :=
              (List.dropWhile_sublist _).length_le
            have hl1 : (t2.dropWhile (fun c => !isLineTerm c)).length ≤ f1 := by
              simp [List.length_cons] at h1
              omega
            have hl2 : (t2.dropWhile (fun c => !isLineTerm c)).length ≤ f2 := by
              simp [List.length_cons] at h2
              omega
            exact ih _ f2 hl1 hl2
          · have hl1 : (c2 :: t2).length ≤ f1 := by
              simp [List.length_cons] at h1 ⊢
              omega
            have hl2 : (c2 :: t2).length ≤ f2 := by
              simp [List.length_cons] at h2 ⊢
              omega
            rw [lineF_slash_cons_ne f1 c2 t2 hc2, lineF_slash_cons_ne f2 c2 t2 hc2,
              ih (c2 :: t2) f2 hl1 hl2]
      · have hl1 : t.length ≤ f1 := by
          simp [List.length_cons] at h1
          omega
        have hl2 : t.length ≤ f2 := by
          simp [List.length_cons] at h2
          omega
        rw [lineF_cons_ne f1 c t hc, lineF_cons_ne f2 c t hc, ih t f2 hl1 hl2]

theorem blockF_slash_nil (fuel : Nat) :
    stripBlockCommentsF (fuel + 1) ['/'] = ['/'] := by
  cases fuel <;> rfl

theorem stripBlockCommentsF_fuel : ∀ (f1 : Nat) (l : List Char) (f2 : Nat),
    l.length ≤ f1 → l.length ≤ f2 → stripBlockCommentsF f1 l = stripBlockCommentsF f2 l := by
  intro f1
  induction f1 with
  | zero =>
    intro l f2 h1 _
    have hl : l = [] := List.eq_nil_of_length_eq_zero (Nat.le_zero.mp h1)
    subst hl
    cases f2 <;> rfl
  | succ f1 ih =>
    intro l f2 h1 h2
    cases l with
    | nil => cases f2 <;> rfl
    | cons c t =>
      rcases f2 with _ | f2
      · simp at h2
      by_cases hc : c = '/'
      · subst hc
        cases t with
        | nil => rw [blockF_slash_nil, blockF_slash_nil]
        | cons c2 t2 =>
          by_cases hc2 : c2 = '*'
          · subst hc2
            rcases hclose : blockCloseIdx t2 with _ | i
            · have hl1 : ('*' :: t2).length ≤ f1 := by
                simp [List.length_cons] at h1 ⊢
                omega
              have hl2 : ('*' :: t2).length ≤ f2 := by
                simp [List.length_cons] at h2 ⊢
                omega
              rw [blockF_slashstar_none f1 t2 hclose, blockF_slashstar_none f2 t2 hclose,
                ih ('*' :: t2) f2 hl1 hl2]
            · have hd : (t2.drop (i + 2)).length ≤ t2.length := by
                rw [List.length_drop]
                omega
              have hl1 : (t2.drop (i + 2)).length ≤ f1 := by
                simp [List.length_cons] at h1
                omega
              have hl2 : (t2.drop (i + 2)).length ≤ f2 := by
                simp [List.length_cons] at h2
                omega
              rw [blockF_slashstar_close f1 t2 i hclose, blockF_slashstar_close f2 t2 i hclose,
                ih _ f2 hl1 hl2]
          · have hl1 : (c2 :: t2).length ≤ f1 := by
              simp [List.length_cons] at h1 ⊢
              omega
            have hl2 : (c2 :: t2).length ≤ f2 := by
              simp [List.length_cons] at h2 ⊢
              omega
            rw [blockF_slash_cons_ne f1 c2 t2 hc2, blockF_slash_cons_ne f2 c2 t2 hc2,
              ih (c2 :: t2) f2 hl1 hl2]
      · have hl1 : t.length ≤ f1 := by
          simp [List.length_cons] at h1
          omega
        have hl2 : t.length ≤ f2 := by
          simp [List.length_cons] at h2
          omega
        rw [blockF_cons_ne f1 c t hc, blockF_cons_ne f2 c t hc, ih t f2 hl1 hl2]

theorem elideF_open_none (q : Char) (fuel : Nat) (t : List Char)
    (h : litCloseIdx q t = none) :
    elideLiteralsF q (fuel + 1) (q :: t) = q :: elideLiteralsF q fuel t := by
  simp [elideLiteralsF, h]

theorem elideLiteralsF_fuel (q : Char) : ∀ (f1 : Nat) (l : List Char) (f2 : Nat),
    l.length ≤ f1 → l.length ≤ f2 → elideLiteralsF q f1 l = elideLiteralsF q f2 l := by
  intro f1
  induction f1 with
  | zero =>
    intro l f2 h1 _
    have hl : l = [] := List.eq_nil_of_length_eq_zero (Nat.le_zero.mp h1)
    subst hl
    cases f2 <;> rfl
  | succ f1 ih =>
    intro l f2 h1 h2
    cases l with
    | nil => cases f2 <;> rfl
    | cons c t =>
      rcases f2 with _ | f2
      · simp at h2
      by_cases hc : c = q
      · subst hc
        rcases hclose : litCloseIdx c t with _ | i
        · have hl1 : t.length ≤ f1 := by
            simp [List.length_cons] at h1
            omega
          have hl2 : t.length ≤ f2 := by
            simp [List.length_cons] at h2
            omega
          rw [elideF_open_none c f1 t hclose, elideF_open_none c f2 t hclose,
            ih t f2 hl1 hl2]
        · have hd : (t.drop (i + 1)).length ≤ t.length := by
            rw [List.length_drop]
            omega
          have hl1 : (t.drop (i + 1)).length ≤ f1 := by
            simp [List.length_cons] at h1
            omega
          have hl2 : (t.drop (i + 1)).length ≤ f2 := by
            simp [List.length_cons] at h2
            omega
          rw [elideF_open c f1 t i hclose, elideF_open c f2 t i hclose, ih _ f2 hl1 hl2]
      · have hl1 : t.length ≤ f1 := by
          simp [List.length_cons] at h1
          omega
        have hl2 : t.length ≤ f2 := by
          simp [List.length_cons] at h2
          omega
        rw [elideF_cons_ne q f1 c t hc, elideF_cons_ne q f2 c t hc, ih t f2 hl1 hl2]

theorem stripLineComments_copy (s : List Char) (hs : ∀ c ∈ s, c ≠ '/') :
    ∀ rest, stripLineComments (s ++ rest) = s ++ stripLineComments rest := by
  induction s with
  | nil => intro rest; rfl
  | cons c s ih =>
    intro rest
    have hc : c ≠ '/' := hs c (List.mem_cons_self _ _)
    show stripLineCommentsF ((s ++ rest).length + 1) (c :: (s ++ rest)) = _
    rw [lineF_cons_ne _ c _ hc]
    rw [show stripLineCommentsF (s ++ rest).length (s ++ rest) =
      stripLineComments (s ++ rest) from rfl]
    rw [ih (fun d hd => hs d (List.mem_cons_of_mem _ hd)) rest]
    rfl

theorem stripLineComments_slash (rest : List Char) (h : rest.head? ≠ some '/') :
    stripLineComments ('/' :: rest) = '/' :: stripLineComments rest := by
  cases rest with
  | nil => rfl
  | cons c r =>
    have hc : c ≠ '/' := by
      intro hh
      subst hh
      exact h rfl
    show stripLineCommentsF ((c :: r).length + 1) ('/' :: c :: r) = _
    rw [lineF_slash_cons_ne _ c r hc]
    rfl

theorem dropWhile_no_lineterm (body : List Char)
    (hb : ∀ c ∈ body, isLineTerm c = false) :
    ∀ rest, (body ++ rest).dropWhile (fun c => !isLineTerm c) =
      rest.dropWhile (fun c => !isLineTerm c) := by
  induction body with
  | nil => intro rest; rfl
  | cons c b ih =>
    intro rest
    have hc : isLineTerm c = false := hb c (List.mem_cons_self _ _)
    rw [List.cons_append, List.dropWhile_cons, if_pos (by simp [hc])]
    exact ih (fun d hd => hb d (List.mem_cons_of_mem _ hd)) rest

theorem stripLineComments_lineC (body rest : List Char)
    (hb : ∀ c ∈ body, isLineTerm c = false)
    (hr : rest.head? = some '\n' ∨ rest = []) :
    stripLineComments ('/' :: '/' :: (body ++ rest)) = stripLineComments rest := by
  show stripLineCommentsF ((body ++ rest).length + 1 + 1) ('/' :: '/' :: (body ++ rest)) = _
  rw [lineF_slashslash]
  have hdw : (body ++ rest).dropWhile (fun c => !isLineTerm c) = rest := by
    rw [dropWhile_no_lineterm body hb rest]
    rcases hr with hr | hr
    · cases rest with
      | nil => rfl
      | cons c r =>
        have hc : c = '\n' := by
          injection hr
        subst hc
        rw [List.dropWhile_cons]
        simp [isLineTerm]
    · subst hr
      rfl
  rw [hdw]
  exact stripLineCommentsF_fuel _ rest _ (by simp; omega) (Nat.le_refl _)

theorem stripBlockComments_copy (s : List Char) (hs : ∀ c ∈ s, c ≠ '/') :
    ∀ rest, stripBlockComments (s ++ rest) = s ++ stripBlockComments rest := by
  induction s with
  | nil => intro rest; rfl
  | cons c s ih =>
    intro rest
    have hc : c ≠ '/' := hs c (List.mem_cons_self _ _)
    show stripBlockCommentsF ((s ++ rest).length + 1) (c :: (s ++ rest)) = _
    rw [blockF_cons_ne _ c _ hc]
    rw [show stripBlockCommentsF (s ++ rest).length (s ++ rest) =
      stripBlockComments (s ++ rest) from rfl]
    rw [ih (fun d hd => hs d (List.mem_cons_of_mem _ hd)) rest]
    rfl

theorem blockCloseIdx_clean (body : List Char) (hb : ∀ c ∈ body, c ≠ '*' ∧ c ≠ '/') :
    ∀ rest, blockCloseIdx (body ++ ('*' :: '/' :: rest)) = some body.length := by
  induction body with
  | nil => intro rest; rfl
  | cons c b ih =>
    intro rest
    have hc := hb c (List.mem_cons_self _ _)
    rw [List.cons_append, blockCloseIdx_cons_ne c _ hc.1,
      ih (fun d hd => hb d (List.mem_cons_of_mem _ hd)) rest]
    rfl

theorem drop_append_cons (l : List Char) : ∀ (rest : List Char) (k : Nat),
    (l ++ rest).drop (l.length + k) = rest.drop k := by
  induction l with
  | nil =>
    intro rest k
    simp
  | cons c t ih =>
    intro rest k
    simp only [List.cons_append, List.length_cons]
    rw [show t.length + 1 + k = (t.length + k) + 1 from by omega, List.drop_succ_cons, ih]

theorem stripBlockComments_blockC (body rest : List Char)
    (hb : ∀ c ∈ body, c ≠ '*' ∧ c ≠ '/') :
    stripBlockComments ('/' :: '*' :: (body ++ '*' :: '/' :: rest)) =
      stripBlockComments rest := by
  show stripBlockCommentsF ((body ++ '*' :: '/' :: rest).length + 1 + 1) _ = _
  rw [blockF_slashstar_close _ _ body.length (blockCloseIdx_clean body hb rest)]
  have hdrop : (body ++ '*' :: '/' :: rest).drop (body.length + 2) = rest := by
    rw [drop_append_cons body ('*' :: '/' :: rest) 2]
    rfl
  rw [hdrop]
  exact stripBlockCommentsF_fuel _ rest _ (by simp; omega) (Nat.le_refl _)

theorem litCloseIdx_clean (q : Char) (body : List Char)
    (hb : ∀ c ∈ body, c ≠ q ∧ c ≠ backslashC) :
    ∀ rest, litCloseIdx q (body ++ q :: rest) = some body.length := by
  induction body with
  | nil =>
    intro rest
    rw [litCloseIdx.eq_def]
    simp
  | cons c b ih =>
    intro rest
    have hc := hb c (List.mem_cons_self _ _)
    rw [List.cons_append]
    rw [show litCloseIdx q (c :: (b ++ q :: rest)) =
      (litCloseIdx q (b ++ q :: rest)).map (· + 1) from by
        rw [litCloseIdx.eq_def]
        simp [hc.1, hc.2]]
    rw [ih (fun d hd => hb d (List.mem_cons_of_mem _ hd)) rest]
    rfl

theorem elideLiterals_copy (q : Char) (s : List Char) (hs : ∀ c ∈ s, c ≠ q) :
    ∀ rest, elideLiterals q (s ++ rest) = s ++ elideLiterals q rest := by
  induction s with
  | nil => intro rest; rfl
  | cons c s ih =>
    intro rest
    have hc : c ≠ q := hs c (List.mem_cons_self _ _)
    show elideLiteralsF q ((s ++ rest).length + 1) (c :: (s ++ rest)) = _
    rw [elideF_cons_ne q _ c _ hc]
    rw [show elideLiteralsF q (s ++ rest).length (s ++ rest) =
      elideLiterals q (s ++ rest) from rfl]
    rw [ih (fun d hd => hs d (List.mem_cons_of_mem _ hd)) rest]
    rfl

theorem elideLiterals_lit (q : Char) (body : List Char)
    (hb : ∀ c ∈ body, c ≠ q ∧ c ≠ backslashC) (rest : List Char) :
    elideLiterals q (q :: (body ++ q :: rest)) = q :: q :: elideLiterals q rest := by
  show elideLiteralsF q ((body ++ q :: rest).length + 1) (q :: (body ++ q :: rest)) = _
  rw [elideF_open q _ _ body.length (litCloseIdx_clean q body hb rest)]
  have hdrop : (body ++ q :: rest).drop (body.length + 1) = rest := by
    rw [drop_append_cons body (q :: rest) 1]
    rfl
  rw [hdrop]
  rw [elideLiteralsF_fuel q _ rest rest.length (by simp; omega) (Nat.le_refl _)]
  rfl

theorem collapseWsGo_nonws_false (s : List Char) (hs : ∀ c ∈ s, isWsChar c = false) :
    ∀ rest, collapseWsGo false (s ++ rest) = s ++ collapseWsGo false rest := by
  induction s with
  | nil => intro rest; rfl
  | cons c s ih =>
    intro rest
    have hc : isWsChar c = false := hs c (List.mem_cons_self _ _)
    rw [List.cons_append]
    rw [show collapseWsGo false (c :: (s ++ rest)) =
      c :: collapseWsGo false (s ++ rest) from by simp [collapseWsGo, hc]]
    rw [ih (fun d hd => hs d (List.mem_cons_of_mem _ hd)) rest]
    rfl

theorem collapseWsGo_nonws (s : List Char) (hs : ∀ c ∈ s, isWsChar c = false)
    (hne : s ≠ []) (b : Bool) (rest : List Char) :
    collapseWsGo b (s ++ rest) = s ++ collapseWsGo false rest := by
  cases s with
  | nil => exact absurd rfl hne
  | cons c s =>
    have hc : isWsChar c = false := hs c (List.mem_cons_self _ _)
    rw [List.cons_append]
    rw [show collapseWsGo b (c :: (s ++ rest)) =
      c :: collapseWsGo false (s ++ rest) from by simp [collapseWsGo, hc]]
    rw [collapseWsGo_nonws_false s (fun d hd => hs d (List.mem_cons_of_mem _ hd)) rest]
    rfl

theorem collapseWsGo_ws_true (s : List Char) (hs : ∀ c ∈ s, isWsChar c = true) :
    ∀ rest, collapseWsGo true (s ++ rest) = collapseWsGo true rest := by
  induction s with
  | nil => intro rest; rfl
  | cons c s ih =>
    intro rest
    have hc : isWsChar c = true := hs c (List.mem_cons_self _ _)
    rw [List.cons_append]
    rw [show collapseWsGo true (c :: (s ++ rest)) =
      collapseWsGo true (s ++ rest) from by simp [collapseWsGo, hc]]
    exact ih (fun d hd => hs d (List.mem_cons_of_mem _ hd)) rest

theorem collapseWsGo_ws (s : List Char) (hs : ∀ c ∈ s, isWsChar c = true)
    (hne : s ≠ []) (b : Bool) (rest : List Char) :
    collapseWsGo b (s ++ rest) =
      (if b then [] else [' ']) ++ collapseWsGo true rest := by
  cases s with
  | nil => exact absurd rfl hne
  | cons c s =>
    have hc : isWsChar c = true := hs c (List.mem_cons_self _ _)
    have hrest := collapseWsGo_ws_true s (fun d hd => hs d (List.mem_cons_of_mem _ hd)) rest
    cases b with
    | true =>
      rw [List.cons_append]
      rw [show collapseWsGo true (c :: (s ++ rest)) =
        collapseWsGo true (s ++ rest) from by simp [collapseWsGo, hc]]
      rw [hrest]
      rfl
    | false =>
      rw [List.cons_append]
      rw [show collapseWsGo false (c :: (s ++ rest)) =
        ' ' :: collapseWsGo true (s ++ rest) from by simp [collapseWsGo, hc]]
      rw [hrest]
      rfl

theorem forall₂_lowWsEq_append : ∀ {a1 a2 b1 b2 : List Char},
    List.Forall₂ lowWsEq a1 a2 → List.Forall₂ lowWsEq b1 b2 →
    List.Forall₂ lowWsEq (a1 ++ b1) (a2 ++ b2) := by
  intro a1 a2 b1 b2 h1 h2
  induction h1 with
  | nil => simpa using h2
  | cons hx hrest ih => exact .cons hx ih

theorem forall₂_map_toLower {l1 l2 : List Char} (h : List.Forall₂ lowWsEq l1 l2) :
    l1.map Char.toLower = l2.map Char.toLower := by
  induction h with
  | nil => rfl
  | cons h1 h2 ih => simp [List.map_cons, h1.1, ih]

theorem forall₂_lowWsEq_of_map : ∀ (l1 l2 : List Char),
    l1.map Char.toLower = l2.map Char.toLower →
    (∀ c ∈ l1, isWsChar c = false) → (∀ c ∈ l2, isWsChar c = false) →
    List.Forall₂ lowWsEq l1 l2 := by
  intro l1
  induction l1 with
  | nil =>
    intro l2 hmap _ _
    have : l2 = [] := by
      cases l2 with
      | nil => rfl
      | cons d t => simp at hmap
    subst this
    exact .nil
  | cons c t ih =>
    intro l2 hmap h1 h2
    cases l2 with
    | nil => simp at hmap
    | cons d t2 =>
      simp only [List.map_cons, List.cons.injEq] at hmap
      refine .cons ⟨hmap.1, ?_⟩ (ih t2 hmap.2
        (fun e he => h1 e (List.mem_cons_of_mem _ he))
        (fun e he => h2 e (List.mem_cons_of_mem _ he)))
      rw [h1 c (List.mem_cons_self _ _), h2 d (List.mem_cons_self _ _)]

theorem forall₂_lowWsEq_dropWhile : ∀ {l1 l2 : List Char},
    List.Forall₂ lowWsEq l1 l2 →
    List.Forall₂ lowWsEq (l1.dropWhile isWsChar) (l2.dropWhile isWsChar) := by
  intro l1 l2 h
  induction h with
  | nil => exact .nil
  | @cons a b t1 t2 h1 h2 ih =>
    cases hws : isWsChar a with
    | true =>
      have hwsb : isWsChar b = true := by rw [← h1.2, hws]
      simp only [List.dropWhile_cons, hws, hwsb, if_true]
      exact ih
    | false =>
      have hwsb : isWsChar b = false := by rw [← h1.2, hws]
      simp only [List.dropWhile_cons, hws, hwsb, Bool.false_eq_true, if_false]
      exact .cons h1 h2

theorem forall₂_lowWsEq_reverse : ∀ {l1 l2 : List Char},
    List.Forall₂ lowWsEq l1 l2 →
    List.Forall₂ lowWsEq l1.reverse l2.reverse := by
  intro l1 l2 h
  induction h with
  | nil => exact .nil
  | @cons a b t1 t2 h1 h2 ih =>
    rw [List.reverse_cons, List.reverse_cons]
    exact forall₂_lowWsEq_append ih (.cons h1 .nil)

theorem quote_ne_slash (q : Char) (h : isQuoteChar q = true) : q ≠ '/' := by
  simp [isQuoteChar] at h
  rcases h with (h | h) | h <;> (subst h; decide)

theorem quote_not_ws {q : Char} (h : isQuoteChar q = true) : isWsChar q = false := by
  simp [isQuoteChar] at h
  rcases h with (h | h) | h <;> (subst h; decide)

theorem ws_ne_slash {c : Char} (h : isWsChar c = true) : c ≠ '/' := by
  intro he
  subst he
  revert h
  decide

theorem ws_ne_quote {c q : Char} (hc : isWsChar c = true) (hq : isQuoteChar q = true) :
    c ≠ q := by
  intro he
  subst he
  rw [quote_not_ws hq] at hc
  cases hc

theorem segWF_code_facts (cs : List Char) (h : segWFStrict (Seg.code cs) = true) :
    cs ≠ [] ∧ ∀ c ∈ cs, isWsChar c = false ∧ isQuoteChar c = false ∧
      c ≠ backslashC ∧ c ≠ '/' ∧ c ≠ '*' := by
  have h' : segWF (Seg.code cs) = true := h
  simp only [segWF, Bool.and_eq_true, List.all_eq_true, Bool.not_eq_true',
    decide_eq_true_eq] at h'
  constructor
  · intro hnil
    subst hnil
    simp at h'
  · intro c hc
    have := h'.2 c hc
    exact ⟨this.1.1.1.1, this.1.1.1.2, this.1.1.2, this.1.2, this.2⟩

theorem segWF_ws_facts (wb : List Char) (h : segWFStrict (Seg.ws wb) = true) :
    wb ≠ [] ∧ ∀ c ∈ wb, isWsChar c = true := by
  have h' : segWF (Seg.ws wb) = true := h
  simp only [segWF, Bool.and_eq_true, List.all_eq_true, Bool.not_eq_true'] at h'
  constructor
  · intro hnil
    subst hnil
    simp at h'
  · exact h'.2

theorem segWF_lineC_facts (b : List Char) (h : segWFStrict (Seg.lineC b) = true) :
    ∀ c ∈ b, isLineTerm c = false := by
  have h' : segWF (Seg.lineC b) = true := h
  simp only [segWF, List.all_eq_true, Bool.not_eq_true'] at h'
  exact h'

theorem segWF_blockC_facts (b : List Char) (h : segWFStrict (Seg.blockC b) = true) :
    ∀ c ∈ b, c ≠ '/' ∧ c ≠ '*' := by
  have h' : segWF (Seg.blockC b) = true := h
  simp only [segWF, List.all_eq_true, Bool.and_eq_true, decide_eq_true_eq] at h'
  exact h'

theorem segWFStrict_lit_facts (q : Char) (b : List Char)
    (h : segWFStrict (Seg.lit q b) = true) :
    isQuoteChar q = true ∧ ∀ c ∈ b, isQuoteChar c = false ∧ c ≠ backslashC ∧ c ≠ '/' := by
  simp only [segWFStrict, Bool.and_eq_true, List.all_eq_true, Bool.not_eq_true',
    decide_eq_true_eq] at h
  refine ⟨h.1, fun c hc => ?_⟩
  have := h.2 c hc
  exact ⟨this.1.1, this.1.2, this.2⟩

theorem chainOk_cons (s : Seg) (t : List Seg) (h : chainOk (s :: t) = true) :
    chainOk t = true ∧ ∀ s2, t.head? = some s2 → adjOk s s2 = true := by
  cases t with
  | nil =>
    exact ⟨rfl, by intro s2 h2; cases h2⟩
  | cons s2 t2 =>
    have h' : (adjOk s s2 && chainOk (s2 :: t2)) = true := h
    rw [Bool.and_eq_true] at h'
    refine ⟨h'.2, ?_⟩
    intro s3 h3
    have : s2 = s3 := by injection h3
    subst this
    exact h'.1

theorem render_cons (s : Seg) (t : List Seg) :
    render (s :: t) = renderSeg s ++ render t := by
  simp [render]

theorem render_head_ne_slash (t : List Seg) (hwf : t.all segWFStrict = true)
    (hshape : ∀ s2, t.head? = some s2 → isLineC s2 = false ∧ isBlockC s2 = false) :
    (render t).head? ≠ some '/' := by
  cases t with
  | nil => simp [render]
  | cons s2 t2 =>
    have hs2 : segWFStrict s2 = true := by
      rw [List.all_cons, Bool.and_eq_true] at hwf
      exact hwf.1
    have hsh := hshape s2 rfl
    rw [render_cons]
    cases s2 with
    | lineC _ => cases hsh.1
    | blockC _ => cases hsh.2
    | code cs =>
      obtain ⟨hne, hall⟩ := segWF_code_facts cs hs2
      cases cs with
      | nil => exact absurd rfl hne
      | cons c cs2 =>
        intro hcontra
        have : c = '/' := by
          simp only [renderSeg, List.cons_append, List.head?_cons] at hcontra
          injection hcontra
        exact (hall c (List.mem_cons_self _ _)).2.2.2.1 this
    | ws wb =>
      obtain ⟨hne, hall⟩ := segWF_ws_facts wb hs2
      cases wb with
      | nil => exact absurd rfl hne
      | cons c w2 =>
        intro hcontra
        have : c = '/' := by
          simp only [renderSeg, List.cons_append, List.head?_cons] at hcontra
          injection hcontra
        exact ws_ne_slash (hall c (List.mem_cons_self _ _)) this
    | lit q b =>
      obtain ⟨hq, _⟩ := segWFStrict_lit_facts q b hs2
      intro hcontra
      have : q = '/' := by
        simp only [renderSeg, List.cons_append, List.head?_cons] at hcontra
        injection hcontra
      exact quote_ne_slash q hq this

theorem stripLine_render : ∀ (segs : List Seg),
    segs.all segWFStrict = true → chainOk segs = true →
    stripLineComments (render segs) = render (segs.filter (fun s => !isLineC s)) := by
  intro segs
  induction segs with
  | nil =>
    intro _ _
    rfl
  | cons s t ih =>
    intro hwf hch
    rw [List.all_cons, Bool.and_eq_true] at hwf
    obtain ⟨hchtail, hadj⟩ := chainOk_cons s t hch
    have iht := ih hwf.2 hchtail
    rw [render_cons]
    cases s with
    | code cs =>
      obtain ⟨hne, hall⟩ := segWF_code_facts cs hwf.1
      rw [show renderSeg (Seg.code cs) = cs from rfl]
      rw [stripLineComments_copy cs (fun c hc => (hall c hc).2.2.2.1) (render t), iht]
      rw [show (Seg.code cs :: t).filter (fun s => !isLineC s) =
        Seg.code cs :: t.filter (fun s => !isLineC s) from by
          simp [List.filter_cons, isLineC]]
      rw [render_cons]
      rfl
    | ws wb =>
      obtain ⟨hne, hall⟩ := segWF_ws_facts wb hwf.1
      rw [show renderSeg (Seg.ws wb) = wb from rfl]
      rw [stripLineComments_copy wb (fun c hc => ws_ne_slash (hall c hc)) (render t), iht]
      rw [show (Seg.ws wb :: t).filter (fun s => !isLineC s) =
        Seg.ws wb :: t.filter (fun s => !isLineC s) from by
          simp [List.filter_cons, isLineC]]
      rw [render_cons]
      rfl
    | lit q b =>
      obtain ⟨hq, hall⟩ := segWFStrict_lit_facts q b hwf.1
      have hchars : ∀ c ∈ renderSeg (Seg.lit q b), c ≠ '/' := by
        intro c hc
        simp only [renderSeg, List.mem_cons, List.mem_append, List.mem_singleton,
          List.not_mem_nil, or_false] at hc
        rcases hc with rfl | hc | rfl
        · exact quote_ne_slash _ hq
        · exact (hall c hc).2.2
        · exact quote_ne_slash _ hq
      rw [stripLineComments_copy (renderSeg (Seg.lit q b)) hchars (render t), iht]
      rw [show (Seg.lit q b :: t).filter (fun s => !isLineC s) =
        Seg.lit q b :: t.filter (fun s => !isLineC s) from by
          simp [List.filter_cons, isLineC]]
      rw [render_cons]
    | lineC b =>
      have hb := segWF_lineC_facts b hwf.1
      have hnext : (render t).head? = some '\n' ∨ render t = [] := by
        cases t with
        | nil =>
          right
          rfl
        | cons s2 t2 =>
          left
          have ha := hadj s2 rfl
          have hs2 : segWFStrict s2 = true := by
            have := hwf.2
            rw [List.all_cons, Bool.and_eq_true] at this
            exact this.1
          cases s2 with
          | code _ => cases ha
          | lineC _ => cases ha
          | blockC _ => cases ha
          | lit _ _ => cases ha
          | ws wb =>
            have hhead : wb.head? = some '\n' := by
              have : (wb.head? == some '\n') = true := ha
              exact eq_of_beq this
            obtain ⟨hne, _⟩ := segWF_ws_facts wb hs2
            cases wb with
            | nil => exact absurd rfl hne
            | cons c w2 =>
              rw [render_cons]
              have : c = '\n' := by injection hhead
              subst this
              rfl
      rw [show renderSeg (Seg.lineC b) ++ render t = '/' :: '/' :: (b ++ render t) from by
        simp [renderSeg]]
      rw [stripLineComments_lineC b (render t) hb hnext, iht]
      rw [show (Seg.lineC b :: t).filter (fun s => !isLineC s) =
        t.filter (fun s => !isLineC s) from by simp [List.filter_cons, isLineC]]
    | blockC b =>
      have hb := segWF_blockC_facts b hwf.1
      have hhead : (render t).head? ≠ some '/' := by
        apply render_head_ne_slash t hwf.2
        intro s2 h2
        have ha := hadj s2 h2
        cases s2 with
        | lineC _ => cases ha
        | blockC _ => cases ha
        | code _ => exact ⟨rfl, rfl⟩
        | ws _ => exact ⟨rfl, rfl⟩
        | lit _ _ => exact ⟨rfl, rfl⟩
      have hstars : ∀ c ∈ '*' :: b ++ ['*'], c ≠ '/' := by
        intro c hc
        simp only [List.cons_append, List.mem_cons, List.mem_append,
          List.mem_singleton, List.not_mem_nil, or_false] at hc
        rcases hc with rfl | hc | rfl
        · decide
        · exact (hb c hc).1
        · decide
      rw [show renderSeg (Seg.blockC b) ++ render t =
        '/' :: (('*' :: b ++ ['*']) ++ ('/' :: render t)) from by simp [renderSeg]]
      rw [stripLineComments_slash _ (by simp)]
      rw [stripLineComments_copy ('*' :: b ++ ['*']) hstars ('/' :: render t)]
      rw [stripLineComments_slash (render t) hhead]
      rw [iht]
      rw [show (Seg.blockC b :: t).filter (fun s => !isLineC s) =
        Seg.blockC b :: t.filter (fun s => !isLineC s) from by
          simp [List.filter_cons, isLineC]]
      rw [render_cons]
      simp [renderSeg]

theorem stripBlock_render : ∀ (segs : List Seg),
    segs.all segWFStrict = true → segs.all (fun s => !isLineC s) = true →
    stripBlockComments (render segs) = render (segs.filter (fun s => !isBlockC s)) := by
  intro segs
  induction segs with
  | nil =>
    intro _ _
    rfl
  | cons s t ih =>
    intro hwf hnl
    rw [List.all_cons, Bool.and_eq_true] at hwf
    rw [List.all_cons, Bool.and_eq_true] at hnl
    have iht := ih hwf.2 hnl.2
    rw [render_cons]
    cases s with
    | lineC b => cases hnl.1
    | code cs =>
      obtain ⟨hne, hall⟩ := segWF_code_facts cs hwf.1
      rw [show renderSeg (Seg.code cs) = cs from rfl]
      rw [stripBlockComments_copy cs (fun c hc => (hall c hc).2.2.2.1) (render t), iht]
      rw [show (Seg.code cs :: t).filter (fun s => !isBlockC s) =
        Seg.code cs :: t.filter (fun s => !isBlockC s) from by
          simp [List.filter_cons, isBlockC]]
      rw [render_cons]
      rfl
    | ws wb =>
      obtain ⟨hne, hall⟩ := segWF_ws_facts wb hwf.1
      rw [show renderSeg (Seg.ws wb) = wb from rfl]
      rw [stripBlockComments_copy wb (fun c hc => ws_ne_slash (hall c hc)) (render t), iht]
      rw [show (Seg.ws wb :: t).filter (fun s => !isBlockC s) =
        Seg.ws wb :: t.filter (fun s => !isBlockC s) from by
          simp [List.filter_cons, isBlockC]]
      rw [render_cons]
      rfl
    | lit q b =>
      obtain ⟨hq, hall⟩ := segWFStrict_lit_facts q b hwf.1
      have hchars : ∀ c ∈ renderSeg (Seg.lit q b), c ≠ '/' := by
        intro c hc
        simp only [renderSeg, List.mem_cons, List.mem_append, List.mem_singleton,
          List.not_mem_nil, or_false] at hc
        rcases hc with rfl | hc | rfl
        · exact quote_ne_slash _ hq
        · exact (hall c hc).2.2
        · exact quote_ne_slash _ hq
      rw [stripBlockComments_copy (renderSeg (Seg.lit q b)) hchars (render t), iht]
      rw [show (Seg.lit q b :: t).filter (fun s => !isBlockC s) =
        Seg.lit q b :: t.filter (fun s => !isBlockC s) from by
          simp [List.filter_cons, isBlockC]]
      rw [render_cons]
    | blockC b =>
      have hb := segWF_blockC_facts b hwf.1
      rw [show renderSeg (Seg.blockC b) ++ render t =
        '/' :: '*' :: (b ++ '*' :: '/' :: render t) from by simp [renderSeg]]
      rw [stripBlockComments_blockC b (render t)
        (fun c hc => ⟨(hb c hc).2, (hb c hc).1⟩), iht]
      rw [show (Seg.blockC b :: t).filter (fun s => !isBlockC s) =
        t.filter (fun s => !isBlockC s) from by simp [List.filter_cons, isBlockC]]

theorem elide_render (q : Char) (hq : isQuoteChar q = true) : ∀ (segs : List Seg),
    segs.all segWFStrict = true →
    segs.all (fun s => !isLineC s && !isBlockC s) = true →
    elideLiterals q (render segs) = render (segs.map (elideSeg q)) := by
  intro segs
  induction segs with
  | nil =>
    intro _ _
    rfl
  | cons s t ih =>
    intro hwf hsh
    rw [List.all_cons, Bool.and_eq_true] at hwf
    rw [List.all_cons, Bool.and_eq_true] at hsh
    have iht := ih hwf.2 hsh.2
    rw [render_cons]
    cases s with
    | lineC b => cases (Bool.and_eq_true _ _).mp hsh.1 |>.1
    | blockC b => cases (Bool.and_eq_true _ _).mp hsh.1 |>.2
    | code cs =>
      obtain ⟨hne, hall⟩ := segWF_code_facts cs hwf.1
      have hchars : ∀ c ∈ cs, c ≠ q := by
        intro c hc he
        subst he
        rw [(hall c hc).2.1] at hq
        cases hq
      rw [show renderSeg (Seg.code cs) = cs from rfl]
      rw [elideLiterals_copy q cs hchars (render t), iht]
      rw [List.map_cons]
      rw [show elideSeg q (Seg.code cs) = Seg.code cs from rfl]
      rw [render_cons]
      rfl
    | ws wb =>
      obtain ⟨hne, hall⟩ := segWF_ws_facts wb hwf.1
      rw [show renderSeg (Seg.ws wb) = wb from rfl]
      rw [elideLiterals_copy q wb (fun c hc => ws_ne_quote (hall c hc) hq) (render t), iht]
      rw [List.map_cons]
      rw [show elideSeg q (Seg.ws wb) = Seg.ws wb from rfl]
      rw [render_cons]
      rfl
    | lit q2 b =>
      obtain ⟨hq2, hall⟩ := segWFStrict_lit_facts q2 b hwf.1
      by_cases hqq : q2 = q
      · subst hqq
        have hbody : ∀ c ∈ b, c ≠ q2 ∧ c ≠ backslashC := by
          intro c hc
          refine ⟨?_, (hall c hc).2.1⟩
          intro he
          subst he
          rw [(hall c hc).1] at hq2
          cases hq2
        rw [show renderSeg (Seg.lit q2 b) ++ render t =
          q2 :: (b ++ q2 :: render t) from by simp [renderSeg]]
        rw [elideLiterals_lit q2 b hbody (render t), iht]
        rw [List.map_cons]
        rw [show elideSeg q2 (Seg.lit q2 b) = Seg.lit q2 [] from by simp [elideSeg]]
        rw [render_cons]
        rfl
      · have hchars : ∀ c ∈ renderSeg (Seg.lit q2 b), c ≠ q := by
          intro c hc
          simp only [renderSeg, List.mem_cons, List.mem_append, List.mem_singleton,
            List.not_mem_nil, or_false] at hc
          rcases hc with rfl | hc | rfl
          · exact hqq
          · intro he
            subst he
            rw [(hall c hc).1] at hq
            cases hq
          · exact hqq
        rw [elideLiterals_copy q (renderSeg (Seg.lit q2 b)) hchars (render t), iht]
        rw [List.map_cons]
        rw [show elideSeg q (Seg.lit q2 b) = Seg.lit q2 b from by simp [elideSeg, hqq]]
        rw [render_cons]

theorem forall₂_lowWsEq_refl : ∀ (l : List Char), List.Forall₂ lowWsEq l l := by
  intro l
  induction l with
  | nil => exact .nil
  | cons c t ih => exact .cons ⟨rfl, rfl⟩ ih

theorem cleanPair_cases (s1 s2 : Seg) (h : cleanPair s1 s2 = true) :
    (∃ c1 c2, s1 = .code c1 ∧ s2 = .code c2 ∧ c1 ≠ [] ∧ c2 ≠ [] ∧
      (∀ c ∈ c1, isWsChar c = false) ∧ (∀ c ∈ c2, isWsChar c = false) ∧
      c1.map Char.toLower = c2.map Char.toLower) ∨
    (∃ w1 w2, s1 = .ws w1 ∧ s2 = .ws w2 ∧ w1 ≠ [] ∧ w2 ≠ [] ∧
      (∀ c ∈ w1, isWsChar c = true) ∧ (∀ c ∈ w2, isWsChar c = true)) ∨
    (∃ q, s1 = .lit q [] ∧ s2 = .lit q [] ∧ isWsChar q = false) := by
  cases s1 with
  | code c1 =>
    cases s2 with
    | code c2 =>
      left
      have h' : (!c1.isEmpty && c1.all (fun c => !isWsChar c) &&
          (!c2.isEmpty && c2.all (fun c => !isWsChar c)) &&
          (c1.map Char.toLower == c2.map Char.toLower)) = true := h
      simp only [Bool.and_eq_true, List.all_eq_true, Bool.not_eq_true',
        beq_iff_eq] at h'
      refine ⟨c1, c2, rfl, rfl, ?_, ?_, h'.1.1.2, h'.1.2.2, h'.2⟩
      · intro hnil
        subst hnil
        simp at h'
      · intro hnil
        subst hnil
        simp at h'
    | ws _ => cases h
    | lineC _ => cases h
    | blockC _ => cases h
    | lit _ _ => cases h
  | ws w1 =>
    cases s2 with
    | ws w2 =>
      right; left
      have h' : (!w1.isEmpty && w1.all isWsChar &&
          (!w2.isEmpty && w2.all isWsChar)) = true := h
      simp only [Bool.and_eq_true, List.all_eq_true, Bool.not_eq_true'] at h'
      refine ⟨w1, w2, rfl, rfl, ?_, ?_, h'.1.2, h'.2.2⟩
      · intro hnil
        subst hnil
        simp at h'
      · intro hnil
        subst hnil
        simp at h'
    | code _ => cases h
    | lineC _ => cases h
    | blockC _ => cases h
    | lit _ _ => cases h
  | lineC b =>
    cases s2 <;> cases h
  | blockC b =>
    cases s2 <;> cases h
  | lit q1 b1 =>
    cases s2 with
    | lit q2 b2 =>
      right; right
      have h' : (q1 == q2 && !isWsChar q1 && b1.isEmpty && b2.isEmpty) = true := h
      simp only [Bool.and_eq_true, Bool.not_eq_true', beq_iff_eq,
        List.isEmpty_iff] at h'
      obtain ⟨⟨⟨hq12, hnws⟩, hb1⟩, hb2⟩ := h'
      subst hq12
      subst hb1
      subst hb2
      exact ⟨q1, rfl, rfl, hnws⟩
    | code _ => cases h
    | ws _ => cases h
    | lineC _ => cases h
    | blockC _ => cases h

theorem collapse_render_aligned : ∀ (segs1 segs2 : List Seg),
    cleanAligned segs1 segs2 = true → ∀ (b : Bool),
    List.Forall₂ lowWsEq (collapseWsGo b (render segs1))
      (collapseWsGo b (render segs2)) := by
  intro segs1
  induction segs1 with
  | nil =>
    intro segs2 h b
    cases segs2 with
    | nil => exact .nil
    | cons s2 t2 => cases h
  | cons s1 t1 ih =>
    intro segs2 h b
    cases segs2 with
    | nil => cases h
    | cons s2 t2 =>
      have h' : cleanPair s1 s2 = true ∧ cleanAligned t1 t2 = true := by
        have hh : (cleanPair s1 s2 && cleanAligned t1 t2) = true := h
        rwa [Bool.and_eq_true] at hh
      rw [render_cons, render_cons]
      rcases cleanPair_cases s1 s2 h'.1 with
        ⟨c1, c2, rfl, rfl, hne1, hne2, hws1, hws2, hmap⟩ |
        ⟨w1, w2, rfl, rfl, hne1, hne2, hws1, hws2⟩ |
        ⟨q, rfl, rfl, hnws⟩
      · rw [show renderSeg (Seg.code c1) = c1 from rfl,
          show renderSeg (Seg.code c2) = c2 from rfl]
        rw [collapseWsGo_nonws c1 hws1 hne1 b (render t1),
          collapseWsGo_nonws c2 hws2 hne2 b (render t2)]
        exact forall₂_lowWsEq_append
          (forall₂_lowWsEq_of_map c1 c2 hmap hws1 hws2) (ih t2 h'.2 false)
      · rw [show renderSeg (Seg.ws w1) = w1 from rfl,
          show renderSeg (Seg.ws w2) = w2 from rfl]
        rw [collapseWsGo_ws w1 hws1 hne1 b (render t1),
          collapseWsGo_ws w2 hws2 hne2 b (render t2)]
        exact forall₂_lowWsEq_append (forall₂_lowWsEq_refl _) (ih t2 h'.2 true)
      · rw [show renderSeg (Seg.lit q []) = [q, q] from rfl]
        have hqs : ∀ c ∈ [q, q], isWsChar c = false := by
          intro c hc
          rcases List.mem_cons.mp hc with rfl | hc2
          · exact hnws
          · rcases List.mem_cons.mp hc2 with rfl | hc3
            · exact hnws
            · cases hc3
        rw [collapseWsGo_nonws [q, q] hqs (by simp) b (render t1),
          collapseWsGo_nonws [q, q] hqs (by simp) b (render t2)]
        exact forall₂_lowWsEq_append (forall₂_lowWsEq_refl _) (ih t2 h'.2 false)

theorem normalized_eq_of_cleanAligned (segs1 segs2 : List Seg)
    (h : cleanAligned segs1 segs2 = true) :
    String.mk ((trimWs (collapseWs (render segs1))).map Char.toLower) =
      String.mk ((trimWs (collapseWs (render segs2))).map Char.toLower) := by
  have h0 := collapse_render_aligned segs1 segs2 h false
  have h1 := forall₂_lowWsEq_dropWhile h0
  have h2 := forall₂_lowWsEq_reverse h1
  have h3 := forall₂_lowWsEq_dropWhile h2
  have h4 := forall₂_lowWsEq_reverse h3
  exact congrArg String.mk (forall₂_map_toLower h4)

theorem all_seg_filter (p q : Seg → Bool) (segs : List Seg) (h : segs.all q = true) :
    (segs.filter p).all q = true := by
  rw [List.all_eq_true] at h ⊢
  intro s hs
  exact h s (List.mem_of_mem_filter hs)

theorem all_filter_self (p : Seg → Bool) (segs : List Seg) :
    (segs.filter p).all p = true := by
  rw [List.all_eq_true]
  intro s hs
  exact List.of_mem_filter hs

theorem all_map_elide (q : Char) (p : Seg → Bool)
    (hp : ∀ s, p s = true → p (elideSeg q s) = true) (segs : List Seg)
    (h : segs.all p = true) : (segs.map (elideSeg q)).all p = true := by
  rw [List.all_eq_true] at h ⊢
  intro s hs
  rcases List.mem_map.mp hs with ⟨s0, hs0, rfl⟩
  exact hp s0 (h s0 hs0)

theorem all_seg_and (p q : Seg → Bool) (segs : List Seg)
    (hp : segs.all p = true) (hq : segs.all q = true) :
    (segs.all fun s => p s && q s) = true := by
  rw [List.all_eq_true] at hp hq ⊢
  intro s hs
  rw [Bool.and_eq_true]
  exact ⟨hp s hs, hq s hs⟩

theorem segWFStrict_elideSeg (q : Char) (s : Seg) (h : segWFStrict s = true) :
    segWFStrict (elideSeg q s) = true := by
  cases s with
  | lit q2 b =>
    by_cases hqq : q2 = q
    · rw [show elideSeg q (Seg.lit q2 b) = Seg.lit q2 [] from by simp [elideSeg, hqq]]
      obtain ⟨hq2, _⟩ := segWFStrict_lit_facts q2 b h
      show (isQuoteChar q2 && List.all [] _) = true
      rw [hq2]
      rfl
    · rwa [show elideSeg q (Seg.lit q2 b) = Seg.lit q2 b from by simp [elideSeg, hqq]]
  | code _ => exact h
  | ws _ => exact h
  | lineC _ => exact h
  | blockC _ => exact h

theorem shape_elideSeg (q : Char) (s : Seg)
    (h : (!isLineC s && !isBlockC s) = true) :
    (!isLineC (elideSeg q s) && !isBlockC (elideSeg q s)) = true := by
  cases s with
  | lit q2 b => by_cases hqq : q2 = q <;> simp [elideSeg, hqq, isLineC, isBlockC]
  | code _ => exact h
  | ws _ => exact h
  | lineC _ => exact h
  | blockC _ => exact h

theorem litEmpty_elide_three (s : Seg) (hs : segWFStrict s = true) :
    litEmpty (elideSeg quoteB (elideSeg quoteS (elideSeg quoteD s))) = true := by
  cases s with
  | code _ => rfl
  | ws _ => rfl
  | lineC _ => rfl
  | blockC _ => rfl
  | lit q b =>
    obtain ⟨hq, _⟩ := segWFStrict_lit_facts q b hs
    simp only [isQuoteChar, Bool.or_eq_true, beq_iff_eq] at hq
    rcases hq with (rfl | rfl) | rfl
    · rw [show elideSeg quoteD (Seg.lit quoteD b) = Seg.lit quoteD [] from by
        simp [elideSeg]]
      decide
    · rw [show elideSeg quoteD (Seg.lit quoteS b) = Seg.lit quoteS b from by
        rw [show elideSeg quoteD (Seg.lit quoteS b) =
          if quoteS = quoteD then Seg.lit quoteS [] else Seg.lit quoteS b from rfl,
          if_neg (by decide)]]
      rw [show elideSeg quoteS (Seg.lit quoteS b) = Seg.lit quoteS [] from by
        simp [elideSeg]]
      decide
    · rw [show elideSeg quoteD (Seg.lit quoteB b) = Seg.lit quoteB b from by
        rw [show elideSeg quoteD (Seg.lit quoteB b) =
          if quoteB = quoteD then Seg.lit quoteB [] else Seg.lit quoteB b from rfl,
          if_neg (by decide)]]
      rw [show elideSeg quoteS (Seg.lit quoteB b) = Seg.lit quoteB b from by
        rw [show elideSeg quoteS (Seg.lit quoteB b) =
          if quoteB = quoteS then Seg.lit quoteB [] else Seg.lit quoteB b from rfl,
          if_neg (by decide)]]
      rw [show elideSeg quoteB (Seg.lit quoteB b) = Seg.lit quoteB [] from by
        simp [elideSeg]]
      decide

theorem similarSeg_kinds (s1 s2 : Seg) (h : similarSeg s1 s2 = true) :
    isLineC s1 = isLineC s2 ∧ isBlockC s1 = isBlockC s2 := by
  cases s1 <;> cases s2 <;> first | exact ⟨rfl, rfl⟩ | cases h

theorem similarSegs_filter (p : Seg → Bool)
    (hp : ∀ s1 s2, similarSeg s1 s2 = true → p s1 = p s2) : ∀ (l1 l2 : List Seg),
    similarSegs l1 l2 = true →
    similarSegs (l1.filter p) (l2.filter p) = true := by
  intro l1
  induction l1 with
  | nil =>
    intro l2 h
    cases l2 with
    | nil => rfl
    | cons s2 t2 => cases h
  | cons s1 t1 ih =>
    intro l2 h
    cases l2 with
    | nil => cases h
    | cons s2 t2 =>
      have h' : similarSeg s1 s2 = true ∧ similarSegs t1 t2 = true := by
        have hh : (similarSeg s1 s2 && similarSegs t1 t2) = true := h
        rwa [Bool.and_eq_true] at hh
      have hpe := hp s1 s2 h'.1
      rw [List.filter_cons, List.filter_cons]
      cases hps : p s1 with
      | true =>
        have hps2 : p s2 = true := by rw [← hpe]; exact hps
        rw [if_pos rfl, if_pos (by rw [hps2])]
        show (similarSeg s1 s2 && similarSegs (t1.filter p) (t2.filter p)) = true
        rw [Bool.and_eq_true]
        exact ⟨h'.1, ih t2 h'.2⟩
      | false =>
        have hps2 : p s2 = false := by rw [← hpe]; exact hps
        rw [if_neg (by simp), if_neg (by rw [hps2]; simp)]
        exact ih t2 h'.2

theorem similarSeg_elideSeg (q : Char) (s1 s2 : Seg) (h : similarSeg s1 s2 = true) :
    similarSeg (elideSeg q s1) (elideSeg q s2) = true := by
  cases s1 with
  | lit q1 b1 =>
    cases s2 with
    | lit q2 b2 =>
      have hq : q1 = q2 := by
        have hh : (q1 == q2) = true := h
        exact eq_of_beq hh
      subst hq
      by_cases hqq : q1 = q
      · rw [show elideSeg q (Seg.lit q1 b1) = Seg.lit q1 [] from by simp [elideSeg, hqq],
          show elideSeg q (Seg.lit q1 b2) = Seg.lit q1 [] from by simp [elideSeg, hqq]]
        simp [similarSeg]
      · rw [show elideSeg q (Seg.lit q1 b1) = Seg.lit q1 b1 from by simp [elideSeg, hqq],
          show elideSeg q (Seg.lit q1 b2) = Seg.lit q1 b2 from by simp [elideSeg, hqq]]
        simp [similarSeg]
    | code _ => cases h
    | ws _ => cases h
    | lineC _ => cases h
    | blockC _ => cases h
  | code c1 =>
    cases s2 <;> first | exact h | cases h
  | ws _ =>
    cases s2 <;> first | exact h | cases h
  | lineC _ =>
    cases s2 <;> first | exact h | cases h
  | blockC _ =>
    cases s2 <;> first | exact h | cases h

theorem similarSegs_map_elide (q : Char) : ∀ (l1 l2 : List Seg),
    similarSegs l1 l2 = true →
    similarSegs (l1.map (elideSeg q)) (l2.map (elideSeg q)) = true := by
  intro l1
  induction l1 with
  | nil =>
    intro l2 h
    cases l2 with
    | nil => rfl
    | cons s2 t2 => cases h
  | cons s1 t1 ih =>
    intro l2 h
    cases l2 with
    | nil => cases h
    | cons s2 t2 =>
      have h' : similarSeg s1 s2 = true ∧ similarSegs t1 t2 = true := by
        have hh : (similarSeg s1 s2 && similarSegs t1 t2) = true := h
        rwa [Bool.and_eq_true] at hh
      rw [List.map_cons, List.map_cons]
      show (similarSeg (elideSeg q s1) (elideSeg q s2) &&
        similarSegs (t1.map (elideSeg q)) (t2.map (elideSeg q))) = true
      rw [Bool.and_eq_true]
      exact ⟨similarSeg_elideSeg q s1 s2 h'.1, ih t2 h'.2⟩

theorem cleanAligned_of : ∀ (l1 l2 : List Seg),
    l1.all segWFStrict = true → l2.all segWFStrict = true →
    l1.all (fun s => !isLineC s && !isBlockC s) = true →
    l2.all (fun s => !isLineC s && !isBlockC s) = true →
    l1.all litEmpty = true → l2.all litEmpty = true →
    similarSegs l1 l2 = true → cleanAligned l1 l2 = true := by
  intro l1
  induction l1 with
  | nil =>
    intro l2 _ _ _ _ _ _ hsim
    cases l2 with
    | nil => rfl
    | cons s2 t2 => cases hsim
  | cons s1 t1 ih =>
    intro l2 hw1 hw2 hs1 hs2 he1 he2 hsim
    cases l2 with
    | nil => cases hsim
    | cons s2 t2 =>
      rw [List.all_cons, Bool.and_eq_true] at hw1 hw2 hs1 hs2 he1 he2
      have hsim' : similarSeg s1 s2 = true ∧ similarSegs t1 t2 = true := by
        have hh : (similarSeg s1 s2 && similarSegs t1 t2) = true := hsim
        rwa [Bool.and_eq_true] at hh
      show (cleanPair s1 s2 && cleanAligned t1 t2) = true
      rw [Bool.and_eq_true]
      refine ⟨?_, ih t2 hw1.2 hw2.2 hs1.2 hs2.2 he1.2 he2.2 hsim'.2⟩
      cases s1 with
      | lineC _ => cases ((Bool.and_eq_true _ _).mp hs1.1).1
      | blockC _ => cases ((Bool.and_eq_true _ _).mp hs1.1).2
      | code c1 =>
        cases s2 with
        | code c2 =>
          obtain ⟨hne1, hall1⟩ := segWF_code_facts c1 hw1.1
          obtain ⟨hne2, hall2⟩ := segWF_code_facts c2 hw2.1
          show (!c1.isEmpty && c1.all (fun c => !isWsChar c) &&
            (!c2.isEmpty && c2.all (fun c => !isWsChar c)) &&
            (c1.map Char.toLower == c2.map Char.toLower)) = true
          simp only [Bool.and_eq_true]
          refine ⟨⟨⟨?_, ?_⟩, ?_, ?_⟩, hsim'.1⟩
          · cases c1 with
            | nil => exact absurd rfl hne1
            | cons _ _ => rfl
          · rw [List.all_eq_true]
            intro c hc
            rw [(hall1 c hc).1]
            rfl
          · cases c2 with
            | nil => exact absurd rfl hne2
            | cons _ _ => rfl
          · rw [List.all_eq_true]
            intro c hc
            rw [(hall2 c hc).1]
            rfl
        | ws _ => cases hsim'.1
        | lineC _ => cases hsim'.1
        | blockC _ => cases hsim'.1
        | lit _ _ => cases hsim'.1
      | ws w1 =>
        cases s2 with
        | ws w2 =>
          obtain ⟨hne1, hall1⟩ := segWF_ws_facts w1 hw1.1
          obtain ⟨hne2, hall2⟩ := segWF_ws_facts w2 hw2.1
          show (!w1.isEmpty && w1.all isWsChar &&
            (!w2.isEmpty && w2.all isWsChar)) = true
          simp only [Bool.and_eq_true]
          refine ⟨⟨?_, ?_⟩, ?_, ?_⟩
          · cases w1 with
            | nil => exact absurd rfl hne1
            | cons _ _ => rfl
          · rw [List.all_eq_true]
            exact hall1
          · cases w2 with
            | nil => exact absurd rfl hne2
            | cons _ _ => rfl
          · rw [List.all_eq_true]
            exact hall2
        | code _ => cases hsim'.1
        | lineC _ => cases hsim'.1
        | blockC _ => cases hsim'.1
        | lit _ _ => cases hsim'.1
      | lit q1 b1 =>
        cases s2 with
        | lit q2 b2 =>
          obtain ⟨hq1, _⟩ := segWFStrict_lit_facts q1 b1 hw1.1
          show (q1 == q2 && !isWsChar q1 && b1.isEmpty && b2.isEmpty) = true
          simp only [Bool.and_eq_true]
          refine ⟨⟨⟨?_, ?_⟩, ?_⟩, ?_⟩
          · exact hsim'.1
          · rw [quote_not_ws hq1]
            rfl
          · exact he1.1
          · exact he2.1
        | code _ => cases hsim'.1
        | ws _ => cases hsim'.1
        | lineC _ => cases hsim'.1
        | blockC _ => cases hsim'.1

theorem cleanSegs_all_strict (segs : List Seg) (h : segs.all segWFStrict = true) :
    (cleanSegs segs).all segWFStrict = true := by
  apply all_map_elide quoteB segWFStrict (segWFStrict_elideSeg quoteB)
  apply all_map_elide quoteS segWFStrict (segWFStrict_elideSeg quoteS)
  apply all_map_elide quoteD segWFStrict (segWFStrict_elideSeg quoteD)
  apply all_seg_filter
  apply all_seg_filter
  exact h

theorem cleanSegs_all_shape (segs : List Seg) :
    (cleanSegs segs).all (fun s => !isLineC s && !isBlockC s) = true := by
  apply all_map_elide quoteB _ (shape_elideSeg quoteB)
  apply all_map_elide quoteS _ (shape_elideSeg quoteS)
  apply all_map_elide quoteD _ (shape_elideSeg quoteD)
  apply all_seg_and
  · apply all_seg_filter
    exact all_filter_self _ _
  · exact all_filter_self _ _

theorem cleanSegs_all_litEmpty (segs : List Seg) (h : segs.all segWFStrict = true) :
    (cleanSegs segs).all litEmpty = true := by
  rw [List.all_eq_true]
  intro s hs
  rcases List.mem_map.mp hs with ⟨s1, hs1, rfl⟩
  rcases List.mem_map.mp hs1 with ⟨s0, hs0, rfl⟩
  rcases List.mem_map.mp hs0 with ⟨sb, hsb, rfl⟩
  apply litEmpty_elide_three
  rw [List.all_eq_true] at h
  exact h sb (List.mem_of_mem_filter (List.mem_of_mem_filter hsb))

theorem cleanSegs_similar (segs1 segs2 : List Seg)
    (h : similarSegs segs1 segs2 = true) :
    similarSegs (cleanSegs segs1) (cleanSegs segs2) = true := by
  apply similarSegs_map_elide quoteB
  apply similarSegs_map_elide quoteS
  apply similarSegs_map_elide quoteD
  apply similarSegs_filter (fun s => !isBlockC s)
    (fun s1 s2 hsim => by simp only []; rw [(similarSeg_kinds s1 s2 hsim).2])
  apply similarSegs_filter (fun s => !isLineC s)
    (fun s1 s2 hsim => by simp only []; rw [(similarSeg_kinds s1 s2 hsim).1])
  exact h

theorem normalizeCode_render (segs : List Seg) (hwf : SegsWFStrict segs = true) :
    normalizeCode (String.mk (render segs)) =
      String.mk ((trimWs (collapseWs (render (cleanSegs segs)))).map Char.toLower) := by
  have hwf' : segs.all segWFStrict = true ∧ chainOk segs = true := by
    have hh : (segs.all segWFStrict && chainOk segs) = true := hwf
    rwa [Bool.and_eq_true] at hh
  have f1all : (segs.filter (fun s => !isLineC s)).all segWFStrict = true :=
    all_seg_filter _ _ _ hwf'.1
  have f1nl := all_filter_self (fun s => !isLineC s) segs
  have f2all : (((segs.filter (fun s => !isLineC s)).filter
      (fun s => !isBlockC s))).all segWFStrict = true :=
    all_seg_filter _ _ _ f1all
  have f2shape : (((segs.filter (fun s => !isLineC s)).filter
      (fun s => !isBlockC s))).all (fun s => !isLineC s && !isBlockC s) = true := by
    apply all_seg_and
    · exact all_seg_filter _ _ _ f1nl
    · exact all_filter_self _ _
  have mall1 := all_map_elide quoteD segWFStrict (segWFStrict_elideSeg quoteD) _ f2all
  have mshape1 := all_map_elide quoteD _ (shape_elideSeg quoteD) _ f2shape
  have mall2 := all_map_elide quoteS segWFStrict (segWFStrict_elideSeg quoteS) _ mall1
  have mshape2 := all_map_elide quoteS _ (shape_elideSeg quoteS) _ mshape1
  simp only [normalizeCode]
  rw [show (String.mk (render segs)).toList = render segs from rfl]
  rw [stripLine_render segs hwf'.1 hwf'.2]
  rw [stripBlock_render _ f1all f1nl]
  rw [elide_render quoteD (by decide) _ f2all f2shape]
  rw [elide_render quoteS (by decide) _ mall1 mshape1]
  rw [elide_render quoteB (by decide) _ mall2 mshape2]
  rfl

/-- C6 amended: the claimed invariance holds under strict well-formedness —
literal bodies free of quote characters, backslashes and slashes, comment
bodies free of delimiter characters: any two strictly well-formed
segmentations that are positionally similar (differing only in comment
contents, literal contents, whitespace runs, and letter case) normalize to
the same string, and therefore carry identical fingerprints. -/
theorem normalizeCode_invariance_strict (segs1 segs2 : List Seg)
    (h1 : SegsWFStrict segs1 = true) (h2 : SegsWFStrict segs2 = true)
    (hsim : similarSegs segs1 segs2 = true) :
    normalizeCode (String.mk (render segs1)) = normalizeCode (String.mk (render segs2)) ∧
    hashCode (normalizeCode (String.mk (render segs1))) =
      hashCode (normalizeCode (String.mk (render segs2))) := by
  have hall1 : segs1.all segWFStrict = true := by
    have hh : (segs1.all segWFStrict && chainOk segs1) = true := h1
    exact ((Bool.and_eq_true _ _).mp hh).1
  have hall2 : segs2.all segWFStrict = true := by
    have hh : (segs2.all segWFStrict && chainOk segs2) = true := h2
    exact ((Bool.and_eq_true _ _).mp hh).1
  have hca : cleanAligned (cleanSegs segs1) (cleanSegs segs2) = true :=
    cleanAligned_of (cleanSegs segs1) (cleanSegs segs2)
      (cleanSegs_all_strict segs1 hall1) (cleanSegs_all_strict segs2 hall2)
      (cleanSegs_all_shape segs1) (cleanSegs_all_shape segs2)
      (cleanSegs_all_litEmpty segs1 hall1) (cleanSegs_all_litEmpty segs2 hall2)
      (cleanSegs_similar segs1 segs2 hsim)
  have heq := (normalizeCode_render segs1 h1).trans
    ((normalized_eq_of_cleanAligned _ _ hca).trans (normalizeCode_render segs2 h2).symm)
  exact ⟨heq, congrArg hashCode heq⟩

/-- C6 counterexample: two liberally well-formed texts that differ only in
the contents of one string literal normalize differently, because the
line-comment stage runs before literal elision and treats a double slash
inside the literal as a comment opener: the rendered texts are exactly
`x"ab"` and `x"a//b"`. -/
theorem normalization_not_invariant_for_literals :
    SegsWF cexSegs1 = true ∧ SegsWF cexSegs2 = true ∧
    similarSegs cexSegs1 cexSegs2 = true ∧
    normalizeCode (String.mk (render cexSegs1)) ≠
      normalizeCode (String.mk (render cexSegs2)) := by
  decide

/-- Witness for C6 at two concrete strictly well-formed texts exercising
every segment kind. -/
theorem normalizeCode_invariance_strict_witness :
    SegsWFStrict wSegs1 = true ∧ SegsWFStrict wSegs2 = true ∧
    similarSegs wSegs1 wSegs2 = true ∧
    normalizeCode (String.mk (render wSegs1)) =
      normalizeCode (String.mk (render wSegs2)) := by
  refine ⟨by decide, by decide, by decide, ?_⟩
  exact (normalizeCode_invariance_strict wSegs1 wSegs2 (by decide) (by decide)
    (by decide)).1
